import Mathlib

/-!
# A precedence-climbing expression parser (`parse.c`)

A shallow embedding of the lexer (`lexer_skip_whitespace`, `next_token`) and of
the precedence-climbing parser (`parse_expression`) of `parse.c`, followed by
the properties proved about them.

Conventions of the embedding:

* the source buffer is a list of bytes (`List Nat`), a `char*` into it is an
  offset from its first byte; a read at an offset outside the list is the
  fault `Fault.outOfBounds` (undefined behaviour in C);
* `exit(1)` is a returned `Fault`; `malloc` is taken to succeed;
* `int length` is a natural number: the model describes buffers in which no
  run of digits reaches `INT_MAX` characters;
* the recursion of `parse_expression` is bounded by a fuel argument, one unit
  per call and per iteration of its loop; `parse` supplies enough of it.
-/

namespace Pratt

/-! ## Data model -/

/-- The enum `Precedence`. -/
inductive Precedence
  | PREC_NONE
  | PREC_ASSIGNMENT
  | PREC_TERM
  | PREC_FACTOR
  | PREC_UNARY
  | PREC_PRIMARY
  deriving DecidableEq, Repr

/-- The integer value of a `Precedence` enumerator, used by `<=`. -/
def Precedence.toNat : Precedence → Nat
  | .PREC_NONE => 0
  | .PREC_ASSIGNMENT => 1
  | .PREC_TERM => 2
  | .PREC_FACTOR => 3
  | .PREC_UNARY => 4
  | .PREC_PRIMARY => 5

/-- The enum `TokenKind`. -/
inductive TokenKind
  | TOKEN_EOF
  | TOKEN_NUMBER
  | TOKEN_PLUS
  | TOKEN_MINUS
  | TOKEN_STAR
  | TOKEN_SLASH
  | TOKEN_LPAREN
  | TOKEN_RPAREN
  deriving DecidableEq, Repr

/-- The struct `Token`: `start` is the offset of the lexeme in the buffer. -/
structure Token where
  kind : TokenKind
  start : Nat
  length : Nat
  deriving DecidableEq, Repr

/-- The enum `ASTNodeType`. -/
inductive ASTNodeType
  | AST_BINARY
  | AST_UNARY
  | AST_NUMBER
  deriving DecidableEq, Repr

/-- A pointer to a node of the shape of `struct ASTNode`, over the type `τ` of
its `token` field: either `NULL` or a node with its two child pointers, its
type and its token. -/
inductive Tree (τ : Type)
  | null : Tree τ
  | node (left right : Tree τ) (type : ASTNodeType) (token : τ) : Tree τ
  deriving DecidableEq, Repr

/-- An `ASTNode*`: the token field is a `Token`. -/
abbrev ASTNode := Tree Token

/-- The struct `Lexer`: the buffer and the offset `current` into it. -/
structure Lexer where
  buffer : List Nat
  current : Nat
  deriving DecidableEq, Repr

/-- The ways a run stops without a result. -/
inductive Fault
  | unexpectedCharacter (c : Nat)
  | unexpectedToken (token : Token)
  | expectedRParen
  | outOfBounds
  | outOfFuel
  deriving DecidableEq, Repr

/-- Results are compared by their constructor and payload. -/
instance instDecidableEqExcept {ε α : Type} [DecidableEq ε] [DecidableEq α] :
    DecidableEq (Except ε α)
  | .ok a, .ok b => if h : a = b then isTrue (by rw [h]) else isFalse (by intro e; cases e; exact h rfl)
  | .error a, .error b =>
    if h : a = b then isTrue (by rw [h]) else isFalse (by intro e; cases e; exact h rfl)
  | .ok _, .error _ => isFalse (by intro e; cases e)
  | .error _, .ok _ => isFalse (by intro e; cases e)

/-! ## Lexer -/

/-- The loop condition of `lexer_skip_whitespace`: space, newline, carriage
return or tab. -/
def isSpace (c : Nat) : Bool :=
  c = 32 || c = 10 || c = 13 || c = 9

/-- The test `c >= '0' && c <= '9'`. -/
def isDigit (c : Nat) : Bool :=
  48 ≤ c && c ≤ 57

/-- The loop of `lexer_skip_whitespace` over the unread bytes: the cursor it
stops at, or `none` when it runs off the buffer. -/
def skipFrom : List Nat → Nat → Option Nat
  | [], _ => none
  | c :: rest, cur => if isSpace c then skipFrom rest (cur + 1) else some cur

/-- The function `lexer_skip_whitespace`. -/
def lexer_skip_whitespace (lexer : Lexer) : Except Fault Lexer :=
  match skipFrom (lexer.buffer.drop lexer.current) lexer.current with
  | none => .error .outOfBounds
  | some cur => .ok { lexer with current := cur }

/-- The loop of `next_token` that extends a number over the bytes after its
first digit: the final `token.length`, or `none` when it runs off the buffer. -/
def scanDigits : List Nat → Nat → Option Nat
  | [], _ => none
  | c :: rest, len => if isDigit c then scanDigits rest (len + 1) else some len

/-- The non-default cases of the `switch` of `next_token`. -/
def charKind (c : Nat) : Option TokenKind :=
  if c = 0 then some .TOKEN_EOF
  else if c = 43 then some .TOKEN_PLUS
  else if c = 45 then some .TOKEN_MINUS
  else if c = 42 then some .TOKEN_STAR
  else if c = 47 then some .TOKEN_SLASH
  else if c = 40 then some .TOKEN_LPAREN
  else if c = 41 then some .TOKEN_RPAREN
  else none

/-- The function `next_token`: the token and the lexer it leaves. -/
def next_token (lexer : Lexer) : Except Fault (Token × Lexer) :=
  match lexer_skip_whitespace lexer with
  | .error f => .error f
  | .ok lexer =>
    match lexer.buffer[lexer.current]? with
    | none => .error .outOfBounds
    | some c =>
      match charKind c with
      | some kind =>
        .ok ({ kind := kind, start := lexer.current, length := 1 },
             { lexer with current := lexer.current + 1 })
      | none =>
        if isDigit c then
          match scanDigits (lexer.buffer.drop (lexer.current + 1)) 1 with
          | none => .error .outOfBounds
          | some length =>
            .ok ({ kind := .TOKEN_NUMBER, start := lexer.current, length := length },
                 { lexer with current := lexer.current + length })
        else .error (.unexpectedCharacter c)

/-- The function `init_lexer`. -/
def init_lexer (buffer : List Nat) : Lexer :=
  { buffer := buffer, current := 0 }

/-! ## Parser -/

/-- The function `create_ast_node`. -/
def create_ast_node {τ : Type} (type : ASTNodeType) (token : τ) : Tree τ :=
  .node .null .null type token

/-- The assignment `node->left = child`. -/
def Tree.setLeft {τ : Type} : Tree τ → Tree τ → Tree τ
  | .null, _ => .null
  | .node _ right type token, child => .node child right type token

/-- The assignment `node->right = child`. -/
def Tree.setRight {τ : Type} : Tree τ → Tree τ → Tree τ
  | .null, _ => .null
  | .node left _ type token, child => .node left child type token

/-- The `switch` of the loop of `parse_expression`: the binary precedence of a
token, `none` for its `default` case. -/
def binaryPrecedence : TokenKind → Option Precedence
  | .TOKEN_PLUS => some .PREC_TERM
  | .TOKEN_MINUS => some .PREC_TERM
  | .TOKEN_STAR => some .PREC_FACTOR
  | .TOKEN_SLASH => some .PREC_FACTOR
  | _ => none

/-- The statement `lexer->current -= token.length`. -/
def pushBack (lexer : Lexer) (token : Token) : Lexer :=
  { lexer with current := lexer.current - token.length }

mutual
/-- The function `parse_expression`, with a fuel bound. -/
def parse_expression : Nat → Lexer → Precedence → Except Fault (ASTNode × Lexer)
  | 0, _, _ => .error .outOfFuel
  | fuel + 1, lexer, precedence =>
    match next_token lexer with
    | .error f => .error f
    | .ok (token, lexer) =>
      match token.kind with
      | .TOKEN_NUMBER =>
        parse_loop fuel lexer precedence (create_ast_node .AST_NUMBER token)
      | .TOKEN_LPAREN =>
        match parse_expression fuel lexer .PREC_ASSIGNMENT with
        | .error f => .error f
        | .ok (left, lexer) =>
          match next_token lexer with
          | .error f => .error f
          | .ok (closing, lexer) =>
            if closing.kind ≠ .TOKEN_RPAREN then .error .expectedRParen
            else parse_loop fuel lexer precedence left
      | .TOKEN_PLUS | .TOKEN_MINUS =>
        match parse_expression fuel lexer .PREC_UNARY with
        | .error f => .error f
        | .ok (operand, lexer) =>
          parse_loop fuel lexer precedence
            ((create_ast_node .AST_UNARY token).setLeft operand)
      | _ => .error (.unexpectedToken token)
/-- The `while (1)` loop of `parse_expression`, entered with the subtree
`left` built so far. -/
def parse_loop : Nat → Lexer → Precedence → ASTNode → Except Fault (ASTNode × Lexer)
  | 0, _, _, _ => .error .outOfFuel
  | fuel + 1, lexer, precedence, left =>
    match next_token lexer with
    | .error f => .error f
    | .ok (next, lexer) =>
      match binaryPrecedence next.kind with
      | none => .ok (left, pushBack lexer next)
      | some next_precedence =>
        if next_precedence.toNat ≤ precedence.toNat then
          .ok (left, pushBack lexer next)
        else
          match parse_expression fuel lexer next_precedence with
          | .error f => .error f
          | .ok (right, lexer) =>
            parse_loop fuel lexer precedence
              (((create_ast_node .AST_BINARY next).setLeft left).setRight right)
end

/-- The bytes of a text followed by the terminating NUL. -/
def cstring (s : String) : List Nat :=
  s.toList.map Char.toNat ++ [0]

/-- The call `parse_expression(&lexer, precedence)` with fuel for the whole
of the unread buffer. -/
def parse (lexer : Lexer) (precedence : Precedence) : Except Fault (ASTNode × Lexer) :=
  parse_expression (lexer.buffer.length - lexer.current + 2) lexer precedence

/-! ## The token sequence of an input -/

/-- The tokens `next_token` returns from a lexer state on, in order, up to and
including the end-of-input token; `none` stands for a call that returns no
token, after which the sequence ends. -/
def tokensAux : Nat → Lexer → List (Option Token)
  | 0, _ => []
  | fuel + 1, lexer =>
    match next_token lexer with
    | .error _ => [none]
    | .ok (token, lexer) =>
      if token.kind = .TOKEN_EOF then [some token] else some token :: tokensAux fuel lexer

/-- The token sequence of a lexer state. -/
def tokens (lexer : Lexer) : List (Option Token) :=
  tokensAux (lexer.buffer.length - lexer.current + 1) lexer

/-- A token seen as its kind and the text of its lexeme. -/
structure Lexeme where
  kind : TokenKind
  text : List Nat
  deriving DecidableEq, Repr

/-- The lexeme of a token: the `length` bytes of the buffer at `start`. -/
def lexemeOf (buffer : List Nat) (token : Token) : Lexeme :=
  { kind := token.kind, text := (buffer.drop token.start).take token.length }

/-- The token sequence of a lexer state as kinds and lexeme texts. -/
def lexemes (lexer : Lexer) : List (Option Lexeme) :=
  (tokens lexer).map (Option.map (lexemeOf lexer.buffer))

/-- The result of `next_token` in terms of the unread bytes alone: the kind of
the token, the number of bytes skipped before it and its length. -/
def lexSuffix (l : List Nat) : Except Fault (TokenKind × Nat × Nat) :=
  match l.dropWhile isSpace with
  | [] => .error .outOfBounds
  | c :: rest =>
    match charKind c with
    | some kind => .ok (kind, (l.takeWhile isSpace).length, 1)
    | none =>
      if isDigit c then
        match rest.dropWhile isDigit with
        | [] => .error .outOfBounds
        | _ :: _ => .ok (.TOKEN_NUMBER, (l.takeWhile isSpace).length,
            1 + (rest.takeWhile isDigit).length)
      else .error (.unexpectedCharacter c)

/-- The lexeme sequence of the unread bytes. -/
def lexemesAux : Nat → List Nat → List (Option Lexeme)
  | 0, _ => []
  | fuel + 1, l =>
    match lexSuffix l with
    | .error _ => [none]
    | .ok (kind, skipped, length) =>
      if kind = .TOKEN_EOF then [some ⟨kind, (l.drop skipped).take length⟩]
      else some ⟨kind, (l.drop skipped).take length⟩ :: lexemesAux fuel (l.drop (skipped + length))

/-- The lexeme sequence of the unread bytes, with fuel for all of them. -/
def lexemesOf (l : List Nat) : List (Option Lexeme) :=
  lexemesAux (l.length + 1) l

/-! ## The parser over a token sequence -/

/-- How a run over a token sequence stops without a result: a call of
`next_token` that returns no token, one of the two syntax errors, or the end
of the fuel. -/
inductive Failure
  | lexer
  | unexpectedToken
  | expectedRParen
  | outOfFuel
  deriving DecidableEq, Repr

/-- The failure a fault amounts to. -/
def Fault.toFailure : Fault → Failure
  | .unexpectedToken _ => .unexpectedToken
  | .expectedRParen => .expectedRParen
  | .outOfFuel => .outOfFuel
  | .unexpectedCharacter _ => .lexer
  | .outOfBounds => .lexer

/-- The tree with every token replaced by its image. -/
def Tree.map {τ σ : Type} (f : τ → σ) : Tree τ → Tree σ
  | .null => .null
  | .node left right type token => .node (left.map f) (right.map f) type (f token)

mutual
/-- The control flow of `parse_expression` over the token sequence that
`next_token` would produce, for tokens of any type `τ` with a kind; pushing a
token back is leaving it in the sequence. -/
def climb {τ : Type} (kind : τ → TokenKind) :
    Nat → List (Option τ) → Precedence → Except Failure (Tree τ × List (Option τ))
  | 0, _, _ => .error .outOfFuel
  | _ + 1, [], _ => .error .lexer
  | _ + 1, none :: _, _ => .error .lexer
  | fuel + 1, some token :: rest, precedence =>
    match kind token with
    | .TOKEN_NUMBER =>
      climbLoop kind fuel rest precedence (create_ast_node .AST_NUMBER token)
    | .TOKEN_LPAREN =>
      match climb kind fuel rest .PREC_ASSIGNMENT with
      | .error e => .error e
      | .ok (left, rest) =>
        match rest with
        | some closing :: rest =>
          if kind closing ≠ .TOKEN_RPAREN then .error .expectedRParen
          else climbLoop kind fuel rest precedence left
        | _ => .error .lexer
    | .TOKEN_PLUS | .TOKEN_MINUS =>
      match climb kind fuel rest .PREC_UNARY with
      | .error e => .error e
      | .ok (operand, rest) =>
        climbLoop kind fuel rest precedence
          ((create_ast_node .AST_UNARY token).setLeft operand)
    | _ => .error .unexpectedToken
/-- The loop of `parse_expression` over a token sequence. -/
def climbLoop {τ : Type} (kind : τ → TokenKind) :
    Nat → List (Option τ) → Precedence → Tree τ → Except Failure (Tree τ × List (Option τ))
  | 0, _, _, _ => .error .outOfFuel
  | _ + 1, [], _, _ => .error .lexer
  | _ + 1, none :: _, _, _ => .error .lexer
  | fuel + 1, some next :: rest, precedence, left =>
    match binaryPrecedence (kind next) with
    | none => .ok (left, some next :: rest)
    | some next_precedence =>
      if next_precedence.toNat ≤ precedence.toNat then
        .ok (left, some next :: rest)
      else
        match climb kind fuel rest next_precedence with
        | .error e => .error e
        | .ok (right, rest) =>
          climbLoop kind fuel rest precedence
            (((create_ast_node .AST_BINARY next).setLeft left).setRight right)
end

/-- A result of `parse_expression` seen over token sequences: the tree with
its tokens mapped by `f`, and the token sequence of the lexer left behind. -/
def viewResult {τ : Type} (f : Token → τ) :
    Except Fault (ASTNode × Lexer) → Except Failure (Tree τ × List (Option τ))
  | .error e => .error e.toFailure
  | .ok (ast, lexer) => .ok (ast.map f, (tokens lexer).map (Option.map f))

/-- The parser over a token sequence with fuel for all of it. -/
def climbAll {τ : Type} (kind : τ → TokenKind) (ts : List (Option τ)) (precedence : Precedence) :
    Except Failure (Tree τ × List (Option τ)) :=
  climb kind (ts.length + 1) ts precedence

/-! ## Shapes: trees of lexemes -/

/-- The shape of a tree: its nodes with their types, each token as its kind
and the text of its lexeme. -/
abbrev Shape := Tree Lexeme

/-- The shape of a tree whose tokens point into `buffer`. -/
def shapeOf (buffer : List Nat) (ast : ASTNode) : Shape :=
  ast.map (lexemeOf buffer)

/-- The shape of the tree `parse_expression` returns on a lexer state, `none`
when it fails. -/
def parseShape (lexer : Lexer) (precedence : Precedence) : Option Shape :=
  match parse lexer precedence with
  | .ok (ast, _) => some (shapeOf lexer.buffer ast)
  | .error _ => none

/-- The shape of a Number node. -/
def Shape.number (a : Lexeme) : Shape := .node .null .null .AST_NUMBER a

/-- The shape of a Unary node. -/
def Shape.unary (op : Lexeme) (operand : Shape) : Shape := .node operand .null .AST_UNARY op

/-- The shape of a Binary node. -/
def Shape.binary (op : Lexeme) (left right : Shape) : Shape := .node left right .AST_BINARY op

/-- A number literal: a non-empty run of decimal digits. -/
def Lexeme.isNumber (l : Lexeme) : Bool :=
  l.kind = .TOKEN_NUMBER && !l.text.isEmpty && l.text.all isDigit

/-- The lexeme of the token `+`. -/
def Lexeme.plus : Lexeme := ⟨.TOKEN_PLUS, [43]⟩
/-- The lexeme of the token `-`. -/
def Lexeme.minus : Lexeme := ⟨.TOKEN_MINUS, [45]⟩
/-- The lexeme of the token `*`. -/
def Lexeme.star : Lexeme := ⟨.TOKEN_STAR, [42]⟩
/-- The lexeme of the token `/`. -/
def Lexeme.slash : Lexeme := ⟨.TOKEN_SLASH, [47]⟩
/-- The lexeme of the token `(`. -/
def Lexeme.lparen : Lexeme := ⟨.TOKEN_LPAREN, [40]⟩
/-- The lexeme of the token `)`. -/
def Lexeme.rparen : Lexeme := ⟨.TOKEN_RPAREN, [41]⟩
/-- The lexeme of the end-of-input token: the terminating NUL. -/
def Lexeme.eof : Lexeme := ⟨.TOKEN_EOF, [0]⟩

/-- The lexemes of `+` and `-`. -/
def Lexeme.isAdditive (l : Lexeme) : Bool := l = .plus || l = .minus

/-- The lexemes of `*` and `/`. -/
def Lexeme.isMultiplicative (l : Lexeme) : Bool := l = .star || l = .slash

/-- The lexemes of the six one-character tokens. -/
def Lexeme.isSymbol (l : Lexeme) : Bool :=
  l.isAdditive || l.isMultiplicative || l = .lparen || l = .rparen

/-- An input text: the lexemes in order, the `i`-th of them preceded by the
bytes `gap i`, then `gap` of the position after the last one and the
terminating NUL. -/
def layoutFrom (gap : Nat → List Nat) : Nat → List Lexeme → List Nat
  | i, [] => gap i ++ [0]
  | i, l :: rest => gap i ++ l.text ++ layoutFrom gap (i + 1) rest

/-- An input text with the lexemes `ls`, laid out with the gaps `gap`. -/
def layout (gap : Nat → List Nat) (ls : List Lexeme) : List Nat :=
  layoutFrom gap 0 ls

/-- A sequence of lexemes that a text can spell: numbers and one-character
tokens, no number directly followed by a number. -/
def spellable : List Lexeme → Bool
  | [] => true
  | [l] => l.isNumber || l.isSymbol
  | l :: l' :: rest =>
    ((l.isNumber && !l'.isNumber) || l.isSymbol) && spellable (l' :: rest)

/-- The lexemes `o1 a2 o2 a3 ...` of a chain of operators and operands. -/
def chainLexemes : List (Lexeme × Lexeme) → List Lexeme
  | [] => []
  | (op, operand) :: rest => op :: operand :: chainLexemes rest

/-- The left-nested tree `Binary(o(n-1), ... Binary(o1, a1, a2) ..., an)` over
a first operand and a chain of operators and operands. -/
def leftNested (first : Shape) (chain : List (Lexeme × Lexeme)) : Shape :=
  chain.foldl (fun left x => Shape.binary x.1 left (Shape.number x.2)) first

/-- The nest `Unary(s1, Unary(s2, ... Unary(sk, operand)))` of leading signs. -/
def signed (signs : List Lexeme) (operand : Shape) : Shape :=
  signs.foldr Shape.unary operand

/-- A NUL-terminated buffer, seen from the offset `i`: a NUL byte lies at or
after `i`. -/
def terminatedFrom (buffer : List Nat) (i : Nat) : Bool :=
  (buffer.drop i).contains 0

/-- The loop of the parser over a token sequence with fuel for all of it. -/
def climbLoopAll {τ : Type} (kind : τ → TokenKind) (ts : List (Option τ))
    (precedence : Precedence) (left : Tree τ) : Except Failure (Tree τ × List (Option τ)) :=
  climbLoop kind (ts.length + 1) ts precedence left

/-! ## The reference parser: recursive descent over the stratified grammar

```
E := T (('+' | '-') T)*
T := U (('*' | '/') U)*
U := ('+' | '-') U | P
P := NUMBER | '(' E ')'
```

One function per nonterminal, one more for each repetition, which folds the
chain to the left. Each returns the tree and the tokens it has not consumed.
A repetition looks at the next token to decide whether to go on. -/

/-- The operators of `E`: `+` and `-`. -/
def isAdditiveKind (k : TokenKind) : Bool :=
  k = .TOKEN_PLUS || k = .TOKEN_MINUS

/-- The operators of `T`: `*` and `/`. -/
def isMultiplicativeKind (k : TokenKind) : Bool :=
  k = .TOKEN_STAR || k = .TOKEN_SLASH

mutual
/-- The nonterminal `E := T (('+' | '-') T)*`. -/
def refE {τ : Type} (kind : τ → TokenKind) :
    Nat → List (Option τ) → Except Failure (Tree τ × List (Option τ))
  | 0, _ => .error .outOfFuel
  | fuel + 1, ts =>
    match refT kind fuel ts with
    | .error e => .error e
    | .ok (left, rest) => refETail kind fuel rest left
/-- The repetition `(('+' | '-') T)*` after the tree `left`. -/
def refETail {τ : Type} (kind : τ → TokenKind) :
    Nat → List (Option τ) → Tree τ → Except Failure (Tree τ × List (Option τ))
  | 0, _, _ => .error .outOfFuel
  | fuel + 1, some op :: rest, left =>
    if isAdditiveKind (kind op) then
      match refT kind fuel rest with
      | .error e => .error e
      | .ok (right, rest) => refETail kind fuel rest (.node left right .AST_BINARY op)
    else .ok (left, some op :: rest)
  | _ + 1, _, _ => .error .lexer
/-- The nonterminal `T := U (('*' | '/') U)*`. -/
def refT {τ : Type} (kind : τ → TokenKind) :
    Nat → List (Option τ) → Except Failure (Tree τ × List (Option τ))
  | 0, _ => .error .outOfFuel
  | fuel + 1, ts =>
    match refU kind fuel ts with
    | .error e => .error e
    | .ok (left, rest) => refTTail kind fuel rest left
/-- The repetition `(('*' | '/') U)*` after the tree `left`. -/
def refTTail {τ : Type} (kind : τ → TokenKind) :
    Nat → List (Option τ) → Tree τ → Except Failure (Tree τ × List (Option τ))
  | 0, _, _ => .error .outOfFuel
  | fuel + 1, some op :: rest, left =>
    if isMultiplicativeKind (kind op) then
      match refU kind fuel rest with
      | .error e => .error e
      | .ok (right, rest) => refTTail kind fuel rest (.node left right .AST_BINARY op)
    else .ok (left, some op :: rest)
  | _ + 1, _, _ => .error .lexer
/-- The nonterminal `U := ('+' | '-') U | P`. -/
def refU {τ : Type} (kind : τ → TokenKind) :
    Nat → List (Option τ) → Except Failure (Tree τ × List (Option τ))
  | 0, _ => .error .outOfFuel
  | fuel + 1, some sign :: rest =>
    if isAdditiveKind (kind sign) then
      match refU kind fuel rest with
      | .error e => .error e
      | .ok (operand, rest) => .ok (.node operand .null .AST_UNARY sign, rest)
    else refP kind fuel (some sign :: rest)
  | _ + 1, _ => .error .lexer
/-- The nonterminal `P := NUMBER | '(' E ')'`. -/
def refP {τ : Type} (kind : τ → TokenKind) :
    Nat → List (Option τ) → Except Failure (Tree τ × List (Option τ))
  | 0, _ => .error .outOfFuel
  | fuel + 1, some token :: rest =>
    match kind token with
    | .TOKEN_NUMBER => .ok (.node .null .null .AST_NUMBER token, rest)
    | .TOKEN_LPAREN =>
      match refE kind fuel rest with
      | .error e => .error e
      | .ok (inner, rest) =>
        match rest with
        | some closing :: rest =>
          if kind closing = .TOKEN_RPAREN then .ok (inner, rest) else .error .expectedRParen
        | _ => .error .lexer
    | _ => .error .unexpectedToken
  | _ + 1, _ => .error .lexer
end

/-- The reference parser for `E` with fuel for the whole token sequence. -/
def referenceE {τ : Type} (kind : τ → TokenKind) (ts : List (Option τ)) :
    Except Failure (Tree τ × List (Option τ)) :=
  refE kind (4 * ts.length + 4) ts

/-- The reference parser for `T` with fuel for the whole token sequence. -/
def referenceT {τ : Type} (kind : τ → TokenKind) (ts : List (Option τ)) :
    Except Failure (Tree τ × List (Option τ)) :=
  refT kind (4 * ts.length + 4) ts

/-- The reference parser for `U` with fuel for the whole token sequence. -/
def referenceU {τ : Type} (kind : τ → TokenKind) (ts : List (Option τ)) :
    Except Failure (Tree τ × List (Option τ)) :=
  refU kind (4 * ts.length + 4) ts

/-- A token sequence of tokens only, the last of them the end of input. -/
def properTokens {τ : Type} (kind : τ → TokenKind) : List (Option τ) → Prop
  | [] => False
  | none :: _ => False
  | [some e] => kind e = .TOKEN_EOF
  | some _ :: next :: rest => properTokens kind (next :: rest)

/-- A result of `parse_expression` with the lexer it leaves replaced by the
token sequence of that lexer. -/
def tokenResult : Except Fault (ASTNode × Lexer) →
    Except Failure (ASTNode × List (Option Token))
  | .error e => .error e.toFailure
  | .ok (ast, lexer) => .ok (ast, tokens lexer)

/-! ## Trees: well-formedness, flattening, size -/

/-- The test `node == NULL`. -/
def Tree.isNull {τ : Type} : Tree τ → Bool
  | .null => true
  | .node _ _ _ _ => false

/-- The tokens `+ - * /`: those with a binary precedence. -/
def isBinaryKind (k : TokenKind) : Bool :=
  (binaryPrecedence k).isSome

/-- A well-formed tree: not `NULL`; a Number node has a Number token and no
children; a Unary node has a `+` or `-` token, a well-formed (so non-null)
left child and no right child; a Binary node has a `+`, `-`, `*` or `/` token
and two well-formed (so non-null) children. -/
def Tree.wellFormed {τ : Type} (kind : τ → TokenKind) : Tree τ → Bool
  | .null => false
  | .node left right type token =>
    match type with
    | .AST_NUMBER => kind token = .TOKEN_NUMBER && left.isNull && right.isNull
    | .AST_UNARY => isAdditiveKind (kind token) && left.wellFormed kind && right.isNull
    | .AST_BINARY => isBinaryKind (kind token) && left.wellFormed kind && right.wellFormed kind

/-- The in-order flattening of a tree: a Number node is its token, a Unary
node its operator token then its operand, a Binary node its left child, its
operator token, its right child. -/
def Tree.flatten {τ : Type} : Tree τ → List τ
  | .null => []
  | .node left right type token =>
    match type with
    | .AST_NUMBER => [token]
    | .AST_UNARY => token :: left.flatten
    | .AST_BINARY => left.flatten ++ token :: right.flatten

/-- The number of nodes of a tree. -/
def Tree.size {τ : Type} : Tree τ → Nat
  | .null => 0
  | .node left right _ _ => 1 + left.size + right.size

/-- The tokens `(` and `)`. -/
def isParenKind (k : TokenKind) : Bool :=
  k = .TOKEN_LPAREN || k = .TOKEN_RPAREN

/-- A sequence of tokens with the parentheses removed. -/
def withoutParens {τ : Type} (kind : τ → TokenKind) (ts : List τ) : List τ :=
  ts.filter fun t => !isParenKind (kind t)

/-! ## Printer and program entry -/

/-- The bytes of a text, without a terminator. -/
def bytes (s : String) : List Nat :=
  s.toList.map Char.toNat

/-- The call `printf("%.*s", length, start)` on the bytes at `start`: at most
`length` bytes are written, and writing stops before a NUL. A read outside
the buffer is a fault. -/
def printLexeme : List Nat → Nat → Except Fault (List Nat)
  | _, 0 => .ok []
  | [], _ + 1 => .error .outOfBounds
  | c :: rest, length + 1 =>
    if c = 0 then .ok []
    else
      match printLexeme rest length with
      | .error f => .error f
      | .ok text => .ok (c :: text)

/-- The function `print_ast`: the bytes it writes to the standard output.
The tree is only read. -/
def print_ast (buffer : List Nat) : ASTNode → Except Fault (List Nat)
  | .null => .ok []
  | .node left right type token =>
    match type with
    | .AST_BINARY =>
      match printLexeme (buffer.drop token.start) token.length with
      | .error f => .error f
      | .ok op =>
        match print_ast buffer left with
        | .error f => .error f
        | .ok l =>
          match print_ast buffer right with
          | .error f => .error f
          | .ok r => .ok ([40] ++ op ++ [32] ++ l ++ [32] ++ r ++ [41])
    | .AST_UNARY =>
      match printLexeme (buffer.drop token.start) token.length with
      | .error f => .error f
      | .ok op =>
        match print_ast buffer left with
        | .error f => .error f
        | .ok l => .ok ([40] ++ op ++ [32] ++ l ++ [41])
    | .AST_NUMBER => printLexeme (buffer.drop token.start) token.length

/-- The printed form of a shape, as the contract of the printer words it: a
Number is its lexeme text; a Unary is `(`, the operator lexeme, a space, the
operand, `)`; a Binary is `(`, the operator lexeme, a space, the left child,
a space, the right child, `)`. -/
def render : Shape → List Nat
  | .null => []
  | .node left right type lexeme =>
    match type with
    | .AST_NUMBER => lexeme.text
    | .AST_UNARY => [40] ++ lexeme.text ++ [32] ++ render left ++ [41]
    | .AST_BINARY => [40] ++ lexeme.text ++ [32] ++ render left ++ [32] ++ render right ++ [41]

/-- The test that every token of a tree passes `q`. -/
def Tree.all {τ : Type} (q : τ → Bool) : Tree τ → Bool
  | .null => true
  | .node left right _ token => q token && left.all q && right.all q

/-- A token whose lexeme lies in the buffer and holds no NUL: the bytes that
`%.*s` writes for it are its lexeme. -/
def hasLexeme (buffer : List Nat) (t : Token) : Bool :=
  decide (t.start + t.length ≤ buffer.length) &&
    ((buffer.drop t.start).take t.length).all fun c => c ≠ 0

/-- What the program has written when it stops on a fault: the message of
the `printf` before `exit(1)`. The two faults of the model that are no
`exit(1)` of the source write nothing. -/
def faultMessage (buffer : List Nat) : Fault → List Nat
  | .unexpectedCharacter c => bytes "Unexpected character: " ++ [c] ++ [10]
  | .unexpectedToken token =>
    match printLexeme (buffer.drop token.start) token.length with
    | .ok text => bytes "Unexpected token: " ++ text ++ [10]
    | .error _ => bytes "Unexpected token: "
  | .expectedRParen => bytes "Expected ')'\n"
  | .outOfBounds => []
  | .outOfFuel => []

/-- The function `main` from the point where the bytes of the file have been
read: the bytes written to the standard output and the exit status. The
buffer is the file followed by a NUL; `printf("%s\n", buffer)` writes it up
to its first NUL. A fault of the parser ends the program with status 1 after
its message; a read outside the buffer by the printer, which the source
leaves undefined, is shown as status 1. -/
def main (file : List Nat) : List Nat × Nat :=
  let buffer := file ++ [0]
  let input := bytes "Input: \n" ++ buffer.takeWhile (fun c => c ≠ 0) ++ [10]
  match parse_expression (buffer.length + 2) (init_lexer buffer) .PREC_ASSIGNMENT with
  | .error f => (input ++ faultMessage buffer f, 1)
  | .ok (root, _) =>
    match print_ast buffer root with
    | .ok text => (input ++ bytes "Parsed expression:\n" ++ text ++ [10], 0)
    | .error _ => (input ++ bytes "Parsed expression:\n", 1)

/-- A result of `parse_expression` without the buffer: the tree and the
cursor left behind, or the fault. -/
def cursorResult : Except Fault (ASTNode × Lexer) → Except Fault (ASTNode × Nat)
  | .error f => .error f
  | .ok (ast, lexer) => .ok (ast, lexer.current)

/-! ## Texts that differ in whitespace only -/

/-- An input text: the lexemes in order, the `i`-th of them preceded by the
bytes `gap i`, then `gap` of the position after the last one and the bytes
`tail`, which hold the rest of the buffer (for a text that ends there, the
terminating NUL). -/
def layoutWith (gap : Nat → List Nat) (tail : List Nat) : Nat → List Lexeme → List Nat
  | i, [] => gap i ++ tail
  | i, l :: rest => gap i ++ l.text ++ layoutWith gap tail (i + 1) rest

/-- A byte follows, and it is not a digit: a number literal that stands
before these bytes ends there. -/
def endsNumber : List Nat → Bool
  | [] => false
  | c :: _ => !isDigit c

/-- The text laid out from the lexemes spells them: every lexeme is a number
literal or a one-character token, and every number literal is followed by a
byte that is not a digit. -/
def separated (gap : Nat → List Nat) (tail : List Nat) : Nat → List Lexeme → Bool
  | _, [] => true
  | i, l :: rest =>
    (l.isSymbol || (l.isNumber && endsNumber (layoutWith gap tail (i + 1) rest))) &&
      separated gap tail (i + 1) rest

/-! # Properties -/

/-! ## Lexer lemmas -/

theorem skipFrom_eq (l : List Nat) (cur : Nat) :
    skipFrom l cur =
      match l.dropWhile isSpace with
      | [] => none
      | _ :: _ => some (cur + (l.takeWhile isSpace).length) := by
  induction l generalizing cur with
  | nil => simp [skipFrom]
  | cons c rest ih =>
    by_cases hc : isSpace c = true
    · simp only [skipFrom, hc, if_true, List.dropWhile_cons_of_pos, List.takeWhile_cons_of_pos, ih]
      cases rest.dropWhile isSpace <;> simp; omega
    · simp [skipFrom, hc, List.dropWhile, List.takeWhile]

theorem scanDigits_eq (l : List Nat) (len : Nat) :
    scanDigits l len =
      match l.dropWhile isDigit with
      | [] => none
      | _ :: _ => some (len + (l.takeWhile isDigit).length) := by
  induction l generalizing len with
  | nil => simp [scanDigits]
  | cons c rest ih =>
    by_cases hc : isDigit c = true
    · simp only [scanDigits, hc, if_true, List.dropWhile_cons_of_pos, List.takeWhile_cons_of_pos, ih]
      cases rest.dropWhile isDigit <;> simp; omega
    · simp [scanDigits, hc, List.dropWhile, List.takeWhile]

theorem drop_takeWhile_length (p : Nat → Bool) (l : List Nat) :
    l.drop (l.takeWhile p).length = l.dropWhile p := by
  induction l with
  | nil => simp
  | cons c rest ih =>
    by_cases hc : p c = true
    · simp [List.takeWhile_cons_of_pos, List.dropWhile_cons_of_pos, hc, ih]
    · simp [List.takeWhile, List.dropWhile, hc]

/-- The function `next_token` computed from the unread bytes. -/
theorem next_token_eq (lexer : Lexer) :
    next_token lexer =
      match lexSuffix (lexer.buffer.drop lexer.current) with
      | .error f => .error f
      | .ok (kind, skipped, length) =>
        .ok ({ kind := kind, start := lexer.current + skipped, length := length },
             { buffer := lexer.buffer, current := lexer.current + skipped + length }) := by
  obtain ⟨buf, cur⟩ := lexer
  have hd := drop_takeWhile_length isSpace (buf.drop cur)
  rw [List.drop_drop] at hd
  simp only [next_token, lexer_skip_whitespace, skipFrom_eq, lexSuffix]
  cases hw : (buf.drop cur).dropWhile isSpace with
  | nil => simp
  | cons c rest =>
    rw [hw] at hd
    have hget : buf[cur + ((buf.drop cur).takeWhile isSpace).length]? = some c := by
      rw [← List.head?_drop, hd]; rfl
    have hrest : buf.drop (cur + ((buf.drop cur).takeWhile isSpace).length + 1) = rest := by
      rw [← List.drop_drop, hd]; rfl
    simp only [hget]
    cases hk : charKind c with
    | some kind => simp
    | none =>
      by_cases hdig : isDigit c = true
      · simp only [hdig, if_true, hrest, scanDigits_eq]
        cases rest.dropWhile isDigit <;> simp
      · simp [hdig]

theorem lexSuffix_fault {l : List Nat} {f : Fault} (h : lexSuffix l = .error f) :
    f = .outOfBounds ∨ ∃ c, f = .unexpectedCharacter c := by
  unfold lexSuffix at h
  split at h
  · cases h; exact Or.inl rfl
  · split at h
    · cases h
    · split at h
      · split at h
        · cases h; exact Or.inl rfl
        · cases h
      · cases h; exact Or.inr ⟨_, rfl⟩

theorem takeWhile_length_add_dropWhile (p : Nat → Bool) (l : List Nat) :
    (l.takeWhile p).length + (l.dropWhile p).length = l.length := by
  conv_rhs => rw [← List.takeWhile_append_dropWhile p l]
  rw [List.length_append]

theorem lexSuffix_bounds {l : List Nat} {kind : TokenKind} {skipped length : Nat}
    (h : lexSuffix l = .ok (kind, skipped, length)) :
    1 ≤ length ∧ skipped + length ≤ l.length := by
  unfold lexSuffix at h
  have hl := takeWhile_length_add_dropWhile isSpace l
  split at h
  · cases h
  · rename_i c rest hw
    rw [hw] at hl
    split at h
    · cases h; simp at hl ⊢; omega
    · split at h
      · have hr := takeWhile_length_add_dropWhile isDigit rest
        split at h
        · cases h
        · rename_i d rest2 hd
          rw [hd] at hr
          cases h; simp at hl hr ⊢; omega
      · cases h

theorem dropWhile_isSpace_idem (l : List Nat) :
    (l.dropWhile isSpace).dropWhile isSpace = l.dropWhile isSpace := by
  induction l with
  | nil => simp
  | cons c rest ih =>
    by_cases hc : isSpace c = true
    · simp [List.dropWhile_cons_of_pos, hc, ih]
    · simp [List.dropWhile, hc]

theorem takeWhile_isSpace_dropWhile (l : List Nat) :
    (l.dropWhile isSpace).takeWhile isSpace = [] := by
  induction l with
  | nil => simp
  | cons c rest ih =>
    by_cases hc : isSpace c = true
    · simp [List.dropWhile_cons_of_pos, hc, ih]
    · simp [List.dropWhile, List.takeWhile, hc]

/-- Lexing again from the first byte of a token gives the same token. -/
theorem lexSuffix_drop {l : List Nat} {kind : TokenKind} {skipped length : Nat}
    (h : lexSuffix l = .ok (kind, skipped, length)) :
    lexSuffix (l.drop skipped) = .ok (kind, 0, length) := by
  have hs : skipped = (l.takeWhile isSpace).length := by
    unfold lexSuffix at h
    split at h
    · cases h
    · split at h
      · cases h; rfl
      · split at h
        · split at h
          · cases h
          · cases h; rfl
        · cases h
  subst hs
  rw [drop_takeWhile_length]
  unfold lexSuffix at h ⊢
  rw [dropWhile_isSpace_idem, takeWhile_isSpace_dropWhile]
  split at h
  · cases h
  · rename_i c rest hw
    cases hk : charKind c with
    | some k => simp only [hk] at h ⊢; cases h; rfl
    | none =>
      simp only [hk] at h ⊢
      by_cases hdig : isDigit c = true
      · simp only [hdig, if_true] at h ⊢
        cases hd : rest.dropWhile isDigit with
        | nil => simp [hd] at h
        | cons d rest2 => simp only [hd] at h ⊢; cases h; rfl
      · simp [hdig] at h

theorem next_token_fault {lexer : Lexer} {f : Fault} (h : next_token lexer = .error f) :
    f = .outOfBounds ∨ ∃ c, f = .unexpectedCharacter c := by
  rw [next_token_eq] at h
  cases hs : lexSuffix (lexer.buffer.drop lexer.current) with
  | error g => rw [hs] at h; cases h; exact lexSuffix_fault hs
  | ok r => rw [hs] at h; cases h

/-- What a successful `next_token` leaves: the same buffer, the cursor just
past the token, a token of at least one byte that lies inside the buffer at or
after the old cursor. -/
theorem next_token_facts {lexer lexer' : Lexer} {token : Token}
    (h : next_token lexer = .ok (token, lexer')) :
    lexer'.buffer = lexer.buffer ∧ lexer'.current = token.start + token.length ∧
      lexer.current ≤ token.start ∧ 1 ≤ token.length ∧
      lexer'.current ≤ lexer.buffer.length := by
  rw [next_token_eq] at h
  cases hs : lexSuffix (lexer.buffer.drop lexer.current) with
  | error g => rw [hs] at h; cases h
  | ok r =>
    obtain ⟨kind, skipped, length⟩ := r
    rw [hs] at h
    have hb := lexSuffix_bounds hs
    simp only [List.length_drop] at hb
    cases h
    refine ⟨rfl, rfl, Nat.le_add_right _ _, hb.1, ?_⟩
    simp only; omega

/-- Lexing again from the first byte of the token just returned gives the same
token and the same lexer. -/
theorem next_token_restart {lexer lexer' : Lexer} {token : Token}
    (h : next_token lexer = .ok (token, lexer')) :
    next_token { buffer := lexer.buffer, current := token.start } = .ok (token, lexer') := by
  rw [next_token_eq] at h ⊢
  cases hs : lexSuffix (lexer.buffer.drop lexer.current) with
  | error g => rw [hs] at h; cases h
  | ok r =>
    obtain ⟨kind, skipped, length⟩ := r
    rw [hs] at h
    have hd := lexSuffix_drop hs
    rw [List.drop_drop] at hd
    cases h
    simp only [hd, Nat.add_zero]

theorem pushBack_eq {lexer lexer' : Lexer} {token : Token}
    (h : next_token lexer = .ok (token, lexer')) :
    pushBack lexer' token = { buffer := lexer.buffer, current := token.start } := by
  obtain ⟨hb, hc, _, _, _⟩ := next_token_facts h
  simp [pushBack, hb, hc]

/-- After `lexer->current -= token.length` the token is read again. -/
theorem next_token_pushBack {lexer lexer' : Lexer} {token : Token}
    (h : next_token lexer = .ok (token, lexer')) :
    next_token (pushBack lexer' token) = .ok (token, lexer') := by
  rw [pushBack_eq h]; exact next_token_restart h

/-! ## Token sequence lemmas -/

theorem tokensAux_fuel (n m : Nat) (lexer : Lexer)
    (hn : lexer.buffer.length - lexer.current + 1 ≤ n)
    (hm : lexer.buffer.length - lexer.current + 1 ≤ m) :
    tokensAux n lexer = tokensAux m lexer := by
  induction n generalizing m lexer with
  | zero => omega
  | succ n ih =>
    cases m with
    | zero => omega
    | succ m =>
      simp only [tokensAux]
      cases h : next_token lexer with
      | error f => rfl
      | ok r =>
        obtain ⟨token, lexer'⟩ := r
        obtain ⟨hb, hc, hs, hl, hle⟩ := next_token_facts h
        simp only
        split
        · rfl
        · rw [ih m lexer' (by rw [hb]; omega) (by rw [hb]; omega)]

theorem tokens_unfold (lexer : Lexer) :
    tokens lexer =
      match next_token lexer with
      | .error _ => [none]
      | .ok (token, lexer') =>
        if token.kind = .TOKEN_EOF then [some token] else some token :: tokens lexer' := by
  rw [tokens, tokensAux]
  cases h : next_token lexer with
  | error f => rfl
  | ok r =>
    obtain ⟨token, lexer'⟩ := r
    obtain ⟨hb, hc, hs, hl, hle⟩ := next_token_facts h
    simp only
    split
    · rfl
    · rw [tokens, tokensAux_fuel _ (lexer'.buffer.length - lexer'.current + 1) lexer'
        (by rw [hb]; omega) (le_refl _)]

theorem tokens_pushBack {lexer lexer' : Lexer} {token : Token}
    (h : next_token lexer = .ok (token, lexer')) :
    tokens (pushBack lexer' token) = tokens lexer := by
  rw [tokens_unfold (pushBack lexer' token), tokens_unfold lexer, next_token_pushBack h, h]

theorem tokens_length (lexer : Lexer) :
    (tokens lexer).length ≤ lexer.buffer.length - lexer.current + 1 := by
  have key : ∀ n (lx : Lexer), (tokensAux n lx).length ≤ n := by
    intro n
    induction n with
    | zero => intro lx; simp [tokensAux]
    | succ n ih =>
      intro lx
      simp only [tokensAux]
      cases h : next_token lx with
      | error f => simp
      | ok r =>
        obtain ⟨token, lx'⟩ := r
        simp only
        split
        · simp
        · simpa using ih lx'
  exact key _ lexer

theorem lexemesAux_tokensAux (n : Nat) (lexer : Lexer) :
    (tokensAux n lexer).map (Option.map (lexemeOf lexer.buffer)) =
      lexemesAux n (lexer.buffer.drop lexer.current) := by
  induction n generalizing lexer with
  | zero => rfl
  | succ n ih =>
    simp only [tokensAux, lexemesAux, next_token_eq]
    cases hs : lexSuffix (lexer.buffer.drop lexer.current) with
    | error g => rfl
    | ok r =>
      obtain ⟨kind, skipped, length⟩ := r
      simp only
      have ht : lexemeOf lexer.buffer ⟨kind, lexer.current + skipped, length⟩ =
          ⟨kind, ((lexer.buffer.drop lexer.current).drop skipped).take length⟩ := by
        simp [lexemeOf, List.drop_drop]
      split
      · simp [ht]
      · have := ih ⟨lexer.buffer, lexer.current + skipped + length⟩
        simp only [Nat.add_assoc] at this
        simp only [List.map_cons, Option.map_some', ht, this, List.drop_drop, Nat.add_assoc]

/-- The lexeme sequence depends on the unread bytes only. -/
theorem lexemes_eq (lexer : Lexer) :
    lexemes lexer = lexemesOf (lexer.buffer.drop lexer.current) := by
  simp only [lexemes, tokens, lexemesOf, lexemesAux_tokensAux, List.length_drop]

/-! ## The parser runs on the token sequence -/

theorem toFailure_next_token {lexer : Lexer} {f : Fault} (h : next_token lexer = .error f) :
    f.toFailure = .lexer := by
  rcases next_token_fault h with rfl | ⟨c, rfl⟩ <;> rfl

theorem parse_expression_climb {τ : Type} (f : Token → τ) (kind : τ → TokenKind)
    (hk : ∀ t, kind (f t) = t.kind) (n : Nat) :
    (∀ lexer precedence, viewResult f (parse_expression n lexer precedence) =
        climb kind n ((tokens lexer).map (Option.map f)) precedence) ∧
    (∀ lexer precedence left, viewResult f (parse_loop n lexer precedence left) =
        climbLoop kind n ((tokens lexer).map (Option.map f)) precedence (left.map f)) := by
  induction n with
  | zero =>
    constructor
    · intro lexer precedence; simp [parse_expression, climb, viewResult, Fault.toFailure]
    · intro lexer precedence left
      simp [parse_loop, climbLoop, viewResult, Fault.toFailure]
  | succ n ih =>
    obtain ⟨ihE, ihL⟩ := ih
    constructor
    · intro lexer precedence
      rw [parse_expression, tokens_unfold lexer]
      cases h : next_token lexer with
      | error e => simp [viewResult, climb, toFailure_next_token h]
      | ok r =>
        obtain ⟨token, lexer1⟩ := r
        simp only
        cases hkind : token.kind <;>
          simp only [hkind, if_true, if_false, reduceCtorEq, List.map_cons, Option.map_some',
            climb, hk, List.map_nil]
        · simp [viewResult, Fault.toFailure]
        · exact ihL _ _ _
        · rw [← ihE]
          cases h2 : parse_expression n lexer1 .PREC_UNARY with
          | error e => simp [viewResult]
          | ok r2 =>
            obtain ⟨operand, lexer2⟩ := r2
            exact ihL _ _ _
        · rw [← ihE]
          cases h2 : parse_expression n lexer1 .PREC_UNARY with
          | error e => simp [viewResult]
          | ok r2 =>
            obtain ⟨operand, lexer2⟩ := r2
            exact ihL _ _ _
        · simp [viewResult, Fault.toFailure]
        · simp [viewResult, Fault.toFailure]
        · rw [← ihE]
          cases h2 : parse_expression n lexer1 .PREC_ASSIGNMENT with
          | error e => simp [viewResult]
          | ok r2 =>
            obtain ⟨left, lexer2⟩ := r2
            simp only [viewResult]
            rw [tokens_unfold lexer2]
            cases h3 : next_token lexer2 with
            | error e => simp [viewResult, toFailure_next_token h3]
            | ok r3 =>
              obtain ⟨closing, lexer3⟩ := r3
              simp only
              by_cases hc : closing.kind = .TOKEN_RPAREN
              · simp only [hc, reduceCtorEq, if_false, List.map_cons, Option.map_some', hk,
                  ne_eq, not_true_eq_false]
                exact ihL _ _ _
              · have hc2 : ¬ kind (f closing) = .TOKEN_RPAREN := by rw [hk]; exact hc
                by_cases he : closing.kind = .TOKEN_EOF <;>
                  simp [he, hc, hc2, viewResult, Fault.toFailure]
        · simp [viewResult, Fault.toFailure]
    · intro lexer precedence left
      rw [parse_loop, tokens_unfold lexer]
      cases h : next_token lexer with
      | error e => simp [viewResult, climbLoop, toFailure_next_token h]
      | ok r =>
        obtain ⟨next, lexer1⟩ := r
        have hpb : tokens (pushBack lexer1 next) =
            if next.kind = .TOKEN_EOF then [some next] else some next :: tokens lexer1 := by
          rw [tokens_pushBack h, tokens_unfold lexer, h]
        simp only
        cases hb : binaryPrecedence next.kind with
        | none =>
          simp only [viewResult, hpb]
          split <;> simp [climbLoop, hk, hb]
        | some np =>
          have hne : next.kind ≠ .TOKEN_EOF := by
            intro he; rw [he] at hb; cases hb
          simp only [hne, if_false, List.map_cons, Option.map_some', climbLoop, hk, hb]
          by_cases hle : np.toNat ≤ precedence.toNat
          · simp [hle, viewResult, hpb, hne]
          · simp only [hle, if_false]
            rw [← ihE]
            cases h2 : parse_expression n lexer1 np with
            | error e => simp [viewResult]
            | ok r2 =>
              obtain ⟨right, lexer2⟩ := r2
              exact ihL _ _ _

/-! ## Fuel of the parser over a token sequence -/

/-- A successful `climb` consumes at least one token, its loop none or more. -/
theorem climb_length {τ : Type} (kind : τ → TokenKind) (n : Nat) :
    (∀ ts p t rest, climb kind n ts p = .ok (t, rest) → rest.length < ts.length) ∧
    (∀ ts p left t rest, climbLoop kind n ts p left = .ok (t, rest) →
        rest.length ≤ ts.length) := by
  induction n with
  | zero =>
    constructor
    · intro ts p t rest h; simp [climb] at h
    · intro ts p left t rest h; simp [climbLoop] at h
  | succ n ih =>
    obtain ⟨ihE, ihL⟩ := ih
    constructor
    · intro ts p t rest h
      match ts with
      | [] => simp [climb] at h
      | none :: ts1 => simp [climb] at h
      | some token :: ts1 =>
        rw [climb] at h
        split at h
        · have := ihL _ _ _ _ _ h
          simp only [List.length_cons]; omega
        · split at h
          · cases h
          · rename_i left rest1 h1
            have l1 := ihE _ _ _ _ h1
            split at h
            · rename_i closing rest2
              split at h
              · cases h
              · have l2 := ihL _ _ _ _ _ h
                simp only [List.length_cons] at l1 ⊢; omega
            · cases h
        · split at h
          · cases h
          · rename_i operand rest1 h1
            have l1 := ihE _ _ _ _ h1
            have l2 := ihL _ _ _ _ _ h
            simp only [List.length_cons]; omega
        · split at h
          · cases h
          · rename_i operand rest1 h1
            have l1 := ihE _ _ _ _ h1
            have l2 := ihL _ _ _ _ _ h
            simp only [List.length_cons]; omega
        · cases h
    · intro ts p left t rest h
      match ts with
      | [] => simp [climbLoop] at h
      | none :: ts1 => simp [climbLoop] at h
      | some next :: ts1 =>
        rw [climbLoop] at h
        split at h
        · cases h; exact le_refl _
        · split at h
          · cases h; exact le_refl _
          · split at h
            · cases h
            · rename_i right rest1 h1
              have l1 := ihE _ _ _ _ h1
              have l2 := ihL _ _ _ _ _ h
              simp only [List.length_cons]; omega

/-- With more fuel than tokens the parser does not run out of fuel. -/
theorem climb_fuel {τ : Type} (kind : τ → TokenKind) (n : Nat) :
    (∀ ts p, ts.length + 1 ≤ n → climb kind n ts p ≠ .error .outOfFuel) ∧
    (∀ ts p left, ts.length + 1 ≤ n → climbLoop kind n ts p left ≠ .error .outOfFuel) := by
  induction n with
  | zero =>
    constructor
    · intro ts p h; omega
    · intro ts p left h; omega
  | succ n ih =>
    obtain ⟨ihE, ihL⟩ := ih
    have hlen := (climb_length kind n).1
    constructor
    · intro ts p hn
      match ts with
      | [] => simp [climb]
      | none :: ts1 => simp [climb]
      | some token :: ts1 =>
        simp only [List.length_cons] at hn
        rw [climb]
        split
        · exact ihL _ _ _ (by omega)
        · have e1 := ihE ts1 .PREC_ASSIGNMENT (by omega)
          split
          · rename_i e h1
            intro he; cases he; exact e1 h1
          · rename_i left rest1 h1
            have l1 := hlen _ _ _ _ h1
            split
            · rename_i closing rest2
              split
              · simp
              · exact ihL _ _ _ (by simp only [List.length_cons] at l1; omega)
            · simp
        · have e1 := ihE ts1 .PREC_UNARY (by omega)
          split
          · rename_i e h1
            intro he; cases he; exact e1 h1
          · rename_i operand rest1 h1
            have l1 := hlen _ _ _ _ h1
            exact ihL _ _ _ (by omega)
        · have e1 := ihE ts1 .PREC_UNARY (by omega)
          split
          · rename_i e h1
            intro he; cases he; exact e1 h1
          · rename_i operand rest1 h1
            have l1 := hlen _ _ _ _ h1
            exact ihL _ _ _ (by omega)
        · simp
    · intro ts p left hn
      match ts with
      | [] => simp [climbLoop]
      | none :: ts1 => simp [climbLoop]
      | some next :: ts1 =>
        simp only [List.length_cons] at hn
        rw [climbLoop]
        split
        · simp
        · rename_i np hnp
          split
          · simp
          · have e1 := ihE ts1 np (by omega)
            split
            · rename_i e h1
              intro he; cases he; exact e1 h1
            · rename_i right rest1 h1
              have l1 := hlen _ _ _ _ h1
              exact ihL _ _ _ (by omega)

/-- A result other than running out of fuel is kept with one more unit. -/
theorem climb_succ {τ : Type} (kind : τ → TokenKind) (n : Nat) :
    (∀ ts p r, climb kind n ts p = r → r ≠ .error .outOfFuel →
        climb kind (n + 1) ts p = r) ∧
    (∀ ts p left r, climbLoop kind n ts p left = r → r ≠ .error .outOfFuel →
        climbLoop kind (n + 1) ts p left = r) := by
  induction n with
  | zero =>
    constructor
    · intro ts p r h hr; simp [climb] at h; exact absurd h.symm hr
    · intro ts p left r h hr; simp [climbLoop] at h; exact absurd h.symm hr
  | succ n ih =>
    obtain ⟨ihE, ihL⟩ := ih
    constructor
    · intro ts p r h hr
      match ts with
      | [] => simpa [climb] using h
      | none :: ts1 => simpa [climb] using h
      | some token :: ts1 =>
        rw [climb] at h ⊢
        split at h
        · exact ihL _ _ _ _ h hr
        · split at h
          · rename_i e h1
            subst h
            rw [ihE _ _ _ h1 hr]
          · rename_i left rest1 h1
            rw [ihE _ _ _ h1 (by simp)]
            simp only
            split at h
            · rename_i closing rest2
              split at h
              · rename_i hc; rw [if_pos hc]; exact h
              · rename_i hc; rw [if_neg hc]; exact ihL _ _ _ _ h hr
            · exact h
        · split at h
          · rename_i e h1
            subst h
            rw [ihE _ _ _ h1 hr]
          · rename_i operand rest1 h1
            rw [ihE _ _ _ h1 (by simp)]
            exact ihL _ _ _ _ h hr
        · split at h
          · rename_i e h1
            subst h
            rw [ihE _ _ _ h1 hr]
          · rename_i operand rest1 h1
            rw [ihE _ _ _ h1 (by simp)]
            exact ihL _ _ _ _ h hr
        · exact h
    · intro ts p left r h hr
      match ts with
      | [] => simpa [climbLoop] using h
      | none :: ts1 => simpa [climbLoop] using h
      | some next :: ts1 =>
        rw [climbLoop] at h ⊢
        split at h
        · exact h
        · rename_i np hb
          split at h
          · rename_i hle; simp only [hle, if_true]; exact h
          · rename_i hle
            simp only [hle, if_false]
            split at h
            · rename_i e h1
              subst h
              rw [ihE _ _ _ h1 hr]
            · rename_i right rest1 h1
              rw [ihE _ _ _ h1 (by simp)]
              exact ihL _ _ _ _ h hr

theorem climb_add {τ : Type} (kind : τ → TokenKind) (n k : Nat) (ts : List (Option τ))
    (p : Precedence) (h : climb kind n ts p ≠ .error .outOfFuel) :
    climb kind (n + k) ts p = climb kind n ts p := by
  induction k with
  | zero => rfl
  | succ k ih =>
    rw [← Nat.add_assoc]
    exact (climb_succ kind (n + k)).1 ts p _ ih h

theorem climbLoop_add {τ : Type} (kind : τ → TokenKind) (n k : Nat) (ts : List (Option τ))
    (p : Precedence) (left : Tree τ) (h : climbLoop kind n ts p left ≠ .error .outOfFuel) :
    climbLoop kind (n + k) ts p left = climbLoop kind n ts p left := by
  induction k with
  | zero => rfl
  | succ k ih =>
    rw [← Nat.add_assoc]
    exact (climb_succ kind (n + k)).2 ts p left _ ih h

/-- Any fuel above the number of tokens gives the result of `climbAll`. -/
theorem climb_eq_climbAll {τ : Type} (kind : τ → TokenKind) (n : Nat) (ts : List (Option τ))
    (p : Precedence) (hn : ts.length + 1 ≤ n) : climb kind n ts p = climbAll kind ts p := by
  obtain ⟨k, rfl⟩ := Nat.exists_eq_add_of_le hn
  exact climb_add kind _ k ts p ((climb_fuel kind _).1 ts p (le_refl _))

/-- The parser on a lexer state is the parser over its token sequence. -/
theorem parse_view {τ : Type} (f : Token → τ) (kind : τ → TokenKind)
    (hk : ∀ t, kind (f t) = t.kind) (lexer : Lexer) (p : Precedence) :
    viewResult f (parse lexer p) = climbAll kind ((tokens lexer).map (Option.map f)) p := by
  rw [parse, (parse_expression_climb f kind hk _).1]
  apply climb_eq_climbAll
  have := tokens_length lexer
  simp only [List.length_map]; omega

/-- The fuel `parse` supplies is enough: it never stops for want of fuel, so
its failures are lexical or syntax errors of the source. -/
theorem parse_fuel (lexer : Lexer) (p : Precedence) : parse lexer p ≠ .error .outOfFuel := by
  intro h
  have hv := parse_view id Token.kind (fun _ => rfl) lexer p
  rw [h] at hv
  exact (climb_fuel Token.kind _).1 _ p (le_refl _) hv.symm

/-- The shape `parse_expression` returns is the one the parser over token
sequences computes from the lexemes. -/
theorem parseShape_eq (lexer : Lexer) (p : Precedence) :
    parseShape lexer p = ((climbAll Lexeme.kind (lexemes lexer) p).toOption).map Prod.fst := by
  have h := parse_view (lexemeOf lexer.buffer) Lexeme.kind (fun _ => rfl) lexer p
  rw [lexemes, ← h, parseShape]
  cases parse lexer p with
  | error e => rfl
  | ok r => rfl

/-! ## The lexemes of a laid-out text -/

theorem lexemesOf_unfold (l : List Nat) :
    lexemesOf l =
      match lexSuffix l with
      | .error _ => [none]
      | .ok (kind, skipped, length) =>
        if kind = .TOKEN_EOF then [some ⟨kind, (l.drop skipped).take length⟩]
        else some ⟨kind, (l.drop skipped).take length⟩ :: lexemesOf (l.drop (skipped + length)) := by
  have h0 := lexemes_eq ⟨l, 0⟩
  simp only [List.drop_zero] at h0
  rw [← h0, lexemes, tokens_unfold, next_token_eq]
  simp only [List.drop_zero, Nat.zero_add]
  cases hs : lexSuffix l with
  | error f => rfl
  | ok r =>
    obtain ⟨kind, skipped, length⟩ := r
    simp only
    split
    · simp [lexemeOf]
    · have h1 := lexemes_eq ⟨l, skipped + length⟩
      simp only [lexemes] at h1
      simp [lexemeOf, h1]

theorem lexSuffix_cons_space {c : Nat} (r : List Nat) (hc : isSpace c = true) :
    lexSuffix (c :: r) =
      match lexSuffix r with
      | .error f => .error f
      | .ok (kind, skipped, length) => .ok (kind, skipped + 1, length) := by
  simp only [lexSuffix, List.dropWhile_cons_of_pos hc, List.takeWhile_cons_of_pos hc,
    List.length_cons]
  cases r.dropWhile isSpace with
  | nil => rfl
  | cons d rest =>
    simp only
    cases charKind d with
    | some k => rfl
    | none =>
      simp only
      by_cases hd : isDigit d = true
      · simp only [hd, if_true]
        cases rest.dropWhile isDigit <;> rfl
      · simp [hd]

theorem lexemesOf_cons_space {c : Nat} (r : List Nat) (hc : isSpace c = true) :
    lexemesOf (c :: r) = lexemesOf r := by
  rw [lexemesOf_unfold (c :: r), lexemesOf_unfold r, lexSuffix_cons_space r hc]
  cases lexSuffix r with
  | error f => rfl
  | ok x =>
    obtain ⟨kind, skipped, length⟩ := x
    simp [Nat.add_right_comm skipped 1 length]

theorem lexemesOf_append_space (ws r : List Nat) (hws : ws.all isSpace = true) :
    lexemesOf (ws ++ r) = lexemesOf r := by
  induction ws with
  | nil => rfl
  | cons c ws ih =>
    simp only [List.all_cons, Bool.and_eq_true] at hws
    rw [List.cons_append, lexemesOf_cons_space _ hws.1, ih hws.2]

theorem charKind_not_space {c : Nat} {k : TokenKind} (h : charKind c = some k) :
    isSpace c = false := by
  unfold charKind at h
  repeat' split at h
  all_goals first | (subst_vars; rfl) | cases h

theorem charKind_not_digit {c : Nat} {k : TokenKind} (h : charKind c = some k) :
    isDigit c = false := by
  unfold charKind at h
  repeat' split at h
  all_goals first | (subst_vars; rfl) | cases h

theorem lexSuffix_symbol {c : Nat} {k : TokenKind} (r : List Nat) (h : charKind c = some k) :
    lexSuffix (c :: r) = .ok (k, 0, 1) := by
  have hs := charKind_not_space h
  simp [lexSuffix, List.dropWhile, List.takeWhile, hs, h]

theorem lexemesOf_symbol {c : Nat} {k : TokenKind} (r : List Nat) (h : charKind c = some k)
    (hk : k ≠ .TOKEN_EOF) : lexemesOf (c :: r) = some ⟨k, [c]⟩ :: lexemesOf r := by
  rw [lexemesOf_unfold, lexSuffix_symbol r h]
  simp [hk]

theorem lexemesOf_nul (r : List Nat) : lexemesOf (0 :: r) = [some Lexeme.eof] := by
  have h : charKind 0 = some .TOKEN_EOF := rfl
  rw [lexemesOf_unfold, lexSuffix_symbol r h]
  rfl

theorem digit_not_space {c : Nat} (h : isDigit c = true) : isSpace c = false := by
  simp only [isDigit, Bool.and_eq_true, decide_eq_true_eq] at h
  simp only [isSpace, Bool.or_eq_false_iff, decide_eq_false_iff_not]
  omega

theorem digit_charKind {c : Nat} (h : isDigit c = true) : charKind c = none := by
  simp only [isDigit, Bool.and_eq_true, decide_eq_true_eq] at h
  unfold charKind
  repeat' split
  all_goals first | rfl | omega

theorem lexSuffix_number (d : Nat) (ds : List Nat) (c : Nat) (r : List Nat)
    (hd : isDigit d = true) (hds : ds.all isDigit = true) (hc : isDigit c = false) :
    lexSuffix (d :: ds ++ c :: r) = .ok (.TOKEN_NUMBER, 0, 1 + ds.length) := by
  have htake : (ds ++ c :: r).takeWhile isDigit = ds := by
    rw [List.takeWhile_append_of_pos (by simpa using hds)]
    simp [List.takeWhile, hc]
  have hdrop : (ds ++ c :: r).dropWhile isDigit = c :: r := by
    rw [List.dropWhile_append_of_pos (by simpa using hds)]
    simp [List.dropWhile, hc]
  simp [lexSuffix, List.dropWhile, List.takeWhile, digit_not_space hd, digit_charKind hd, hd,
    htake, hdrop]

theorem lexemesOf_number (l : Lexeme) (c : Nat) (r : List Nat) (hl : l.isNumber = true)
    (hc : isDigit c = false) : lexemesOf (l.text ++ c :: r) = some l :: lexemesOf (c :: r) := by
  obtain ⟨kind, text⟩ := l
  simp only [Lexeme.isNumber, Bool.and_eq_true, decide_eq_true_eq, Bool.not_eq_true',
    List.isEmpty_eq_false] at hl
  obtain ⟨⟨hk, hne⟩, hall⟩ := hl
  subst hk
  cases text with
  | nil => simp at hne
  | cons d ds =>
    simp only [List.all_cons, Bool.and_eq_true] at hall
    rw [lexemesOf_unfold, lexSuffix_number d ds c r hall.1 hall.2 hc]
    simp [Nat.add_comm 1 ds.length]

theorem symbol_cases {l : Lexeme} (h : l.isSymbol = true) :
    ∃ c k, l = ⟨k, [c]⟩ ∧ charKind c = some k ∧ k ≠ .TOKEN_EOF := by
  simp only [Lexeme.isSymbol, Lexeme.isAdditive, Lexeme.isMultiplicative, Bool.or_eq_true,
    decide_eq_true_eq] at h
  rcases h with ((((h | h) | (h | h)) | h) | h) <;> subst h
  · exact ⟨43, _, rfl, rfl, by decide⟩
  · exact ⟨45, _, rfl, rfl, by decide⟩
  · exact ⟨42, _, rfl, rfl, by decide⟩
  · exact ⟨47, _, rfl, rfl, by decide⟩
  · exact ⟨40, _, rfl, rfl, by decide⟩
  · exact ⟨41, _, rfl, rfl, by decide⟩

theorem spellable_head {l : Lexeme} {rest : List Lexeme} (h : spellable (l :: rest) = true) :
    l.isNumber = true ∨ l.isSymbol = true := by
  cases rest with
  | nil => simpa [spellable] using h
  | cons l' rest =>
    simp only [spellable, Bool.and_eq_true, Bool.or_eq_true] at h
    rcases h.1 with h1 | h1
    · exact Or.inl h1.1
    · exact Or.inr h1

theorem spellable_tail {l : Lexeme} {rest : List Lexeme} (h : spellable (l :: rest) = true) :
    spellable rest = true := by
  cases rest with
  | nil => rfl
  | cons l' rest =>
    simp only [spellable, Bool.and_eq_true] at h
    exact h.2

theorem space_not_digit {c : Nat} (h : isSpace c = true) : isDigit c = false := by
  cases hd : isDigit c with
  | false => rfl
  | true => rw [digit_not_space hd] at h; cases h

/-- A laid-out text that does not begin with a number begins with a byte
that is not a digit. -/
theorem layoutFrom_head (gap : Nat → List Nat) (hgap : ∀ i, (gap i).all isSpace = true)
    (i : Nat) (rest : List Lexeme)
    (h : ∀ l' tl, rest = l' :: tl → l'.isSymbol = true) :
    ∃ c r, layoutFrom gap i rest = c :: r ∧ isDigit c = false := by
  have hg := hgap i
  cases hgi : gap i with
  | cons g gs =>
    rw [hgi] at hg
    simp only [List.all_cons, Bool.and_eq_true] at hg
    cases rest with
    | nil => exact ⟨g, gs ++ [0], by simp [layoutFrom, hgi], space_not_digit hg.1⟩
    | cons l' tl =>
      exact ⟨g, gs ++ (l'.text ++ layoutFrom gap (i + 1) tl), by simp [layoutFrom, hgi],
        space_not_digit hg.1⟩
  | nil =>
    cases rest with
    | nil => exact ⟨0, [], by simp [layoutFrom, hgi], rfl⟩
    | cons l' tl =>
      obtain ⟨c, k, rfl, hk, _⟩ := symbol_cases (h l' tl rfl)
      exact ⟨c, layoutFrom gap (i + 1) tl, by simp [layoutFrom, hgi], charKind_not_digit hk⟩

/-- The lexemes of a laid-out text are the lexemes it was laid out from,
followed by the end of input. -/
theorem lexemesOf_layoutFrom (gap : Nat → List Nat) (hgap : ∀ i, (gap i).all isSpace = true)
    (ls : List Lexeme) (i : Nat) (h : spellable ls = true) :
    lexemesOf (layoutFrom gap i ls) = ls.map some ++ [some Lexeme.eof] := by
  induction ls generalizing i with
  | nil =>
    rw [layoutFrom, lexemesOf_append_space _ _ (hgap i), lexemesOf_nul]; rfl
  | cons l rest ih =>
    rw [layoutFrom, List.append_assoc, lexemesOf_append_space _ _ (hgap i)]
    have ih' := ih (i + 1) (spellable_tail h)
    by_cases hsym : l.isSymbol = true
    · obtain ⟨c, k, rfl, hk, hne⟩ := symbol_cases hsym
      simp only [List.singleton_append]
      rw [lexemesOf_symbol _ hk hne, ih']; rfl
    · have hnum : l.isNumber = true := (spellable_head h).resolve_right hsym
      have hnext : ∀ l' tl, rest = l' :: tl → l'.isSymbol = true := by
        intro l' tl hr
        subst hr
        simp only [spellable, Bool.and_eq_true, Bool.or_eq_true, Bool.not_eq_true'] at h
        rcases h.1 with h1 | h1
        · rcases spellable_head h.2 with h2 | h2
          · rw [h2] at h1; cases h1.2
          · exact h2
        · exact absurd h1 hsym
      obtain ⟨c, r, hcr, hc⟩ := layoutFrom_head gap hgap (i + 1) rest hnext
      rw [hcr] at ih' ⊢
      rw [lexemesOf_number l c r hnum hc, ih']; rfl

/-- The lexeme sequence of the lexer at the start of a laid-out text. -/
theorem lexemes_layout (gap : Nat → List Nat) (hgap : ∀ i, (gap i).all isSpace = true)
    (ls : List Lexeme) (h : spellable ls = true) :
    lexemes (init_lexer (layout gap ls)) = ls.map some ++ [some Lexeme.eof] := by
  rw [lexemes_eq]
  exact lexemesOf_layoutFrom gap hgap ls 0 h

/-! ## Precedence, associativity and signs -/

theorem additive_cases {p : Lexeme} (h : p.isAdditive = true) : p = .plus ∨ p = .minus := by
  simpa [Lexeme.isAdditive] using h

theorem multiplicative_cases {m : Lexeme} (h : m.isMultiplicative = true) :
    m = .star ∨ m = .slash := by
  simpa [Lexeme.isMultiplicative] using h

theorem number_cases {a : Lexeme} (h : a.isNumber = true) :
    ∃ text, a = ⟨.TOKEN_NUMBER, text⟩ := by
  obtain ⟨kind, text⟩ := a
  simp only [Lexeme.isNumber, Bool.and_eq_true, decide_eq_true_eq] at h
  exact ⟨text, by rw [h.1.1]⟩

theorem additive_isSymbol {p : Lexeme} (h : p.isAdditive = true) : p.isSymbol = true := by
  simp [Lexeme.isSymbol, h]

theorem multiplicative_isSymbol {m : Lexeme} (h : m.isMultiplicative = true) :
    m.isSymbol = true := by
  simp [Lexeme.isSymbol, h]

theorem symbol_not_number {l : Lexeme} (h : l.isSymbol = true) : l.isNumber = false := by
  obtain ⟨c, k, rfl, hk, hne⟩ := symbol_cases h
  have hd := charKind_not_digit hk
  simp [Lexeme.isNumber, hd]

/-- C1: for all number literals `a`, `b`, `c`, every additive operator `p` and
every multiplicative operator `m`, and whatever whitespace lies between the
tokens, `parse_expression` at `PREC_ASSIGNMENT` returns on `a p b m c` the
tree `Binary(p, a, Binary(m, b, c))`, on `a m b p c` the tree
`Binary(p, Binary(m, a, b), c)` and on `(a p b) m c` the tree
`Binary(m, Binary(p, a, b), c)`. -/
theorem precedence_of_additive_and_multiplicative (gap : Nat → List Nat)
    (hgap : ∀ i, (gap i).all isSpace = true) (a b c p m : Lexeme)
    (ha : a.isNumber = true) (hb : b.isNumber = true) (hc : c.isNumber = true)
    (hp : p.isAdditive = true) (hm : m.isMultiplicative = true) :
    parseShape (init_lexer (layout gap [a, p, b, m, c])) .PREC_ASSIGNMENT =
        some (.binary p (.number a) (.binary m (.number b) (.number c))) ∧
    parseShape (init_lexer (layout gap [a, m, b, p, c])) .PREC_ASSIGNMENT =
        some (.binary p (.binary m (.number a) (.number b)) (.number c)) ∧
    parseShape (init_lexer (layout gap [.lparen, a, p, b, .rparen, m, c])) .PREC_ASSIGNMENT =
        some (.binary m (.binary p (.number a) (.number b)) (.number c)) := by
  have hpS := additive_isSymbol hp
  have hmS := multiplicative_isSymbol hm
  have hpN := symbol_not_number hpS
  have hmN := symbol_not_number hmS
  have hl : Lexeme.lparen.isSymbol = true := rfl
  have hr : Lexeme.rparen.isSymbol = true := rfl
  have h1 : spellable [a, p, b, m, c] = true := by
    simp [spellable, ha, hb, hc, hpS, hmS, hpN, hmN]
  have h2 : spellable [a, m, b, p, c] = true := by
    simp [spellable, ha, hb, hc, hpS, hmS, hpN, hmN]
  have h3 : spellable [.lparen, a, p, b, .rparen, m, c] = true := by
    simp [spellable, ha, hb, hc, hpS, hmS, hpN, hmN, hl, hr, symbol_not_number hr]
  rw [parseShape_eq, parseShape_eq, parseShape_eq, lexemes_layout gap hgap _ h1,
    lexemes_layout gap hgap _ h2, lexemes_layout gap hgap _ h3]
  obtain ⟨ta, rfl⟩ := number_cases ha
  obtain ⟨tb, rfl⟩ := number_cases hb
  obtain ⟨tc, rfl⟩ := number_cases hc
  rcases additive_cases hp with rfl | rfl <;> rcases multiplicative_cases hm with rfl | rfl <;>
    exact ⟨rfl, rfl, rfl⟩

/-- C1 at the inputs `1 + 2 * 3` and `(1 + 2) * 3`: the trees `(+ 1 (* 2 3))`
and `(* (+ 1 2) 3)`. -/
theorem precedence_of_additive_and_multiplicative_witness :
    parseShape (init_lexer (cstring "1 + 2 * 3")) .PREC_ASSIGNMENT =
        some (.binary .plus (.number ⟨.TOKEN_NUMBER, [49]⟩)
          (.binary .star (.number ⟨.TOKEN_NUMBER, [50]⟩) (.number ⟨.TOKEN_NUMBER, [51]⟩))) ∧
    parseShape (init_lexer (cstring "(1 + 2) * 3")) .PREC_ASSIGNMENT =
        some (.binary .star (.binary .plus (.number ⟨.TOKEN_NUMBER, [49]⟩)
          (.number ⟨.TOKEN_NUMBER, [50]⟩)) (.number ⟨.TOKEN_NUMBER, [51]⟩)) :=
  ⟨(precedence_of_additive_and_multiplicative (fun i => if i = 0 ∨ i = 5 then [] else [32])
      (by intro i; dsimp only; split <;> rfl) ⟨.TOKEN_NUMBER, [49]⟩ ⟨.TOKEN_NUMBER, [50]⟩
      ⟨.TOKEN_NUMBER, [51]⟩ .plus .star rfl rfl rfl rfl rfl).1,
   (precedence_of_additive_and_multiplicative
      (fun i => if i = 2 ∨ i = 3 ∨ i = 5 ∨ i = 6 then [32] else [])
      (by intro i; dsimp only; split <;> rfl) ⟨.TOKEN_NUMBER, [49]⟩ ⟨.TOKEN_NUMBER, [50]⟩
      ⟨.TOKEN_NUMBER, [51]⟩ .plus .star rfl rfl rfl rfl rfl).2.2⟩

/-- The loop stops, leaving the token, at a token that is not a binary
operator or whose precedence is not above the minimum. -/
theorem climbLoop_stop {τ : Type} (kind : τ → TokenKind) (n : Nat) (t : τ)
    (r : List (Option τ)) (p : Precedence) (left : Tree τ)
    (h : ∀ np, binaryPrecedence (kind t) = some np → np.toNat ≤ p.toNat) :
    climbLoop kind (n + 1) (some t :: r) p left = .ok (left, some t :: r) := by
  rw [climbLoop]
  cases hb : binaryPrecedence (kind t) with
  | none => rfl
  | some np => simp [h np hb]

/-- The loop absorbs a binary operator above the minimum with its right
operand. -/
theorem climbLoop_absorb {τ : Type} (kind : τ → TokenKind) (n : Nat) (t : τ)
    (r : List (Option τ)) (p np : Precedence) (left : Tree τ)
    (hb : binaryPrecedence (kind t) = some np) (h : ¬ np.toNat ≤ p.toNat) :
    climbLoop kind (n + 1) (some t :: r) p left =
      match climb kind n r np with
      | .error e => .error e
      | .ok (right, rest) =>
        climbLoop kind n rest p (((create_ast_node .AST_BINARY t).setLeft left).setRight right) := by
  rw [climbLoop]
  simp only [hb, h, if_false]

theorem climb_number {τ : Type} (kind : τ → TokenKind) (n : Nat) (t : τ)
    (r : List (Option τ)) (p : Precedence) (h : kind t = .TOKEN_NUMBER) :
    climb kind (n + 1) (some t :: r) p = climbLoop kind n r p (create_ast_node .AST_NUMBER t) := by
  rw [climb]
  simp only [h]

theorem spellable_cons_cons (l l' : Lexeme) (rest : List Lexeme) :
    spellable (l :: l' :: rest) =
      (((l.isNumber && !l'.isNumber) || l.isSymbol) && spellable (l' :: rest)) := rfl

theorem spellable_chain (a : Lexeme) (chain : List (Lexeme × Lexeme))
    (ha : a.isNumber = true)
    (hchain : ∀ x ∈ chain, x.1.isSymbol = true ∧ x.2.isNumber = true) :
    spellable (a :: chainLexemes chain) = true := by
  induction chain generalizing a with
  | nil => simp [chainLexemes, spellable, ha]
  | cons x rest ih =>
    obtain ⟨op, b⟩ := x
    have hx := hchain (op, b) (List.mem_cons_self _ _)
    have hrest := ih b hx.2 (fun y hy => hchain y (List.mem_cons_of_mem _ hy))
    rw [chainLexemes, spellable_cons_cons, spellable_cons_cons, hrest]
    simp [ha, hx.1, symbol_not_number hx.1]

/-- The loop at `PREC_ASSIGNMENT` folds a chain of operators of one level to
the left. -/
theorem climbLoop_chain (chain : List (Lexeme × Lexeme))
    (hnum : ∀ x ∈ chain, x.2.isNumber = true)
    (hops : (∀ x ∈ chain, x.1.isAdditive = true) ∨ (∀ x ∈ chain, x.1.isMultiplicative = true))
    (left : Shape) (n : Nat) (hn : 2 * chain.length + 2 ≤ n) :
    climbLoop Lexeme.kind n ((chainLexemes chain).map some ++ [some Lexeme.eof])
        .PREC_ASSIGNMENT left =
      .ok (leftNested left chain, [some Lexeme.eof]) := by
  induction chain generalizing left n with
  | nil =>
    obtain ⟨n, rfl⟩ : ∃ k, n = k + 1 := ⟨n - 1, by omega⟩
    exact climbLoop_stop _ _ _ _ _ _ (by intro np h; cases h)
  | cons x rest ih =>
    obtain ⟨op, b⟩ := x
    simp only [List.length_cons] at hn
    obtain ⟨n, rfl⟩ : ∃ k, n = k + 1 + 1 + 1 := ⟨n - 3, by omega⟩
    obtain ⟨tb, rfl⟩ := number_cases (hnum (op, b) (List.mem_cons_self _ _))
    have hnum' : ∀ y ∈ rest, y.2.isNumber = true :=
      fun y hy => hnum y (List.mem_cons_of_mem _ hy)
    have hops' : (∀ x ∈ rest, x.1.isAdditive = true) ∨
        (∀ x ∈ rest, x.1.isMultiplicative = true) := by
      rcases hops with h | h
      · exact Or.inl fun y hy => h y (List.mem_cons_of_mem _ hy)
      · exact Or.inr fun y hy => h y (List.mem_cons_of_mem _ hy)
    have ih' := ih hnum' hops'
    simp only [chainLexemes, List.map_cons, List.cons_append]
    -- the token after the right operand stops a loop at the operator's own level
    have hstop : ∀ (np : Precedence),
        (op.isAdditive = true ∧ (∀ x ∈ rest, x.1.isAdditive = true) ∧ np = .PREC_TERM) ∨
        (op.isMultiplicative = true ∧ (∀ x ∈ rest, x.1.isMultiplicative = true) ∧
          np = .PREC_FACTOR) →
        climbLoop Lexeme.kind (n + 1) ((chainLexemes rest).map some ++ [some Lexeme.eof]) np
            (Shape.number ⟨.TOKEN_NUMBER, tb⟩) =
          .ok (Shape.number ⟨.TOKEN_NUMBER, tb⟩,
            (chainLexemes rest).map some ++ [some Lexeme.eof]) := by
      intro np hcase
      cases rest with
      | nil => exact climbLoop_stop _ _ _ _ _ _ (by intro q h; cases h)
      | cons y rest2 =>
        obtain ⟨op2, b2⟩ := y
        simp only [chainLexemes, List.map_cons, List.cons_append]
        apply climbLoop_stop
        intro q hq
        rcases hcase with ⟨_, h2, rfl⟩ | ⟨_, h2, rfl⟩
        · rcases additive_cases (h2 (op2, b2) (List.mem_cons_self _ _)) with h | h <;>
            simp only at h <;> subst h <;> cases hq <;> decide
        · rcases multiplicative_cases (h2 (op2, b2) (List.mem_cons_self _ _)) with h | h <;>
            simp only at h <;> subst h <;> cases hq <;> decide
    have hfold : ∀ np, binaryPrecedence op.kind = some np →
        ¬ np.toNat ≤ Precedence.PREC_ASSIGNMENT.toNat →
        ((op.isAdditive = true ∧ (∀ x ∈ rest, x.1.isAdditive = true) ∧ np = .PREC_TERM) ∨
        (op.isMultiplicative = true ∧ (∀ x ∈ rest, x.1.isMultiplicative = true) ∧
          np = .PREC_FACTOR)) →
        climbLoop Lexeme.kind (n + 1 + 1 + 1)
            (some op :: some ⟨.TOKEN_NUMBER, tb⟩ ::
              ((chainLexemes rest).map some ++ [some Lexeme.eof]))
            .PREC_ASSIGNMENT left =
          .ok (leftNested left ((op, ⟨.TOKEN_NUMBER, tb⟩) :: rest), [some Lexeme.eof]) := by
      intro np hb hgt hcase
      rw [climbLoop_absorb Lexeme.kind _ _ _ _ np _ hb hgt,
        climb_number Lexeme.kind _ _ _ _ rfl]
      have := hstop np hcase
      simp only [Shape.number] at this
      simp only [create_ast_node, this]
      exact ih' _ _ (by omega)
    rcases hops with h | h
    · have hop := h _ (List.mem_cons_self _ _)
      have hrest : ∀ x ∈ rest, x.1.isAdditive = true :=
        fun y hy => h y (List.mem_cons_of_mem _ hy)
      simp only at hop
      rcases additive_cases hop with rfl | rfl <;>
        exact hfold .PREC_TERM rfl (by decide) (Or.inl ⟨hop, hrest, rfl⟩)
    · have hop := h _ (List.mem_cons_self _ _)
      have hrest : ∀ x ∈ rest, x.1.isMultiplicative = true :=
        fun y hy => h y (List.mem_cons_of_mem _ hy)
      simp only at hop
      rcases multiplicative_cases hop with rfl | rfl <;>
        exact hfold .PREC_FACTOR rfl (by decide) (Or.inr ⟨hop, hrest, rfl⟩)

theorem chainLexemes_length (chain : List (Lexeme × Lexeme)) :
    (chainLexemes chain).length = 2 * chain.length := by
  induction chain with
  | nil => rfl
  | cons x rest ih =>
    obtain ⟨op, b⟩ := x
    simp only [chainLexemes, List.length_cons, ih]; omega

/-- C2: binary operators are left-associative. For number literals
`a1 .. an` and operators `o1 .. o(n-1)` of one precedence level (all in
`+ -` or all in `* /`), and whatever whitespace lies between the tokens,
`parse_expression` at `PREC_ASSIGNMENT` returns on `a1 o1 a2 ... o(n-1) an`
the left-nested tree `Binary(o(n-1), ... Binary(o1, a1, a2) ..., an)`. -/
theorem binary_operators_left_associative (gap : Nat → List Nat)
    (hgap : ∀ i, (gap i).all isSpace = true) (a : Lexeme) (chain : List (Lexeme × Lexeme))
    (ha : a.isNumber = true) (hnum : ∀ x ∈ chain, x.2.isNumber = true)
    (hops : (∀ x ∈ chain, x.1.isAdditive = true) ∨
      (∀ x ∈ chain, x.1.isMultiplicative = true)) :
    parseShape (init_lexer (layout gap (a :: chainLexemes chain))) .PREC_ASSIGNMENT =
      some (leftNested (.number a) chain) := by
  have hsym : ∀ x ∈ chain, x.1.isSymbol = true ∧ x.2.isNumber = true := by
    intro x hx
    refine ⟨?_, hnum x hx⟩
    rcases hops with h | h
    · exact additive_isSymbol (h x hx)
    · exact multiplicative_isSymbol (h x hx)
  rw [parseShape_eq, lexemes_layout gap hgap _ (spellable_chain a chain ha hsym)]
  obtain ⟨ta, rfl⟩ := number_cases ha
  simp only [climbAll, List.map_cons, List.cons_append, List.length_cons, List.length_append,
    List.length_map, chainLexemes_length, List.length_nil]
  rw [climb_number Lexeme.kind _ _ _ _ rfl,
    climbLoop_chain chain hnum hops _ _ (by omega)]
  rfl

/-- C2 at the input `1 - 2 - 3`: the tree `(- (- 1 2) 3)`. -/
theorem binary_operators_left_associative_witness :
    parseShape (init_lexer (cstring "1 - 2 - 3")) .PREC_ASSIGNMENT =
      some (.binary .minus (.binary .minus (.number ⟨.TOKEN_NUMBER, [49]⟩)
        (.number ⟨.TOKEN_NUMBER, [50]⟩)) (.number ⟨.TOKEN_NUMBER, [51]⟩)) :=
  binary_operators_left_associative (fun i => if i = 0 ∨ i = 5 then [] else [32])
    (by intro i; dsimp only; split <;> rfl) ⟨.TOKEN_NUMBER, [49]⟩
    [(.minus, ⟨.TOKEN_NUMBER, [50]⟩), (.minus, ⟨.TOKEN_NUMBER, [51]⟩)] rfl
    (by decide) (by decide)

theorem spellable_symbol_cons {s : Lexeme} {l : List Lexeme} (hs : s.isSymbol = true)
    (hl : spellable l = true) : spellable (s :: l) = true := by
  cases l with
  | nil => simp [spellable, hs]
  | cons l' rest => rw [spellable_cons_cons, hl]; simp [hs]

theorem spellable_signs (signs tail : List Lexeme) (hs : ∀ s ∈ signs, s.isAdditive = true)
    (ht : spellable tail = true) : spellable (signs ++ tail) = true := by
  induction signs with
  | nil => exact ht
  | cons s ss ih =>
    exact spellable_symbol_cons (additive_isSymbol (hs s (List.mem_cons_self _ _)))
      (ih fun x hx => hs x (List.mem_cons_of_mem _ hx))

theorem binaryPrecedence_le_unary (k : TokenKind) (np : Precedence)
    (h : binaryPrecedence k = some np) : np.toNat ≤ Precedence.PREC_UNARY.toNat := by
  cases k <;> cases h <;> decide

/-- A call at `PREC_UNARY` on signs and a number returns the nest of the
signs over the number and leaves the token that follows. -/
theorem climb_signs (signs : List Lexeme) (hs : ∀ s ∈ signs, s.isAdditive = true)
    (ta : List Nat) (t : Lexeme) (r : List (Option Lexeme)) (n : Nat)
    (hn : signs.length + 2 ≤ n) :
    climb Lexeme.kind n (signs.map some ++ some ⟨.TOKEN_NUMBER, ta⟩ :: some t :: r)
        .PREC_UNARY =
      .ok (signed signs (.number ⟨.TOKEN_NUMBER, ta⟩), some t :: r) := by
  induction signs generalizing n with
  | nil =>
    obtain ⟨n, rfl⟩ : ∃ k, n = k + 1 + 1 := ⟨n - 2, by simp at hn; omega⟩
    simp only [List.map_nil, List.nil_append]
    rw [climb_number Lexeme.kind _ _ _ _ rfl]
    exact climbLoop_stop _ _ _ _ _ _ (binaryPrecedence_le_unary _)
  | cons s ss ih =>
    simp only [List.length_cons] at hn
    obtain ⟨n, rfl⟩ : ∃ k, n = k + 1 + 1 := ⟨n - 2, by omega⟩
    have ih' := ih (fun x hx => hs x (List.mem_cons_of_mem _ hx)) (n + 1) (by omega)
    simp only [List.map_cons, List.cons_append]
    rcases additive_cases (hs s (List.mem_cons_self _ _)) with rfl | rfl
    · rw [climb]
      simp only [Lexeme.plus, ih']
      exact climbLoop_stop _ _ _ _ _ _ (binaryPrecedence_le_unary _)
    · rw [climb]
      simp only [Lexeme.minus, ih']
      exact climbLoop_stop _ _ _ _ _ _ (binaryPrecedence_le_unary _)

/-- A call at `PREC_ASSIGNMENT` on signs and a number applies its loop to the
nest of the signs over the number. -/
theorem climb_signs_top (signs : List Lexeme) (hs : ∀ s ∈ signs, s.isAdditive = true)
    (ta : List Nat) (t : Lexeme) (r : List (Option Lexeme)) (n : Nat)
    (hn : signs.length + 2 ≤ n) :
    climb Lexeme.kind (n + 1) (signs.map some ++ some ⟨.TOKEN_NUMBER, ta⟩ :: some t :: r)
        .PREC_ASSIGNMENT =
      climbLoop Lexeme.kind n (some t :: r) .PREC_ASSIGNMENT
        (signed signs (.number ⟨.TOKEN_NUMBER, ta⟩)) := by
  cases signs with
  | nil =>
    simp only [List.map_nil, List.nil_append]
    rw [climb_number Lexeme.kind _ _ _ _ rfl]; rfl
  | cons s ss =>
    simp only [List.length_cons] at hn
    have h := climb_signs ss (fun x hx => hs x (List.mem_cons_of_mem _ hx)) ta t r n (by omega)
    simp only [List.map_cons, List.cons_append]
    rcases additive_cases (hs s (List.mem_cons_self _ _)) with rfl | rfl
    · rw [climb]
      simp only [Lexeme.plus, h]
      rfl
    · rw [climb]
      simp only [Lexeme.minus, h]
      rfl

/-- C3: a leading sign binds tighter than any binary operator and signs
nest. For sign tokens `s1 .. sk` in `+ -`, number literals `a` and `c` and a
binary operator `b` in `+ - * /`, and whatever whitespace lies between the
tokens, `parse_expression` at `PREC_ASSIGNMENT` returns on `s1 ... sk a` the
tree `Unary(s1, ... Unary(sk, a))` and on `s1 ... sk a b c` the tree
`Binary(b, Unary(s1, ... Unary(sk, a)), c)`. -/
theorem signs_bind_tighter_and_nest (gap : Nat → List Nat)
    (hgap : ∀ i, (gap i).all isSpace = true) (signs : List Lexeme) (a b c : Lexeme)
    (hs : ∀ s ∈ signs, s.isAdditive = true) (ha : a.isNumber = true)
    (hb : b.isAdditive = true ∨ b.isMultiplicative = true) (hc : c.isNumber = true) :
    parseShape (init_lexer (layout gap (signs ++ [a]))) .PREC_ASSIGNMENT =
        some (signed signs (.number a)) ∧
    parseShape (init_lexer (layout gap (signs ++ [a, b, c]))) .PREC_ASSIGNMENT =
        some (.binary b (signed signs (.number a)) (.number c)) := by
  have hbS : b.isSymbol = true := by
    rcases hb with h | h
    · exact additive_isSymbol h
    · exact multiplicative_isSymbol h
  have h1 : spellable (signs ++ [a]) = true :=
    spellable_signs signs [a] hs (by simp [spellable, ha])
  have h2 : spellable (signs ++ [a, b, c]) = true :=
    spellable_signs signs [a, b, c] hs
      (by simp [spellable, ha, hc, hbS, symbol_not_number hbS])
  rw [parseShape_eq, parseShape_eq, lexemes_layout gap hgap _ h1, lexemes_layout gap hgap _ h2]
  obtain ⟨ta, rfl⟩ := number_cases ha
  obtain ⟨tc, rfl⟩ := number_cases hc
  simp only [climbAll, List.map_append, List.map_cons, List.map_nil, List.append_assoc,
    List.cons_append, List.nil_append, List.length_append, List.length_cons, List.length_map,
    List.length_nil]
  constructor
  · rw [climb_signs_top signs hs ta _ _ _ (by omega)]
    obtain ⟨n, hn⟩ : ∃ k, signs.length + (0 + 1 + 1) = k + 1 := ⟨signs.length + 1, by omega⟩
    rw [hn, climbLoop_stop Lexeme.kind _ _ _ _ _ (by intro np h; cases h)]
    rfl
  · rw [climb_signs_top signs hs ta _ _ _ (by omega)]
    obtain ⟨n, hn⟩ : ∃ k, signs.length + (0 + 1 + 1 + 1 + 1) = k + 1 + 1 + 1 :=
      ⟨signs.length + 1, by omega⟩
    rw [hn]
    rcases hb with h | h
    · rcases additive_cases h with rfl | rfl <;> rfl
    · rcases multiplicative_cases h with rfl | rfl <;> rfl

/-- C3 at the inputs `--1` and `-1 + 2`: the trees `(- (- 1))` and
`(+ (- 1) 2)`. -/
theorem signs_bind_tighter_and_nest_witness :
    parseShape (init_lexer (cstring "--1")) .PREC_ASSIGNMENT =
        some (.unary .minus (.unary .minus (.number ⟨.TOKEN_NUMBER, [49]⟩))) ∧
    parseShape (init_lexer (cstring "-1 + 2")) .PREC_ASSIGNMENT =
        some (.binary .plus (.unary .minus (.number ⟨.TOKEN_NUMBER, [49]⟩))
          (.number ⟨.TOKEN_NUMBER, [50]⟩)) :=
  ⟨(signs_bind_tighter_and_nest (fun _ => []) (fun _ => rfl) [.minus, .minus]
      ⟨.TOKEN_NUMBER, [49]⟩ .plus ⟨.TOKEN_NUMBER, [50]⟩ (by decide) rfl (Or.inl rfl) rfl).1,
   (signs_bind_tighter_and_nest (fun i => if i = 2 ∨ i = 3 then [32] else [])
      (by intro i; dsimp only; split <;> rfl) [.minus]
      ⟨.TOKEN_NUMBER, [49]⟩ .plus ⟨.TOKEN_NUMBER, [50]⟩ (by decide) rfl (Or.inl rfl) rfl).2⟩

/-! ## Whitespace -/

theorem isSpace_of_whitespace {c : Nat} (h : c = 32 ∨ c = 9 ∨ c = 10 ∨ c = 13) :
    isSpace c = true := by
  rcases h with rfl | rfl | rfl | rfl <;> rfl

/-- The lexemes of a text laid out with whitespace gaps are the lexemes it
was laid out from, followed by those of the tail. -/
theorem lexemesOf_layoutWith (gap : Nat → List Nat) (tail : List Nat)
    (hgap : ∀ i, ∀ c ∈ gap i, c = 32 ∨ c = 9 ∨ c = 10 ∨ c = 13)
    (ls : List Lexeme) (i : Nat) (h : separated gap tail i ls = true) :
    lexemesOf (layoutWith gap tail i ls) = ls.map some ++ lexemesOf tail := by
  have hsp : ∀ j, (gap j).all isSpace = true := by
    intro j
    rw [List.all_eq_true]
    intro c hc
    exact isSpace_of_whitespace (hgap j c hc)
  induction ls generalizing i with
  | nil =>
    rw [layoutWith, lexemesOf_append_space _ _ (hsp i)]; rfl
  | cons l rest ih =>
    simp only [separated, Bool.and_eq_true, Bool.or_eq_true] at h
    obtain ⟨hl, hrest⟩ := h
    rw [layoutWith, List.append_assoc, lexemesOf_append_space _ _ (hsp i)]
    have ih' := ih (i + 1) hrest
    rcases hl with hsym | ⟨hnum, hend⟩
    · obtain ⟨c, k, rfl, hk, hne⟩ := symbol_cases hsym
      simp only [List.singleton_append]
      rw [lexemesOf_symbol _ hk hne, ih']; rfl
    · cases hcr : layoutWith gap tail (i + 1) rest with
      | nil => rw [hcr] at hend; simp [endsNumber] at hend
      | cons c r =>
        rw [hcr] at hend ih'
        have hc : isDigit c = false := by simpa [endsNumber] using hend
        rw [lexemesOf_number l c r hnum hc, ih']; rfl

/-- C4: the parse is insensitive to whitespace between tokens. Take two texts
with the same lexemes `ls` in the same order and the same bytes `tail` after
them, that differ only in the runs of spaces (32), tabs (9), newlines (10)
and carriage returns (13) placed before, between and after the lexemes:
`gap1` in one text, `gap2` in the other, any of them empty as long as a
number literal does not run into a digit. Then the lexer reads the same
token sequence (token kinds and lexeme texts, in order) from both, and
`parse_expression` either fails on both or returns on both trees of the same
shape: the same node types, token kinds and lexeme texts. More generally,
any two lexer states with equal token sequences give the same outcome. It
holds at every minimum precedence, `PREC_ASSIGNMENT` included. -/
theorem parse_insensitive_to_whitespace (gap1 gap2 : Nat → List Nat) (ls : List Lexeme)
    (tail : List Nat) (precedence : Precedence)
    (hgap1 : ∀ i, ∀ c ∈ gap1 i, c = 32 ∨ c = 9 ∨ c = 10 ∨ c = 13)
    (hgap2 : ∀ i, ∀ c ∈ gap2 i, c = 32 ∨ c = 9 ∨ c = 10 ∨ c = 13)
    (h1 : separated gap1 tail 0 ls = true) (h2 : separated gap2 tail 0 ls = true) :
    lexemes (init_lexer (layoutWith gap1 tail 0 ls)) =
      lexemes (init_lexer (layoutWith gap2 tail 0 ls)) ∧
    parseShape (init_lexer (layoutWith gap1 tail 0 ls)) precedence =
      parseShape (init_lexer (layoutWith gap2 tail 0 ls)) precedence ∧
    (∀ lexer1 lexer2 : Lexer, lexemes lexer1 = lexemes lexer2 →
      parseShape lexer1 precedence = parseShape lexer2 precedence) := by
  have hl : lexemes (init_lexer (layoutWith gap1 tail 0 ls)) =
      lexemes (init_lexer (layoutWith gap2 tail 0 ls)) := by
    rw [lexemes_eq, lexemes_eq]
    simp only [init_lexer, List.drop_zero]
    rw [lexemesOf_layoutWith gap1 tail hgap1 ls 0 h1, lexemesOf_layoutWith gap2 tail hgap2 ls 0 h2]
  refine ⟨hl, ?_, ?_⟩
  · rw [parseShape_eq, parseShape_eq, hl]
  · intro lexer1 lexer2 h
    rw [parseShape_eq, parseShape_eq, h]

/-- C4 at the inputs `1+2` and ` 1 + 2 `, the same lexemes without any gap and
with a space in every gap: equal token sequences, and the same shape
`(+ 1 2)`. The same again with a tab, a newline, a carriage return and a space
in every gap; and at the two number literals `1 2`, set apart by a space in
one text and by a tab in the other. -/
theorem parse_insensitive_to_whitespace_witness :
    (layoutWith (fun _ => []) [0] 0 [⟨.TOKEN_NUMBER, [49]⟩, .plus, ⟨.TOKEN_NUMBER, [50]⟩] =
        cstring "1+2" ∧
      layoutWith (fun _ => [32]) [0] 0 [⟨.TOKEN_NUMBER, [49]⟩, .plus, ⟨.TOKEN_NUMBER, [50]⟩] =
        cstring " 1 + 2 " ∧
      lexemes (init_lexer (cstring "1+2")) = lexemes (init_lexer (cstring " 1 + 2 ")) ∧
      parseShape (init_lexer (cstring "1+2")) .PREC_ASSIGNMENT =
        parseShape (init_lexer (cstring " 1 + 2 ")) .PREC_ASSIGNMENT ∧
      parseShape (init_lexer (cstring " 1 + 2 ")) .PREC_ASSIGNMENT =
        some (.binary .plus (.number ⟨.TOKEN_NUMBER, [49]⟩) (.number ⟨.TOKEN_NUMBER, [50]⟩))) ∧
    (layoutWith (fun _ => [9, 10, 13, 32]) [0] 0
          [⟨.TOKEN_NUMBER, [49]⟩, .plus, ⟨.TOKEN_NUMBER, [50]⟩] =
        cstring "\t\n\r 1\t\n\r +\t\n\r 2\t\n\r " ∧
      parseShape (init_lexer (cstring "1+2")) .PREC_ASSIGNMENT =
        parseShape (init_lexer (cstring "\t\n\r 1\t\n\r +\t\n\r 2\t\n\r ")) .PREC_ASSIGNMENT) ∧
    (layoutWith (fun _ => [32]) [0] 0 [⟨.TOKEN_NUMBER, [49]⟩, ⟨.TOKEN_NUMBER, [50]⟩] =
        cstring " 1 2 " ∧
      layoutWith (fun _ => [9]) [0] 0 [⟨.TOKEN_NUMBER, [49]⟩, ⟨.TOKEN_NUMBER, [50]⟩] =
        cstring "\t1\t2\t" ∧
      parseShape (init_lexer (cstring " 1 2 ")) .PREC_ASSIGNMENT =
        parseShape (init_lexer (cstring "\t1\t2\t")) .PREC_ASSIGNMENT ∧
      parseShape (init_lexer (cstring "\t1\t2\t")) .PREC_ASSIGNMENT =
        some (.number ⟨.TOKEN_NUMBER, [49]⟩)) :=
  ⟨⟨by decide, by decide,
    (parse_insensitive_to_whitespace (fun _ => []) (fun _ => [32])
      [⟨.TOKEN_NUMBER, [49]⟩, .plus, ⟨.TOKEN_NUMBER, [50]⟩] [0] .PREC_ASSIGNMENT
      (by intro i c hc; simp at hc)
      (by intro i c hc; simp only [List.mem_singleton] at hc; exact Or.inl hc)
      (by decide) (by decide)).1,
    (parse_insensitive_to_whitespace (fun _ => []) (fun _ => [32])
      [⟨.TOKEN_NUMBER, [49]⟩, .plus, ⟨.TOKEN_NUMBER, [50]⟩] [0] .PREC_ASSIGNMENT
      (by intro i c hc; simp at hc)
      (by intro i c hc; simp only [List.mem_singleton] at hc; exact Or.inl hc)
      (by decide) (by decide)).2.1,
    by decide⟩,
   ⟨by decide,
    (parse_insensitive_to_whitespace (fun _ => []) (fun _ => [9, 10, 13, 32])
      [⟨.TOKEN_NUMBER, [49]⟩, .plus, ⟨.TOKEN_NUMBER, [50]⟩] [0] .PREC_ASSIGNMENT
      (by intro i c hc; simp at hc)
      (by
        intro i c hc
        simp only [List.mem_cons, List.mem_singleton, List.not_mem_nil, or_false] at hc
        omega)
      (by decide) (by decide)).2.1⟩,
   ⟨by decide, by decide,
    (parse_insensitive_to_whitespace (fun _ => [32]) (fun _ => [9])
      [⟨.TOKEN_NUMBER, [49]⟩, ⟨.TOKEN_NUMBER, [50]⟩] [0] .PREC_ASSIGNMENT
      (by intro i c hc; simp only [List.mem_singleton] at hc; exact Or.inl hc)
      (by intro i c hc; simp only [List.mem_singleton] at hc; exact Or.inr (Or.inl hc))
      (by decide) (by decide)).2.1,
    by decide⟩⟩

/-! ## The tokens of the lexer -/

theorem drop_of_getElem? {buffer : List Nat} {j c : Nat} (h : buffer[j]? = some c) :
    buffer.drop j = c :: buffer.drop (j + 1) := by
  obtain ⟨hj, rfl⟩ := List.getElem?_eq_some_iff.mp h
  exact List.drop_eq_getElem_cons hj

/-- Whitespace between the cursor and a token only moves the start of the
token. -/
theorem lexSuffix_skip (buffer : List Nat) (kind : TokenKind) (length : Nat) (d i j : Nat)
    (hd : j = i + d)
    (hws : ∀ k, i ≤ k → k < j → ∃ w, buffer[k]? = some w ∧ isSpace w = true)
    (h : lexSuffix (buffer.drop j) = .ok (kind, 0, length)) :
    lexSuffix (buffer.drop i) = .ok (kind, d, length) := by
  induction d generalizing i with
  | zero => subst hd; exact h
  | succ d ih =>
    obtain ⟨w, hw, hsp⟩ := hws i (le_refl _) (by omega)
    rw [drop_of_getElem? hw, lexSuffix_cons_space _ hsp,
      ih (i + 1) (by omega) (fun k hk1 hk2 => hws k (by omega) hk2)]

/-- C8: for every buffer and cursor `i`, when `j` is the first position at or
after `i` whose byte is not a space, tab, newline or carriage return and the
byte at `j` is one of `+ - * / ( )`, `next_token` returns the token of the
matching kind with start `j` and length 1 and leaves the cursor at `j + 1`. -/
theorem next_token_one_character (buffer : List Nat) (i j c : Nat) (kind : TokenKind)
    (hij : i ≤ j)
    (hws : ∀ k, i ≤ k → k < j → ∃ w, buffer[k]? = some w ∧ isSpace w = true)
    (hc : buffer[j]? = some c)
    (hkind : (c, kind) ∈ [(43, TokenKind.TOKEN_PLUS), (45, .TOKEN_MINUS), (42, .TOKEN_STAR),
      (47, .TOKEN_SLASH), (40, .TOKEN_LPAREN), (41, .TOKEN_RPAREN)]) :
    next_token { buffer := buffer, current := i } =
      .ok ({ kind := kind, start := j, length := 1 }, { buffer := buffer, current := j + 1 }) := by
  have hk : charKind c = some kind := by
    simp only [List.mem_cons, Prod.mk.injEq, List.mem_singleton, List.not_mem_nil,
      or_false] at hkind
    rcases hkind with ⟨rfl, rfl⟩ | ⟨rfl, rfl⟩ | ⟨rfl, rfl⟩ | ⟨rfl, rfl⟩ | ⟨rfl, rfl⟩ | ⟨rfl, rfl⟩ <;>
      rfl
  have h0 : lexSuffix (buffer.drop j) = .ok (kind, 0, 1) := by
    rw [drop_of_getElem? hc]; exact lexSuffix_symbol _ hk
  have h1 := lexSuffix_skip buffer kind 1 (j - i) i j (by omega) hws h0
  rw [next_token_eq]
  simp only [h1]
  have : i + (j - i) = j := by omega
  rw [this]

/-- C8 at the buffer `" \t+1"` with the cursor at 0: the token `+` starts at
offset 2. -/
theorem next_token_one_character_witness :
    next_token { buffer := [32, 9, 43, 49, 0], current := 0 } =
      .ok ({ kind := .TOKEN_PLUS, start := 2, length := 1 },
           { buffer := [32, 9, 43, 49, 0], current := 3 }) :=
  next_token_one_character [32, 9, 43, 49, 0] 0 2 43 .TOKEN_PLUS (by decide)
    (by
      intro k _ hk
      have : k = 0 ∨ k = 1 := by omega
      rcases this with rfl | rfl
      · exact ⟨32, rfl, rfl⟩
      · exact ⟨9, rfl, rfl⟩)
    rfl (by decide)

theorem takeWhile_run (p : Nat → Bool) (l : List Nat) (x : Nat) (rest : List Nat)
    (h : l.dropWhile p = x :: rest) :
    (∀ k, k < (l.takeWhile p).length → ∃ d, l[k]? = some d ∧ p d = true) ∧
      l[(l.takeWhile p).length]? = some x ∧ p x = false := by
  induction l with
  | nil => simp at h
  | cons a l ih =>
    by_cases ha : p a = true
    · rw [List.dropWhile_cons_of_pos ha] at h
      obtain ⟨h1, h2, h3⟩ := ih h
      rw [List.takeWhile_cons_of_pos ha]
      refine ⟨?_, ?_, h3⟩
      · intro k hk
        cases k with
        | zero => exact ⟨a, by simp, ha⟩
        | succ k =>
          simp only [List.length_cons, Nat.add_lt_add_iff_right] at hk
          simpa using h1 k hk
      · simpa using h2
    · simp only [Bool.not_eq_true] at ha
      rw [List.dropWhile_cons_of_neg (by simp [ha])] at h
      cases h
      rw [List.takeWhile_cons_of_neg (by simp [ha])]
      exact ⟨by intro k hk; simp at hk, by simp, ha⟩

/-- C9: a Number token is a maximal run of decimal digits. In a buffer with a
NUL at or after the cursor `i`, when `j` is the first position at or after `i`
whose byte is not whitespace and the byte at `j` is a digit, `next_token`
returns a Number token with start `j` and a length `L >= 1` such that the
bytes at `j .. j+L-1` are digits and the byte at `j+L` is not, and leaves the
cursor at `j + L`. -/
theorem next_token_number (buffer : List Nat) (i j c : Nat)
    (hnul : terminatedFrom buffer i = true) (hij : i ≤ j)
    (hws : ∀ k, i ≤ k → k < j → ∃ w, buffer[k]? = some w ∧ isSpace w = true)
    (hc : buffer[j]? = some c) (hdigit : isDigit c = true) :
    ∃ L, 1 ≤ L ∧
      next_token { buffer := buffer, current := i } =
        .ok ({ kind := .TOKEN_NUMBER, start := j, length := L },
             { buffer := buffer, current := j + L }) ∧
      (∀ k, j ≤ k → k < j + L → ∃ d, buffer[k]? = some d ∧ isDigit d = true) ∧
      ∃ x, buffer[j + L]? = some x ∧ isDigit x = false := by
  -- the NUL lies after the digit at `j`
  have hnul' : 0 ∈ buffer.drop (j + 1) := by
    simp only [terminatedFrom, List.contains_iff_exists_mem_beq, beq_iff_eq, exists_eq_right']
      at hnul
    obtain ⟨e, he⟩ := List.mem_iff_getElem?.mp hnul
    rw [List.getElem?_drop] at he
    have hje : j < i + e := by
      rcases Nat.lt_or_ge j (i + e) with h | h
      · exact h
      · exfalso
        rcases Nat.lt_or_ge (i + e) j with h2 | h2
        · obtain ⟨w, hw, hsp⟩ := hws (i + e) (by omega) h2
          rw [he] at hw; cases hw; cases hsp
        · have : i + e = j := by omega
          rw [this, hc] at he; cases he; cases hdigit
    have : (buffer.drop (j + 1))[i + e - (j + 1)]? = some 0 := by
      rw [List.getElem?_drop]
      have : j + 1 + (i + e - (j + 1)) = i + e := by omega
      rw [this, he]
    exact List.getElem?_mem this
  cases hdw : (buffer.drop (j + 1)).dropWhile isDigit with
  | nil =>
    have := (List.dropWhile_eq_nil_iff.mp hdw) 0 hnul'
    cases this
  | cons x rest =>
    obtain ⟨hrun, hend, hx⟩ := takeWhile_run isDigit _ x rest hdw
    refine ⟨1 + ((buffer.drop (j + 1)).takeWhile isDigit).length, by omega, ?_, ?_, x, ?_, hx⟩
    · have h0 : lexSuffix (buffer.drop j) =
          .ok (.TOKEN_NUMBER, 0, 1 + ((buffer.drop (j + 1)).takeWhile isDigit).length) := by
        rw [drop_of_getElem? hc]
        simp [lexSuffix, List.dropWhile, List.takeWhile, digit_not_space hdigit,
          digit_charKind hdigit, hdigit, hdw]
      have h1 := lexSuffix_skip buffer _ _ (j - i) i j (by omega) hws h0
      rw [next_token_eq]
      simp only [h1]
      have : i + (j - i) = j := by omega
      rw [this]
    · intro k hk1 hk2
      rcases Nat.eq_or_lt_of_le hk1 with rfl | hlt
      · exact ⟨c, hc, hdigit⟩
      · obtain ⟨d, hd1, hd2⟩ := hrun (k - (j + 1)) (by omega)
        rw [List.getElem?_drop] at hd1
        have : j + 1 + (k - (j + 1)) = k := by omega
        rw [this] at hd1
        exact ⟨d, hd1, hd2⟩
    · rw [List.getElem?_drop] at hend
      rw [← hend]; congr 1; omega

/-- C9 at the buffer `" 12+"` with the cursor at 0: the number starts at
offset 1. -/
theorem next_token_number_witness :
    ∃ L, 1 ≤ L ∧
      next_token { buffer := [32, 49, 50, 43, 0], current := 0 } =
        .ok ({ kind := .TOKEN_NUMBER, start := 1, length := L },
             { buffer := [32, 49, 50, 43, 0], current := 1 + L }) ∧
      (∀ k, 1 ≤ k → k < 1 + L →
        ∃ d, [32, 49, 50, 43, 0][k]? = some d ∧ isDigit d = true) ∧
      ∃ x, [32, 49, 50, 43, 0][1 + L]? = some x ∧ isDigit x = false :=
  next_token_number [32, 49, 50, 43, 0] 0 1 49 rfl (by decide)
    (by
      intro k _ hk
      have : k = 0 := by omega
      subst this
      exact ⟨32, rfl, rfl⟩)
    rfl rfl

/-! ## End of input -/

theorem lexSuffix_length_one {l : List Nat} {kind : TokenKind} {skipped length : Nat}
    (h : lexSuffix l = .ok (kind, skipped, length)) (hk : kind ≠ .TOKEN_NUMBER) :
    length = 1 := by
  unfold lexSuffix at h
  split at h
  · cases h
  · split at h
    · cases h; rfl
    · split at h
      · split at h
        · cases h
        · cases h; exact absurd rfl hk
      · cases h

/-- A token that is not a number is one byte long. -/
theorem next_token_length_one {lexer lexer' : Lexer} {token : Token}
    (h : next_token lexer = .ok (token, lexer')) (hk : token.kind ≠ .TOKEN_NUMBER) :
    token.length = 1 := by
  rw [next_token_eq] at h
  cases hs : lexSuffix (lexer.buffer.drop lexer.current) with
  | error g => rw [hs] at h; cases h
  | ok r =>
    obtain ⟨kind, skipped, length⟩ := r
    rw [hs] at h
    cases h
    exact lexSuffix_length_one hs hk

/-- C10, refuted as stated: `next_token` leaves the cursor one byte past the
NUL it returned `TOKEN_EOF` for, and a later call without a rewind reads the
byte after the terminator. On the empty text that read is outside the buffer
and no token is returned; on the bytes `NUL + NUL` the later call returns the
token `+`. -/
theorem end_of_input_not_idempotent :
    next_token (init_lexer [0]) =
        .ok ({ kind := .TOKEN_EOF, start := 0, length := 1 }, { buffer := [0], current := 1 }) ∧
    next_token { buffer := [0], current := 1 } = .error .outOfBounds ∧
    next_token (init_lexer [0, 43, 0]) =
        .ok ({ kind := .TOKEN_EOF, start := 0, length := 1 },
             { buffer := [0, 43, 0], current := 1 }) ∧
    next_token { buffer := [0, 43, 0], current := 1 } =
        .ok ({ kind := .TOKEN_PLUS, start := 1, length := 1 },
             { buffer := [0, 43, 0], current := 2 }) :=
  ⟨rfl, rfl, rfl, rfl⟩

/-- C10, amended: end of input is idempotent under pushback. Once
`next_token` has returned a `TOKEN_EOF` token, the cursor is one byte past
the start of that token, and after the cursor is moved back by the length of
the token (as `parse_expression` does before it reads again) the next call
returns the same `TOKEN_EOF` token and leaves the same lexer, so this repeats
every time. -/
theorem end_of_input_idempotent_after_pushBack (lexer lexer' : Lexer) (token : Token)
    (h : next_token lexer = .ok (token, lexer')) (hk : token.kind = .TOKEN_EOF) :
    lexer'.current = token.start + 1 ∧
      next_token (pushBack lexer' token) = .ok (token, lexer') := by
  have hl := next_token_length_one h (by rw [hk]; decide)
  obtain ⟨_, hc, _⟩ := next_token_facts h
  exact ⟨by rw [hc, hl], next_token_pushBack h⟩

/-- C10, amended, at the text `1 ` with the cursor after the number. -/
theorem end_of_input_idempotent_after_pushBack_witness :
    next_token { buffer := cstring "1 ", current := 1 } =
        .ok ({ kind := .TOKEN_EOF, start := 2, length := 1 },
             { buffer := cstring "1 ", current := 3 }) ∧
    next_token (pushBack { buffer := cstring "1 ", current := 3 }
        { kind := .TOKEN_EOF, start := 2, length := 1 }) =
      .ok ({ kind := .TOKEN_EOF, start := 2, length := 1 },
           { buffer := cstring "1 ", current := 3 }) :=
  ⟨rfl,
   (end_of_input_idempotent_after_pushBack { buffer := cstring "1 ", current := 1 }
      { buffer := cstring "1 ", current := 3 }
      { kind := .TOKEN_EOF, start := 2, length := 1 } rfl rfl).2⟩

/-! ## Where the parser stops -/

/-- The token a successful call stops at is left in the sequence, and it is
not a binary operator above the minimum precedence. -/
theorem climb_stop {τ : Type} (kind : τ → TokenKind) (n : Nat) :
    (∀ ts p t rest, climb kind n ts p = .ok (t, rest) →
      ∃ x r, rest = some x :: r ∧
        ∀ np, binaryPrecedence (kind x) = some np → np.toNat ≤ p.toNat) ∧
    (∀ ts p left t rest, climbLoop kind n ts p left = .ok (t, rest) →
      ∃ x r, rest = some x :: r ∧
        ∀ np, binaryPrecedence (kind x) = some np → np.toNat ≤ p.toNat) := by
  induction n with
  | zero =>
    constructor
    · intro ts p t rest h; simp [climb] at h
    · intro ts p left t rest h; simp [climbLoop] at h
  | succ n ih =>
    obtain ⟨ihE, ihL⟩ := ih
    constructor
    · intro ts p t rest h
      match ts with
      | [] => simp [climb] at h
      | none :: ts1 => simp [climb] at h
      | some token :: ts1 =>
        rw [climb] at h
        split at h
        · exact ihL _ _ _ _ _ h
        · split at h
          · cases h
          · split at h
            · split at h
              · cases h
              · exact ihL _ _ _ _ _ h
            · cases h
        · split at h
          · cases h
          · exact ihL _ _ _ _ _ h
        · split at h
          · cases h
          · exact ihL _ _ _ _ _ h
        · cases h
    · intro ts p left t rest h
      match ts with
      | [] => simp [climbLoop] at h
      | none :: ts1 => simp [climbLoop] at h
      | some next :: ts1 =>
        rw [climbLoop] at h
        split at h
        · rename_i hb
          cases h
          exact ⟨next, ts1, rfl, by intro np hnp; rw [hb] at hnp; cases hnp⟩
        · rename_i np hb
          split at h
          · rename_i hle
            cases h
            exact ⟨next, ts1, rfl, by intro q hq; rw [hb] at hq; cases hq; exact hle⟩
          · split at h
            · cases h
            · exact ihL _ _ _ _ _ h

/-- A successful call consumes a non-empty run of tokens that ends with a
number or a closing parenthesis; its loop consumes nothing or such a run. -/
theorem climb_consumed {τ : Type} (kind : τ → TokenKind) (n : Nat) :
    (∀ ts p t rest, climb kind n ts p = .ok (t, rest) →
      ∃ c x, ts = c ++ some x :: rest ∧
        (kind x = .TOKEN_NUMBER ∨ kind x = .TOKEN_RPAREN)) ∧
    (∀ ts p left t rest, climbLoop kind n ts p left = .ok (t, rest) →
      rest = ts ∨ ∃ c x, ts = c ++ some x :: rest ∧
        (kind x = .TOKEN_NUMBER ∨ kind x = .TOKEN_RPAREN)) := by
  induction n with
  | zero =>
    constructor
    · intro ts p t rest h; simp [climb] at h
    · intro ts p left t rest h; simp [climbLoop] at h
  | succ n ih =>
    obtain ⟨ihE, ihL⟩ := ih
    -- a loop after a consumed run ending in `x`
    have after : ∀ (pre : List (Option τ)) (x : τ) (ts1 : List (Option τ)) p left t rest,
        (kind x = .TOKEN_NUMBER ∨ kind x = .TOKEN_RPAREN) →
        climbLoop kind n ts1 p left = .ok (t, rest) →
        ∃ c y, pre ++ some x :: ts1 = c ++ some y :: rest ∧
          (kind y = .TOKEN_NUMBER ∨ kind y = .TOKEN_RPAREN) := by
      intro pre x ts1 p left t rest hx h
      rcases ihL _ _ _ _ _ h with rfl | ⟨c, y, rfl, hy⟩
      · exact ⟨pre, x, rfl, hx⟩
      · exact ⟨pre ++ some x :: c, y, by simp, hy⟩
    constructor
    · intro ts p t rest h
      match ts with
      | [] => simp [climb] at h
      | none :: ts1 => simp [climb] at h
      | some token :: ts1 =>
        rw [climb] at h
        split at h
        · rename_i hk
          exact after [] token ts1 _ _ _ _ (Or.inl hk) h
        · split at h
          · cases h
          · rename_i left rest1 h1
            obtain ⟨c, x, rfl, hx⟩ := ihE _ _ _ _ h1
            split at h
            · rename_i closing rest2
              split at h
              · cases h
              · rename_i hc
                simp only [ne_eq, Decidable.not_not] at hc
                obtain ⟨c', y, hy1, hy2⟩ :=
                  after (some token :: (c ++ [some x])) closing rest2 _ _ _ _ (Or.inr hc) h
                exact ⟨c', y, by simpa using hy1, hy2⟩
            · cases h
        · split at h
          · cases h
          · rename_i operand rest1 h1
            obtain ⟨c, x, rfl, hx⟩ := ihE _ _ _ _ h1
            obtain ⟨c', y, hy1, hy2⟩ := after (some token :: c) x rest1 _ _ _ _ hx h
            exact ⟨c', y, by simpa using hy1, hy2⟩
        · split at h
          · cases h
          · rename_i operand rest1 h1
            obtain ⟨c, x, rfl, hx⟩ := ihE _ _ _ _ h1
            obtain ⟨c', y, hy1, hy2⟩ := after (some token :: c) x rest1 _ _ _ _ hx h
            exact ⟨c', y, by simpa using hy1, hy2⟩
        · cases h
    · intro ts p left t rest h
      match ts with
      | [] => simp [climbLoop] at h
      | none :: ts1 => simp [climbLoop] at h
      | some next :: ts1 =>
        rw [climbLoop] at h
        split at h
        · cases h; exact Or.inl rfl
        · split at h
          · cases h; exact Or.inl rfl
          · split at h
            · cases h
            · rename_i right rest1 h1
              obtain ⟨c, x, rfl, hx⟩ := ihE _ _ _ _ h1
              obtain ⟨c', y, hy1, hy2⟩ := after (some next :: c) x rest1 _ _ _ _ hx h
              exact Or.inr ⟨c', y, by simpa using hy1, hy2⟩

/-- What a successful `parse_expression` leaves: the same buffer, a cursor
that has advanced, and at the cursor the first byte of a token that is not a
binary operator above the minimum precedence; its loop leaves the same, with
a cursor that has not moved back. -/
theorem parse_expression_stop (n : Nat) :
    (∀ lexer p t lexer', parse_expression n lexer p = .ok (t, lexer') →
      lexer'.buffer = lexer.buffer ∧ lexer.current < lexer'.current ∧
      ∃ x lexer'', next_token lexer' = .ok (x, lexer'') ∧ x.start = lexer'.current ∧
        ∀ np, binaryPrecedence x.kind = some np → np.toNat ≤ p.toNat) ∧
    (∀ lexer p left t lexer', parse_loop n lexer p left = .ok (t, lexer') →
      lexer'.buffer = lexer.buffer ∧ lexer.current ≤ lexer'.current ∧
      ∃ x lexer'', next_token lexer' = .ok (x, lexer'') ∧ x.start = lexer'.current ∧
        ∀ np, binaryPrecedence x.kind = some np → np.toNat ≤ p.toNat) := by
  induction n with
  | zero =>
    constructor
    · intro lexer p t lexer' h; simp [parse_expression] at h
    · intro lexer p left t lexer' h; simp [parse_loop] at h
  | succ n ih =>
    obtain ⟨ihE, ihL⟩ := ih
    constructor
    · intro lexer p t lexer' h
      rw [parse_expression] at h
      split at h
      · cases h
      · rename_i token lexer1 h1
        obtain ⟨b1, c1, s1, l1, _⟩ := next_token_facts h1
        split at h
        · obtain ⟨b2, c2, rest⟩ := ihL _ _ _ _ _ h
          exact ⟨by rw [b2, b1], by omega, rest⟩
        · split at h
          · cases h
          · rename_i left lexer2 h2
            obtain ⟨b2, c2, _⟩ := ihE _ _ _ _ h2
            split at h
            · cases h
            · rename_i closing lexer3 h3
              obtain ⟨b3, c3, s3, l3, _⟩ := next_token_facts h3
              split at h
              · cases h
              · obtain ⟨b4, c4, rest⟩ := ihL _ _ _ _ _ h
                exact ⟨by rw [b4, b3, b2, b1], by omega, rest⟩
        · split at h
          · cases h
          · rename_i operand lexer2 h2
            obtain ⟨b2, c2, _⟩ := ihE _ _ _ _ h2
            obtain ⟨b3, c3, rest⟩ := ihL _ _ _ _ _ h
            exact ⟨by rw [b3, b2, b1], by omega, rest⟩
        · split at h
          · cases h
          · rename_i operand lexer2 h2
            obtain ⟨b2, c2, _⟩ := ihE _ _ _ _ h2
            obtain ⟨b3, c3, rest⟩ := ihL _ _ _ _ _ h
            exact ⟨by rw [b3, b2, b1], by omega, rest⟩
        · cases h
    · intro lexer p left t lexer' h
      rw [parse_loop] at h
      split at h
      · cases h
      · rename_i next lexer1 h1
        obtain ⟨b1, c1, s1, l1, _⟩ := next_token_facts h1
        have hpb := pushBack_eq h1
        have hre := next_token_pushBack h1
        split at h
        · rename_i hb
          cases h
          refine ⟨by rw [hpb], by rw [hpb]; exact s1, next, lexer1, hre, by rw [hpb], ?_⟩
          intro np hnp; rw [hb] at hnp; cases hnp
        · rename_i np hb
          split at h
          · rename_i hle
            cases h
            refine ⟨by rw [hpb], by rw [hpb]; exact s1, next, lexer1, hre, by rw [hpb], ?_⟩
            intro q hq; rw [hb] at hq; cases hq; exact hle
          · split at h
            · cases h
            · rename_i right lexer2 h2
              obtain ⟨b2, c2, _⟩ := ihE _ _ _ _ h2
              obtain ⟨b3, c3, rest⟩ := ihL _ _ _ _ _ h
              exact ⟨by rw [b3, b2, b1], by omega, rest⟩

/-- The call `parse` leaves the buffer as it was. -/
theorem parse_buffer {lexer lexer' : Lexer} {p : Precedence} {t : ASTNode}
    (h : parse lexer p = .ok (t, lexer')) : lexer'.buffer = lexer.buffer :=
  ((parse_expression_stop _).1 lexer p t lexer' h).1

/-! ## Fuel of `parse_expression` -/

/-- A result of `parse_expression` other than running out of fuel is kept
with one more unit of fuel. -/
theorem parse_expression_succ (n : Nat) :
    (∀ lexer p r, parse_expression n lexer p = r → r ≠ .error .outOfFuel →
        parse_expression (n + 1) lexer p = r) ∧
    (∀ lexer p left r, parse_loop n lexer p left = r → r ≠ .error .outOfFuel →
        parse_loop (n + 1) lexer p left = r) := by
  induction n with
  | zero =>
    constructor
    · intro lexer p r h hr; rw [parse_expression] at h; exact absurd h.symm hr
    · intro lexer p left r h hr; rw [parse_loop] at h; exact absurd h.symm hr
  | succ n ih =>
    obtain ⟨ihE, ihL⟩ := ih
    constructor
    · intro lexer p r h hr
      rw [parse_expression] at h ⊢
      cases h1 : next_token lexer with
      | error e => rw [h1] at h; exact h
      | ok res =>
        obtain ⟨token, lexer1⟩ := res
        rw [h1] at h
        simp only at h ⊢
        split at h
        · exact ihL _ _ _ _ h hr
        · cases h2 : parse_expression n lexer1 .PREC_ASSIGNMENT with
          | error e =>
            rw [h2] at h; subst h
            rw [ihE _ _ _ h2 hr]
          | ok res2 =>
            obtain ⟨left, lexer2⟩ := res2
            rw [h2] at h
            rw [ihE _ _ _ h2 (by simp)]
            simp only at h ⊢
            cases h3 : next_token lexer2 with
            | error e => rw [h3] at h; exact h
            | ok res3 =>
              obtain ⟨closing, lexer3⟩ := res3
              rw [h3] at h
              simp only at h ⊢
              split at h
              · rename_i hc; rw [if_pos hc]; exact h
              · rename_i hc; rw [if_neg hc]; exact ihL _ _ _ _ h hr
        · cases h2 : parse_expression n lexer1 .PREC_UNARY with
          | error e =>
            rw [h2] at h; subst h
            rw [ihE _ _ _ h2 hr]
          | ok res2 =>
            obtain ⟨operand, lexer2⟩ := res2
            rw [h2] at h
            rw [ihE _ _ _ h2 (by simp)]
            exact ihL _ _ _ _ h hr
        · cases h2 : parse_expression n lexer1 .PREC_UNARY with
          | error e =>
            rw [h2] at h; subst h
            rw [ihE _ _ _ h2 hr]
          | ok res2 =>
            obtain ⟨operand, lexer2⟩ := res2
            rw [h2] at h
            rw [ihE _ _ _ h2 (by simp)]
            exact ihL _ _ _ _ h hr
        · exact h
    · intro lexer p left r h hr
      rw [parse_loop] at h ⊢
      cases h1 : next_token lexer with
      | error e => rw [h1] at h; exact h
      | ok res =>
        obtain ⟨next, lexer1⟩ := res
        rw [h1] at h
        simp only at h ⊢
        split at h
        · exact h
        · rename_i np hb
          split at h
          · rename_i hle; rw [if_pos hle]; exact h
          · rename_i hle
            rw [if_neg hle]
            cases h2 : parse_expression n lexer1 np with
            | error e =>
              rw [h2] at h; subst h
              rw [ihE _ _ _ h2 hr]
            | ok res2 =>
              obtain ⟨right, lexer2⟩ := res2
              rw [h2] at h
              rw [ihE _ _ _ h2 (by simp)]
              exact ihL _ _ _ _ h hr

theorem parse_expression_add (n k : Nat) (lexer : Lexer) (p : Precedence)
    (h : parse_expression n lexer p ≠ .error .outOfFuel) :
    parse_expression (n + k) lexer p = parse_expression n lexer p := by
  induction k with
  | zero => rfl
  | succ k ih =>
    rw [← Nat.add_assoc]
    exact (parse_expression_succ (n + k)).1 lexer p _ ih h

/-- Any fuel from that of `parse` on gives the result of `parse`. -/
theorem parse_expression_eq_parse (n : Nat) (lexer : Lexer) (p : Precedence)
    (hn : lexer.buffer.length - lexer.current + 2 ≤ n) :
    parse_expression n lexer p = parse lexer p := by
  obtain ⟨k, rfl⟩ := Nat.exists_eq_add_of_le hn
  exact parse_expression_add _ k lexer p (parse_fuel lexer p)

/-! ## Syntax errors -/

theorem binaryPrecedence_above_assignment {k : TokenKind} {np : Precedence}
    (h : binaryPrecedence k = some np) : ¬ np.toNat ≤ Precedence.PREC_ASSIGNMENT.toNat := by
  cases k <;> cases h <;> decide

/-- On tokens that end with a binary operator and the end of input, a call at
`PREC_ASSIGNMENT` returns only by stopping at an earlier token, one that is
not a binary operator. -/
theorem climb_trailing_operator {τ : Type} (kind : τ → TokenKind) (n : Nat)
    (pre : List (Option τ)) (op eof : τ) (hop : binaryPrecedence (kind op) ≠ none)
    (tree : Tree τ) (rest : List (Option τ))
    (h : climb kind n (pre ++ [some op, some eof]) .PREC_ASSIGNMENT = .ok (tree, rest)) :
    ∃ t r, rest = some t :: (r ++ [some op, some eof]) ∧ binaryPrecedence (kind t) = none := by
  obtain ⟨t, r', rfl, ht⟩ := (climb_stop kind n).1 _ _ _ _ h
  obtain ⟨c, x, hx, hxk⟩ := (climb_consumed kind n).1 _ _ _ _ h
  have htn : binaryPrecedence (kind t) = none := by
    cases hb : binaryPrecedence (kind t) with
    | none => rfl
    | some np => exact absurd (ht np hb) (binaryPrecedence_above_assignment hb)
  have hxop : x ≠ op := by
    rintro rfl
    rcases hxk with hk | hk <;> rw [hk] at hop <;> exact hop rfl
  have htop : t ≠ op := by
    rintro rfl
    exact hop htn
  have e : pre ++ [some op, some eof] = (c ++ [some x]) ++ (some t :: r') := by
    rw [hx]; simp
  rcases List.append_eq_append_iff.mp e with ⟨a', h1, h2⟩ | ⟨a', h1, h2⟩
  · -- `some t :: r'` begins inside the last two tokens
    cases a' with
    | nil =>
      simp only [List.nil_append, List.cons.injEq, Option.some.injEq] at h2
      exact absurd h2.1.symm htop
    | cons y a'' =>
      simp only [List.cons_append, List.cons.injEq] at h2
      obtain ⟨rfl, h2⟩ := h2
      cases a'' with
      | nil =>
        have := congrArg List.getLast? h1
        simp only [List.getLast?_append, List.getLast?_singleton, Option.or,
          Option.some.injEq] at this
        exact absurd this hxop
      | cons z a3 =>
        simp only [List.cons_append, List.cons.injEq] at h2
        obtain ⟨rfl, h2⟩ := h2
        simp at h2
  · -- `some t :: r'` begins inside `pre`
    cases a' with
    | nil =>
      simp only [List.nil_append, List.cons.injEq, Option.some.injEq] at h2
      exact absurd h2.1 htop
    | cons y a'' =>
      simp only [List.cons_append, List.cons.injEq] at h2
      obtain ⟨rfl, rfl⟩ := h2
      exact ⟨t, a'', rfl, htn⟩

/-- C5, refuted as stated: the input `1 2 +` ends right after a binary
operator, and `parse_expression` at `PREC_ASSIGNMENT` does not fail on it:
it returns the Number node of `1` and leaves the cursor at the `2`. -/
theorem trailing_operator_not_reached :
    parse (init_lexer (cstring "1 2 +")) .PREC_ASSIGNMENT =
      .ok (.node .null .null .AST_NUMBER { kind := .TOKEN_NUMBER, start := 0, length := 1 },
           { buffer := cstring "1 2 +", current := 2 }) :=
  rfl

/-- C5, amended: for every minimum precedence and every lexer state in which
the next token is `TOKEN_EOF`, `*`, `/` or `)`, `parse_expression` fails with
the unexpected-token error on that token and returns no tree; and on an input
whose tokens end with a binary operator followed by the end of input,
`parse_expression` at `PREC_ASSIGNMENT` fails, unless it returns before it
reaches that operator, having stopped at an earlier token that is not a binary
operator. -/
theorem unexpected_token_in_operand_position (n : Nat) (lexer lexer1 : Lexer)
    (precedence : Precedence) (token : Token)
    (h : next_token lexer = .ok (token, lexer1))
    (hk : token.kind ∈ [TokenKind.TOKEN_EOF, .TOKEN_STAR, .TOKEN_SLASH, .TOKEN_RPAREN])
    (input : Lexer) (pre : List Lexeme) (op : Lexeme)
    (hop : op.isAdditive = true ∨ op.isMultiplicative = true)
    (hin : lexemes input = pre.map some ++ [some op, some .eof]) :
    parse_expression (n + 1) lexer precedence = .error (.unexpectedToken token) ∧
    (match parse input .PREC_ASSIGNMENT with
     | .error _ => True
     | .ok (_, lexer') =>
       ∃ t r, lexemes lexer' = some t :: (r ++ [some op, some .eof]) ∧
         binaryPrecedence t.kind = none) := by
  constructor
  · rw [parse_expression, h]
    simp only [List.mem_cons, List.mem_singleton, List.not_mem_nil, or_false] at hk
    rcases hk with hk | hk | hk | hk <;> simp only [hk]
  · cases hp : parse input .PREC_ASSIGNMENT with
    | error e => trivial
    | ok r =>
      obtain ⟨tree, lexer'⟩ := r
      have hv := parse_view (lexemeOf input.buffer) Lexeme.kind (fun _ => rfl) input
        .PREC_ASSIGNMENT
      have hbuf := parse_buffer hp
      rw [hp] at hv
      simp only [viewResult] at hv
      have hl : lexemes lexer' = (tokens lexer').map (Option.map (lexemeOf input.buffer)) := by
        rw [lexemes, hbuf]
      have hi : (tokens input).map (Option.map (lexemeOf input.buffer)) =
          pre.map some ++ [some op, some .eof] := hin
      rw [← hl, hi] at hv
      have hopk : binaryPrecedence op.kind ≠ none := by
        rcases hop with h1 | h1
        · rcases additive_cases h1 with rfl | rfl <;> simp [Lexeme.plus, Lexeme.minus,
            binaryPrecedence]
        · rcases multiplicative_cases h1 with rfl | rfl <;> simp [Lexeme.star, Lexeme.slash,
            binaryPrecedence]
      exact climb_trailing_operator Lexeme.kind _ _ op .eof hopk _ _ hv.symm

/-- C5, amended, at the text `1 + `: the call that parses the right operand
of `+` meets the end of input and fails, and so does the call at
`PREC_ASSIGNMENT` on the whole text. -/
theorem unexpected_token_in_operand_position_witness :
    (parse_expression 1 { buffer := cstring "1 + ", current := 3 } .PREC_TERM =
        .error (.unexpectedToken { kind := .TOKEN_EOF, start := 4, length := 1 }) ∧
     (match parse (init_lexer (cstring "1 + ")) .PREC_ASSIGNMENT with
      | .error _ => True
      | .ok (_, lexer') =>
        ∃ t r, lexemes lexer' = some t :: (r ++ [some Lexeme.plus, some .eof]) ∧
          binaryPrecedence t.kind = none)) ∧
    parse (init_lexer (cstring "1 + ")) .PREC_ASSIGNMENT =
      .error (.unexpectedToken { kind := .TOKEN_EOF, start := 4, length := 1 }) :=
  ⟨unexpected_token_in_operand_position 0 { buffer := cstring "1 + ", current := 3 }
      { buffer := cstring "1 + ", current := 5 } .PREC_TERM
      { kind := .TOKEN_EOF, start := 4, length := 1 } rfl (by decide)
      (init_lexer (cstring "1 + ")) [⟨.TOKEN_NUMBER, [49]⟩] .plus (Or.inl rfl) (by decide),
   rfl⟩

/-- C6: when a `(` in operand position is followed by a sub-expression that
`parse_expression` parses at `PREC_ASSIGNMENT`, the very next token is read
(it is the token the sub-expression stopped at); if it is not `)` the call
fails with the expected-closing-parenthesis error and returns no tree; if it
is `)` the call goes on into its loop with exactly the tree of the
sub-expression as `left`, no node added for the group. -/
theorem closing_parenthesis_required (lexer lexer1 lexer2 : Lexer)
    (precedence : Precedence) (token : Token) (inner : ASTNode)
    (h1 : next_token lexer = .ok (token, lexer1)) (hk : token.kind = .TOKEN_LPAREN)
    (h2 : parse lexer1 .PREC_ASSIGNMENT = .ok (inner, lexer2)) :
    ∃ closing lexer3, next_token lexer2 = .ok (closing, lexer3) ∧
      (closing.kind ≠ .TOKEN_RPAREN → parse lexer precedence = .error .expectedRParen) ∧
      (closing.kind = .TOKEN_RPAREN →
        parse lexer precedence =
          parse_loop (lexer.buffer.length - lexer.current + 1) lexer3 precedence inner) := by
  obtain ⟨_, _, closing, lexer3, h3, _, _⟩ := (parse_expression_stop _).1 _ _ _ _ h2
  obtain ⟨hb, hc, hs, hl, hle⟩ := next_token_facts h1
  have hfuel : parse_expression (lexer.buffer.length - lexer.current + 1) lexer1
      .PREC_ASSIGNMENT = .ok (inner, lexer2) := by
    rw [parse_expression_eq_parse _ _ _ (by rw [hb]; omega), h2]
  refine ⟨closing, lexer3, h3, ?_, ?_⟩
  · intro hc
    rw [parse, parse_expression, h1]
    simp only [hk, hfuel, h3, hc, ne_eq, not_false_eq_true, if_true]
  · intro hc
    rw [parse, parse_expression, h1]
    simp only [hk, hfuel, h3, hc, ne_eq, not_true_eq_false, if_false]

/-- C6 at the text `(1 + 2`: the sub-expression `1 + 2` is parsed, the next
token is the end of input, and the call fails. -/
theorem closing_parenthesis_required_witness :
    (∃ closing lexer3,
      next_token { buffer := cstring "(1 + 2", current := 6 } = .ok (closing, lexer3) ∧
      (closing.kind ≠ .TOKEN_RPAREN →
        parse (init_lexer (cstring "(1 + 2")) .PREC_ASSIGNMENT = .error .expectedRParen) ∧
      (closing.kind = .TOKEN_RPAREN →
        parse (init_lexer (cstring "(1 + 2")) .PREC_ASSIGNMENT =
          parse_loop ((init_lexer (cstring "(1 + 2")).buffer.length -
              (init_lexer (cstring "(1 + 2")).current + 1) lexer3 .PREC_ASSIGNMENT
            (.node (.node .null .null .AST_NUMBER ⟨.TOKEN_NUMBER, 1, 1⟩)
              (.node .null .null .AST_NUMBER ⟨.TOKEN_NUMBER, 5, 1⟩) .AST_BINARY
              ⟨.TOKEN_PLUS, 3, 1⟩))) ∧
    parse (init_lexer (cstring "(1 + 2")) .PREC_ASSIGNMENT = .error .expectedRParen :=
  ⟨closing_parenthesis_required (init_lexer (cstring "(1 + 2"))
      { buffer := cstring "(1 + 2", current := 1 }
      { buffer := cstring "(1 + 2", current := 6 } .PREC_ASSIGNMENT
      { kind := .TOKEN_LPAREN, start := 0, length := 1 } _ rfl rfl rfl,
   rfl⟩

/-! ## The parser over a token sequence, without fuel -/

theorem climbLoop_eq_climbLoopAll {τ : Type} (kind : τ → TokenKind) (n : Nat)
    (ts : List (Option τ)) (p : Precedence) (left : Tree τ) (hn : ts.length + 1 ≤ n) :
    climbLoop kind n ts p left = climbLoopAll kind ts p left := by
  obtain ⟨k, rfl⟩ := Nat.exists_eq_add_of_le hn
  exact climbLoop_add kind _ k ts p left ((climb_fuel kind _).2 ts p left (le_refl _))

theorem climbAll_length {τ : Type} (kind : τ → TokenKind) {ts : List (Option τ)}
    {p : Precedence} {t : Tree τ} {rest : List (Option τ)}
    (h : climbAll kind ts p = .ok (t, rest)) : rest.length < ts.length :=
  (climb_length kind _).1 ts p t rest h

theorem climbLoopAll_length {τ : Type} (kind : τ → TokenKind) {ts : List (Option τ)}
    {p : Precedence} {left t : Tree τ} {rest : List (Option τ)}
    (h : climbLoopAll kind ts p left = .ok (t, rest)) : rest.length ≤ ts.length :=
  (climb_length kind _).2 ts p left t rest h

/-- The loop, unfolded once. -/
theorem climbLoopAll_cons {τ : Type} (kind : τ → TokenKind) (x : τ) (r : List (Option τ))
    (p : Precedence) (left : Tree τ) :
    climbLoopAll kind (some x :: r) p left =
      match binaryPrecedence (kind x) with
      | none => .ok (left, some x :: r)
      | some np =>
        if np.toNat ≤ p.toNat then .ok (left, some x :: r)
        else
          match climbAll kind r np with
          | .error e => .error e
          | .ok (right, rest) =>
            climbLoopAll kind rest p (.node left right .AST_BINARY x) := by
  rw [climbLoopAll, List.length_cons, climbLoop]
  cases hb : binaryPrecedence (kind x) with
  | none => rfl
  | some np =>
    simp only
    split
    · rfl
    · rw [← climbAll]
      cases hc : climbAll kind r np with
      | error e => rfl
      | ok res =>
        obtain ⟨right, rest⟩ := res
        have hl := climbAll_length kind hc
        exact climbLoop_eq_climbLoopAll kind _ _ _ _ (by omega)

theorem climbLoopAll_nil {τ : Type} (kind : τ → TokenKind) (p : Precedence) (left : Tree τ) :
    climbLoopAll kind [] p left = .error .lexer := rfl

theorem climbLoopAll_none {τ : Type} (kind : τ → TokenKind) (r : List (Option τ))
    (p : Precedence) (left : Tree τ) :
    climbLoopAll kind (none :: r) p left = .error .lexer := rfl

/-- The call, unfolded once. -/
theorem climbAll_cons {τ : Type} (kind : τ → TokenKind) (t : τ) (r : List (Option τ))
    (p : Precedence) :
    climbAll kind (some t :: r) p =
      match kind t with
      | .TOKEN_NUMBER => climbLoopAll kind r p (.node .null .null .AST_NUMBER t)
      | .TOKEN_LPAREN =>
        match climbAll kind r .PREC_ASSIGNMENT with
        | .error e => .error e
        | .ok (left, rest) =>
          match rest with
          | some closing :: rest =>
            if kind closing ≠ .TOKEN_RPAREN then .error .expectedRParen
            else climbLoopAll kind rest p left
          | _ => .error .lexer
      | .TOKEN_PLUS | .TOKEN_MINUS =>
        match climbAll kind r .PREC_UNARY with
        | .error e => .error e
        | .ok (operand, rest) => climbLoopAll kind rest p (.node operand .null .AST_UNARY t)
      | _ => .error .unexpectedToken := by
  have hsign : ∀ q, (match climb kind (r.length + 1) r q with
      | .error e => Except.error e
      | .ok (operand, rest) =>
        climbLoop kind (r.length + 1) rest p
          ((create_ast_node .AST_UNARY t).setLeft operand)) =
      (match climbAll kind r q with
      | .error e => Except.error e
      | .ok (operand, rest) =>
        climbLoopAll kind rest p (.node operand .null .AST_UNARY t)) := by
    intro q
    rw [← climbAll]
    cases hc : climbAll kind r q with
    | error e => rfl
    | ok res =>
      obtain ⟨operand, rest⟩ := res
      have hl := climbAll_length kind hc
      exact climbLoop_eq_climbLoopAll kind _ _ _ _ (by omega)
  rw [climbAll, List.length_cons, climb]
  cases hk : kind t <;> simp only
  · rfl
  · exact hsign _
  · exact hsign _
  · rw [← climbAll]
    cases hc : climbAll kind r .PREC_ASSIGNMENT with
    | error e => rfl
    | ok res =>
      obtain ⟨left, rest⟩ := res
      have hl := climbAll_length kind hc
      simp only
      match rest with
      | [] => rfl
      | none :: rest2 => rfl
      | some closing :: rest2 =>
        simp only
        split
        · rfl
        · simp only [List.length_cons] at hl
          exact climbLoop_eq_climbLoopAll kind _ _ _ _ (by omega)

/-- At `PREC_UNARY` and above the loop absorbs nothing: it returns at once
when there is a next token. -/
theorem climbLoopAll_high {τ : Type} (kind : τ → TokenKind) (x : τ) (r : List (Option τ))
    (p : Precedence) (hp : 3 ≤ p.toNat) (left : Tree τ) :
    climbLoopAll kind (some x :: r) p left = .ok (left, some x :: r) := by
  rw [climbLoopAll_cons]
  cases hb : binaryPrecedence (kind x) with
  | none => rfl
  | some np =>
    have : np.toNat ≤ p.toNat := by
      have := binaryPrecedence_le_unary _ _ hb
      cases hk : kind x <;> rw [hk] at hb <;> cases hb <;>
        simp only [Precedence.toNat] at * <;> omega
    simp [this]

/-- The loop at `PREC_ASSIGNMENT` is the loop at `PREC_TERM` followed by the
loop at `PREC_ASSIGNMENT` on what it leaves. -/
theorem climbLoopAll_assignment_term {τ : Type} (kind : τ → TokenKind) (k : Nat) :
    ∀ (ts : List (Option τ)) (left : Tree τ), ts.length ≤ k →
      climbLoopAll kind ts .PREC_ASSIGNMENT left =
        match climbLoopAll kind ts .PREC_TERM left with
        | .error e => .error e
        | .ok (l, rest) => climbLoopAll kind rest .PREC_ASSIGNMENT l := by
  induction k with
  | zero =>
    intro ts left hk
    have : ts = [] := List.length_eq_zero.mp (by omega)
    subst this; rfl
  | succ k ih =>
    intro ts left hk
    match ts with
    | [] => rfl
    | none :: r => rfl
    | some x :: r =>
      simp only [List.length_cons] at hk
      cases hb : binaryPrecedence (kind x) with
      | none =>
        have : climbLoopAll kind (some x :: r) .PREC_TERM left = .ok (left, some x :: r) := by
          rw [climbLoopAll_cons, hb]
        rw [this]
      | some np =>
        by_cases hle : np.toNat ≤ Precedence.PREC_TERM.toNat
        · have : climbLoopAll kind (some x :: r) .PREC_TERM left = .ok (left, some x :: r) := by
            rw [climbLoopAll_cons, hb]; simp [hle]
          rw [this]
        · have hle' : ¬ np.toNat ≤ Precedence.PREC_ASSIGNMENT.toNat := by
            simp only [Precedence.toNat] at hle ⊢; omega
          rw [climbLoopAll_cons kind x r .PREC_ASSIGNMENT, climbLoopAll_cons kind x r .PREC_TERM,
            hb]
          simp only [hle, hle', if_false]
          cases hc : climbAll kind r np with
          | error e => rfl
          | ok res =>
            obtain ⟨right, rest⟩ := res
            have hl := climbAll_length kind hc
            exact ih rest _ (by omega)

/-- At `PREC_FACTOR` and above the minimum precedence makes no difference. -/
theorem climbAll_high_eq {τ : Type} (kind : τ → TokenKind) (ts : List (Option τ))
    (p q : Precedence) (hp : 3 ≤ p.toNat) (hq : 3 ≤ q.toNat) :
    climbAll kind ts p = climbAll kind ts q := by
  have hloop : ∀ (rest : List (Option τ)) (left : Tree τ),
      climbLoopAll kind rest p left = climbLoopAll kind rest q left := by
    intro rest left
    match rest with
    | [] => rfl
    | none :: r => rfl
    | some x :: r => rw [climbLoopAll_high kind x r p hp, climbLoopAll_high kind x r q hq]
  match ts with
  | [] => rfl
  | none :: r => rfl
  | some t :: r =>
    rw [climbAll_cons, climbAll_cons]
    cases hk : kind t <;> simp only [hloop]

/-! ## The reference parser: fuel -/

/-- The statement, for the six functions of the reference parser at one fuel,
that a nonterminal consumes at least one token and a repetition none or
more. -/
theorem ref_length {τ : Type} (kind : τ → TokenKind) (m : Nat) :
    (∀ ts t rest, refE kind m ts = .ok (t, rest) → rest.length < ts.length) ∧
    (∀ ts left t rest, refETail kind m ts left = .ok (t, rest) → rest.length ≤ ts.length) ∧
    (∀ ts t rest, refT kind m ts = .ok (t, rest) → rest.length < ts.length) ∧
    (∀ ts left t rest, refTTail kind m ts left = .ok (t, rest) → rest.length ≤ ts.length) ∧
    (∀ ts t rest, refU kind m ts = .ok (t, rest) → rest.length < ts.length) ∧
    (∀ ts t rest, refP kind m ts = .ok (t, rest) → rest.length < ts.length) := by
  induction m with
  | zero =>
    refine ⟨?_, ?_, ?_, ?_, ?_, ?_⟩ <;> intros <;> rename_i h <;>
      simp [refE, refETail, refT, refTTail, refU, refP] at h
  | succ m ih =>
    obtain ⟨ihE, ihET, ihT, ihTT, ihU, ihP⟩ := ih
    refine ⟨?_, ?_, ?_, ?_, ?_, ?_⟩
    · intro ts t rest h
      rw [refE] at h
      split at h
      · cases h
      · rename_i left rest1 h1
        have l1 := ihT _ _ _ h1
        have l2 := ihET _ _ _ _ h
        omega
    · intro ts left t rest h
      match ts with
      | [] => simp [refETail] at h
      | none :: r => simp [refETail] at h
      | some op :: r =>
        rw [refETail] at h
        split at h
        · split at h
          · cases h
          · rename_i right rest1 h1
            have l1 := ihT _ _ _ h1
            have l2 := ihET _ _ _ _ h
            simp only [List.length_cons]; omega
        · cases h; exact le_refl _
    · intro ts t rest h
      rw [refT] at h
      split at h
      · cases h
      · rename_i left rest1 h1
        have l1 := ihU _ _ _ h1
        have l2 := ihTT _ _ _ _ h
        omega
    · intro ts left t rest h
      match ts with
      | [] => simp [refTTail] at h
      | none :: r => simp [refTTail] at h
      | some op :: r =>
        rw [refTTail] at h
        split at h
        · split at h
          · cases h
          · rename_i right rest1 h1
            have l1 := ihU _ _ _ h1
            have l2 := ihTT _ _ _ _ h
            simp only [List.length_cons]; omega
        · cases h; exact le_refl _
    · intro ts t rest h
      match ts with
      | [] => simp [refU] at h
      | none :: r => simp [refU] at h
      | some sign :: r =>
        rw [refU] at h
        split at h
        · split at h
          · cases h
          · rename_i operand rest1 h1
            have l1 := ihU _ _ _ h1
            cases h
            simp only [List.length_cons]; omega
        · exact ihP _ _ _ h
    · intro ts t rest h
      match ts with
      | [] => simp [refP] at h
      | none :: r => simp [refP] at h
      | some token :: r =>
        rw [refP] at h
        split at h
        · cases h; simp
        · split at h
          · cases h
          · rename_i inner rest1 h1
            have l1 := ihE _ _ _ h1
            split at h
            · split at h
              · cases h
                simp only [List.length_cons] at l1 ⊢; omega
              · cases h
            · cases h
        · cases h

/-- With four units of fuel per token and four more, the reference parser
does not run out of fuel. -/
theorem ref_fuel {τ : Type} (kind : τ → TokenKind) (m : Nat) :
    (∀ ts, 4 * ts.length + 4 ≤ m → refE kind m ts ≠ .error .outOfFuel) ∧
    (∀ ts left, 4 * ts.length + 1 ≤ m → refETail kind m ts left ≠ .error .outOfFuel) ∧
    (∀ ts, 4 * ts.length + 3 ≤ m → refT kind m ts ≠ .error .outOfFuel) ∧
    (∀ ts left, 4 * ts.length + 1 ≤ m → refTTail kind m ts left ≠ .error .outOfFuel) ∧
    (∀ ts, 4 * ts.length + 2 ≤ m → refU kind m ts ≠ .error .outOfFuel) ∧
    (∀ ts, 4 * ts.length + 1 ≤ m → refP kind m ts ≠ .error .outOfFuel) := by
  induction m with
  | zero => refine ⟨?_, ?_, ?_, ?_, ?_, ?_⟩ <;> intros <;> omega
  | succ m ih =>
    obtain ⟨ihE, ihET, ihT, ihTT, ihU, ihP⟩ := ih
    obtain ⟨lE, lET, lT, lTT, lU, lP⟩ := ref_length kind m
    refine ⟨?_, ?_, ?_, ?_, ?_, ?_⟩
    · intro ts hm
      rw [refE]
      have e1 := ihT ts (by omega)
      split
      · rename_i e h1; intro he; cases he; exact e1 h1
      · rename_i left rest1 h1
        have l1 := lT _ _ _ h1
        exact ihET _ _ (by omega)
    · intro ts left hm
      match ts with
      | [] => simp [refETail]
      | none :: r => simp [refETail]
      | some op :: r =>
        simp only [List.length_cons] at hm
        rw [refETail]
        split
        · have e1 := ihT r (by omega)
          split
          · rename_i e h1; intro he; cases he; exact e1 h1
          · rename_i right rest1 h1
            have l1 := lT _ _ _ h1
            exact ihET _ _ (by omega)
        · simp
    · intro ts hm
      rw [refT]
      have e1 := ihU ts (by omega)
      split
      · rename_i e h1; intro he; cases he; exact e1 h1
      · rename_i left rest1 h1
        have l1 := lU _ _ _ h1
        exact ihTT _ _ (by omega)
    · intro ts left hm
      match ts with
      | [] => simp [refTTail]
      | none :: r => simp [refTTail]
      | some op :: r =>
        simp only [List.length_cons] at hm
        rw [refTTail]
        split
        · have e1 := ihU r (by omega)
          split
          · rename_i e h1; intro he; cases he; exact e1 h1
          · rename_i right rest1 h1
            have l1 := lU _ _ _ h1
            exact ihTT _ _ (by omega)
        · simp
    · intro ts hm
      match ts with
      | [] => simp [refU]
      | none :: r => simp [refU]
      | some sign :: r =>
        simp only [List.length_cons] at hm
        rw [refU]
        split
        · have e1 := ihU r (by omega)
          split
          · rename_i e h1; intro he; cases he; exact e1 h1
          · simp
        · exact ihP _ (by simp only [List.length_cons]; omega)
    · intro ts hm
      match ts with
      | [] => simp [refP]
      | none :: r => simp [refP]
      | some token :: r =>
        simp only [List.length_cons] at hm
        rw [refP]
        split
        · simp
        · have e1 := ihE r (by omega)
          split
          · rename_i e h1; intro he; cases he; exact e1 h1
          · split
            · split <;> simp
            · simp
        · simp

/-! ## The parser agrees with the reference parser -/

/-- A call at `PREC_ASSIGNMENT` is a call at `PREC_TERM` followed by the loop
at `PREC_ASSIGNMENT` on what it leaves. -/
theorem climbAll_assignment_term {τ : Type} (kind : τ → TokenKind) (ts : List (Option τ)) :
    climbAll kind ts .PREC_ASSIGNMENT =
      match climbAll kind ts .PREC_TERM with
      | .error e => .error e
      | .ok (left, rest) => climbLoopAll kind rest .PREC_ASSIGNMENT left := by
  have hloop := fun (rest : List (Option τ)) (left : Tree τ) =>
    climbLoopAll_assignment_term kind rest.length rest left (le_refl _)
  match ts with
  | [] => rfl
  | none :: r => rfl
  | some t :: r =>
    rw [climbAll_cons, climbAll_cons]
    cases hk : kind t <;> simp only
    · exact hloop _ _
    · cases climbAll kind r .PREC_UNARY with
      | error e => rfl
      | ok res => exact hloop _ _
    · cases climbAll kind r .PREC_UNARY with
      | error e => rfl
      | ok res => exact hloop _ _
    · cases climbAll kind r .PREC_ASSIGNMENT with
      | error e => rfl
      | ok res =>
        obtain ⟨left, rest⟩ := res
        match rest with
        | [] => rfl
        | none :: rest2 => rfl
        | some closing :: rest2 =>
          simp only
          split
          · rfl
          · exact hloop _ _

theorem not_multiplicative_of_stop {τ : Type} (kind : τ → TokenKind) {x : τ}
    (h : ∀ np, binaryPrecedence (kind x) = some np →
      np.toNat ≤ Precedence.PREC_TERM.toNat) : isMultiplicativeKind (kind x) = false := by
  cases hk : kind x <;> simp only [isMultiplicativeKind, reduceCtorEq, decide_False,
    Bool.or_self, decide_True, Bool.or_true, Bool.true_or] <;>
    · rw [hk] at h
      have := h _ rfl
      simp [Precedence.toNat] at this

/-- What a call at `PREC_TERM` leaves does not begin with `*` or `/`. -/
theorem climbAll_term_stop {τ : Type} (kind : τ → TokenKind) {ts : List (Option τ)}
    {t : Tree τ} {rest : List (Option τ)}
    (h : climbAll kind ts .PREC_TERM = .ok (t, rest)) :
    ∀ x r, rest = some x :: r → isMultiplicativeKind (kind x) = false := by
  intro x r hr
  obtain ⟨y, r', hy, hstop⟩ := (climb_stop kind _).1 _ _ _ _ h
  rw [hr] at hy
  cases hy
  exact not_multiplicative_of_stop kind hstop

theorem binaryPrecedence_additive {k : TokenKind} (h : isAdditiveKind k = true) :
    binaryPrecedence k = some .PREC_TERM := by
  cases k <;> simp [isAdditiveKind] at h <;> rfl

theorem binaryPrecedence_multiplicative {k : TokenKind} (h : isMultiplicativeKind k = true) :
    binaryPrecedence k = some .PREC_FACTOR := by
  cases k <;> simp [isMultiplicativeKind] at h <;> rfl

theorem binaryPrecedence_other {k : TokenKind} (ha : isAdditiveKind k = false)
    (hm : isMultiplicativeKind k = false) : binaryPrecedence k = none := by
  cases k <;> simp [isAdditiveKind, isMultiplicativeKind] at ha hm <;> rfl

/-- Every result of the reference parser other than running out of fuel is
the result of the parser over the token sequence: `E` of a call at
`PREC_ASSIGNMENT`, `T` of a call at `PREC_TERM`, their repetitions of the
loop at these precedences, and `U` and `P` of the operand any call begins
with, before its loop. -/
theorem ref_sound {τ : Type} (kind : τ → TokenKind) (m : Nat) :
    (∀ ts r, refE kind m ts = r → r ≠ .error .outOfFuel →
      climbAll kind ts .PREC_ASSIGNMENT = r) ∧
    (∀ ts left r, refETail kind m ts left = r → r ≠ .error .outOfFuel →
      (∀ x rest, ts = some x :: rest → isMultiplicativeKind (kind x) = false) →
      climbLoopAll kind ts .PREC_ASSIGNMENT left = r) ∧
    (∀ ts r, refT kind m ts = r → r ≠ .error .outOfFuel →
      climbAll kind ts .PREC_TERM = r) ∧
    (∀ ts left r, refTTail kind m ts left = r → r ≠ .error .outOfFuel →
      climbLoopAll kind ts .PREC_TERM left = r) ∧
    (∀ ts r, refU kind m ts = r → r ≠ .error .outOfFuel →
      ∀ p, climbAll kind ts p =
        match r with
        | .error e => .error e
        | .ok (left, rest) => climbLoopAll kind rest p left) ∧
    (∀ ts r, refP kind m ts = r → r ≠ .error .outOfFuel →
      (∀ x rest, ts = some x :: rest → isAdditiveKind (kind x) = false) →
      ∀ p, climbAll kind ts p =
        match r with
        | .error e => .error e
        | .ok (left, rest) => climbLoopAll kind rest p left) := by
  induction m with
  | zero =>
    refine ⟨?_, ?_, ?_, ?_, ?_, ?_⟩
    · intro ts r h hr; rw [refE] at h; exact absurd h.symm hr
    · intro ts left r h hr _; rw [refETail] at h; exact absurd h.symm hr
    · intro ts r h hr; rw [refT] at h; exact absurd h.symm hr
    · intro ts left r h hr; rw [refTTail] at h; exact absurd h.symm hr
    · intro ts r h hr; rw [refU] at h; exact absurd h.symm hr
    · intro ts r h hr _; rw [refP] at h; exact absurd h.symm hr
  | succ m ih =>
    obtain ⟨ihE, ihET, ihT, ihTT, ihU, ihP⟩ := ih
    refine ⟨?_, ?_, ?_, ?_, ?_, ?_⟩
    · -- E
      intro ts r h hr
      rw [refE] at h
      rw [climbAll_assignment_term]
      cases h1 : refT kind m ts with
      | error e =>
        rw [h1] at h; subst h
        rw [ihT ts _ h1 hr]
      | ok res =>
        obtain ⟨left, rest⟩ := res
        rw [h1] at h
        have hT := ihT ts _ h1 (by simp)
        rw [hT]
        exact ihET rest left r h hr (climbAll_term_stop kind hT)
    · -- the repetition of E
      intro ts left r h hr hhead
      match ts with
      | [] => simp only [refETail] at h; subst h; rfl
      | none :: rest => simp only [refETail] at h; subst h; rfl
      | some op :: rest =>
        rw [refETail] at h
        rw [climbLoopAll_cons]
        by_cases ha : isAdditiveKind (kind op) = true
        · simp only [ha, if_true] at h
          simp only [binaryPrecedence_additive ha]
          rw [if_neg (by decide)]
          cases h1 : refT kind m rest with
          | error e =>
            rw [h1] at h; subst h
            rw [ihT rest _ h1 hr]
          | ok res =>
            obtain ⟨right, rest1⟩ := res
            rw [h1] at h
            have hT := ihT rest _ h1 (by simp)
            rw [hT]
            exact ihET rest1 _ r h hr (climbAll_term_stop kind hT)
        · simp only [ha, Bool.false_eq_true, if_false] at h
          subst h
          rw [binaryPrecedence_other (by simpa using ha) (hhead op rest rfl)]
    · -- T
      intro ts r h hr
      rw [refT] at h
      cases h1 : refU kind m ts with
      | error e =>
        rw [h1] at h; subst h
        rw [ihU ts _ h1 hr]
      | ok res =>
        obtain ⟨left, rest⟩ := res
        rw [h1] at h
        rw [ihU ts _ h1 (by simp)]
        exact ihTT rest left r h hr
    · -- the repetition of T
      intro ts left r h hr
      match ts with
      | [] => simp only [refTTail] at h; subst h; rfl
      | none :: rest => simp only [refTTail] at h; subst h; rfl
      | some op :: rest =>
        rw [refTTail] at h
        rw [climbLoopAll_cons]
        by_cases hm : isMultiplicativeKind (kind op) = true
        · simp only [hm, if_true] at h
          simp only [binaryPrecedence_multiplicative hm]
          rw [if_neg (by decide)]
          cases h1 : refU kind m rest with
          | error e =>
            rw [h1] at h; subst h
            rw [ihU rest _ h1 hr]
          | ok res =>
            obtain ⟨right, rest1⟩ := res
            rw [h1] at h
            rw [ihU rest _ h1 (by simp)]
            simp only
            match rest1 with
            | some x :: r2 =>
              rw [climbLoopAll_high kind x r2 _ (by decide)]
              exact ihTT _ _ r h hr
            | [] =>
              cases m with
              | zero => simp only [refTTail] at h; exact absurd h.symm hr
              | succ m' => simp only [refTTail] at h; subst h; rfl
            | none :: r2 =>
              cases m with
              | zero => simp only [refTTail] at h; exact absurd h.symm hr
              | succ m' => simp only [refTTail] at h; subst h; rfl
        · simp only [hm, Bool.false_eq_true, if_false] at h
          subst h
          by_cases ha : isAdditiveKind (kind op) = true
          · simp only [binaryPrecedence_additive ha]
            rw [if_pos (by decide)]
          · rw [binaryPrecedence_other (by simpa using ha) (by simpa using hm)]
    · -- U
      intro ts r h hr p
      match ts with
      | [] => simp only [refU] at h; subst h; rfl
      | none :: rest => simp only [refU] at h; subst h; rfl
      | some sign :: rest =>
        rw [refU] at h
        by_cases ha : isAdditiveKind (kind sign) = true
        · simp only [ha, if_true] at h
          have hsign : climbAll kind (some sign :: rest) p =
              match climbAll kind rest .PREC_UNARY with
              | .error e => .error e
              | .ok (operand, rest2) =>
                climbLoopAll kind rest2 p (.node operand .null .AST_UNARY sign) := by
            rw [climbAll_cons]
            cases hk : kind sign <;> rw [hk] at ha <;> simp [isAdditiveKind] at ha
          rw [hsign]
          cases h1 : refU kind m rest with
          | error e =>
            rw [h1] at h; subst h
            rw [ihU rest _ h1 hr]
          | ok res =>
            obtain ⟨operand, rest1⟩ := res
            rw [h1] at h; subst h
            rw [ihU rest _ h1 (by simp)]
            simp only
            match rest1 with
            | some x :: r2 => rw [climbLoopAll_high kind x r2 _ (by decide)]
            | [] => rfl
            | none :: r2 => rfl
        · simp only [ha, Bool.false_eq_true, if_false] at h
          exact ihP _ r h hr (by intro x r2 hx; cases hx; simpa using ha) p
    · -- P
      intro ts r h hr hhead p
      match ts with
      | [] => simp only [refP] at h; subst h; rfl
      | none :: rest => simp only [refP] at h; subst h; rfl
      | some token :: rest =>
        have ha := hhead token rest rfl
        rw [refP] at h
        rw [climbAll_cons]
        cases hk : kind token <;> rw [hk] at h ha <;> simp only at h ⊢
        · subst h; rfl
        · subst h; rfl
        · simp [isAdditiveKind] at ha
        · simp [isAdditiveKind] at ha
        · subst h; rfl
        · subst h; rfl
        · cases h1 : refE kind m rest with
          | error e =>
            rw [h1] at h; subst h
            rw [ihE rest _ h1 hr]
          | ok res =>
            obtain ⟨inner, rest1⟩ := res
            rw [h1] at h
            rw [ihE rest _ h1 (by simp)]
            simp only at h ⊢
            match rest1 with
            | [] => subst h; rfl
            | none :: r2 => subst h; rfl
            | some closing :: r2 =>
              simp only at h ⊢
              by_cases hc : kind closing = .TOKEN_RPAREN
              · simp only [hc, if_true] at h
                subst h
                simp [hc]
              · simp only [hc, if_false] at h
                subst h
                simp [hc]
        · subst h; rfl

theorem climbAll_eq_referenceE {τ : Type} (kind : τ → TokenKind) (ts : List (Option τ)) :
    climbAll kind ts .PREC_ASSIGNMENT = referenceE kind ts :=
  (ref_sound kind _).1 ts _ rfl ((ref_fuel kind _).1 ts (le_refl _))

theorem climbAll_eq_referenceT {τ : Type} (kind : τ → TokenKind) (ts : List (Option τ)) :
    climbAll kind ts .PREC_TERM = referenceT kind ts :=
  (ref_sound kind _).2.2.1 ts _ rfl ((ref_fuel kind _).2.2.1 ts (by omega))

theorem properTokens_tail {τ : Type} (kind : τ → TokenKind) {t : τ} {rest : List (Option τ)}
    (h : properTokens kind (some t :: rest)) (ht : kind t ≠ .TOKEN_EOF) :
    properTokens kind rest := by
  cases rest with
  | nil => exact absurd h ht
  | cons x r => exact h

theorem properTokens_suffix {τ : Type} (kind : τ → TokenKind) (c : List (Option τ))
    {x : Option τ} {r : List (Option τ)} (h : properTokens kind (c ++ x :: r)) :
    properTokens kind (x :: r) := by
  induction c with
  | nil => exact h
  | cons y c ih =>
    cases y with
    | none => exact absurd h (by simp [properTokens])
    | some y =>
      apply ih
      cases hc : c ++ x :: r with
      | nil => simp at hc
      | cons z zs =>
        rw [List.cons_append, hc] at h
        exact h

/-- On a sequence of tokens only, ended by the end of input, the parser never
fails for want of a token. -/
theorem climb_no_lexer {τ : Type} (kind : τ → TokenKind) (n : Nat) :
    (∀ ts p, properTokens kind ts → climb kind n ts p ≠ .error .lexer) ∧
    (∀ ts p left, properTokens kind ts → climbLoop kind n ts p left ≠ .error .lexer) := by
  induction n with
  | zero =>
    constructor
    · intro ts p _; simp [climb]
    · intro ts p left _; simp [climbLoop]
  | succ n ih =>
    obtain ⟨ihE, ihL⟩ := ih
    -- what a successful call leaves is again such a sequence
    have hrest : ∀ (rest : List (Option τ)) q t rest1, properTokens kind rest →
        climb kind n rest q = .ok (t, rest1) → properTokens kind rest1 := by
      intro rest q t rest1 hp h1
      obtain ⟨x, r, hx, _⟩ := (climb_stop kind n).1 _ _ _ _ h1
      obtain ⟨c, y, hy, _⟩ := (climb_consumed kind n).1 _ _ _ _ h1
      subst hx
      rw [hy] at hp
      have := properTokens_suffix kind (c ++ [some y]) (x := some x) (r := r)
        (by simpa using hp)
      exact this
    constructor
    · intro ts p hp
      match ts with
      | [] => exact absurd hp (by simp [properTokens])
      | none :: ts1 => exact absurd hp (by simp [properTokens])
      | some token :: ts1 =>
        rw [climb]
        split
        · rename_i hk
          exact ihL _ _ _ (properTokens_tail kind hp (by rw [hk]; decide))
        · rename_i hk
          have hp1 := properTokens_tail kind hp (by rw [hk]; decide)
          split
          · rename_i e h1
            intro he; cases he; exact ihE _ _ hp1 h1
          · rename_i left rest1 h1
            have hp2 := hrest _ _ _ _ hp1 h1
            split
            · rename_i closing rest2
              split
              · simp
              · rename_i hc
                simp only [ne_eq, Decidable.not_not] at hc
                exact ihL _ _ _ (properTokens_tail kind hp2 (by rw [hc]; decide))
            · rename_i hno
              match rest1 with
              | [] => exact absurd hp2 (by simp [properTokens])
              | none :: r => exact absurd hp2 (by simp [properTokens])
              | some c :: r => exact absurd rfl (hno c r)
        · rename_i hk
          have hp1 := properTokens_tail kind hp (by rw [hk]; decide)
          split
          · rename_i e h1
            intro he; cases he; exact ihE _ _ hp1 h1
          · rename_i operand rest1 h1
            exact ihL _ _ _ (hrest _ _ _ _ hp1 h1)
        · rename_i hk
          have hp1 := properTokens_tail kind hp (by rw [hk]; decide)
          split
          · rename_i e h1
            intro he; cases he; exact ihE _ _ hp1 h1
          · rename_i operand rest1 h1
            exact ihL _ _ _ (hrest _ _ _ _ hp1 h1)
        · simp
    · intro ts p left hp
      match ts with
      | [] => exact absurd hp (by simp [properTokens])
      | none :: ts1 => exact absurd hp (by simp [properTokens])
      | some next :: ts1 =>
        rw [climbLoop]
        split
        · simp
        · rename_i np hb
          split
          · simp
          · have hp1 := properTokens_tail kind hp
              (by intro he; rw [he] at hb; cases hb)
            split
            · rename_i e h1
              intro he; cases he; exact ihE _ _ hp1 h1
            · rename_i right rest1 h1
              exact ihL _ _ _ (hrest _ _ _ _ hp1 h1)

/-- On a sequence of tokens only, ended by the end of input, a call at
`PREC_UNARY` is the reference parser for `U`. -/
theorem climbAll_eq_referenceU {τ : Type} (kind : τ → TokenKind) (ts : List (Option τ))
    (hp : properTokens kind ts) : climbAll kind ts .PREC_UNARY = referenceU kind ts := by
  have h := (ref_sound kind _).2.2.2.2.1 ts _ (rfl : refU kind (4 * ts.length + 4) ts = _)
    ((ref_fuel kind _).2.2.2.2.1 ts (by omega)) .PREC_UNARY
  have hno : climbAll kind ts .PREC_UNARY ≠ .error .lexer :=
    (climb_no_lexer kind (ts.length + 1)).1 ts .PREC_UNARY hp
  rw [referenceU]
  cases hr : refU kind (4 * ts.length + 4) ts with
  | error e => rw [hr] at h; exact h
  | ok res =>
    obtain ⟨left, rest⟩ := res
    rw [hr] at h
    simp only at h
    match rest with
    | [] => rw [h] at hno; exact absurd rfl hno
    | none :: r => rw [h] at hno; exact absurd rfl hno
    | some x :: r => rw [h, climbLoopAll_high kind x r _ (by decide)]

/-- When every call of `next_token` up to the end of input returns a token,
the token sequence is made of tokens only and ends with the end of input. -/
theorem tokens_proper (k : Nat) :
    ∀ lexer : Lexer, lexer.buffer.length - lexer.current ≤ k → none ∉ tokens lexer →
      properTokens Token.kind (tokens lexer) := by
  induction k with
  | zero =>
    intro lexer hk hnone
    rw [tokens_unfold] at hnone ⊢
    cases h : next_token lexer with
    | error e => rw [h] at hnone; simp at hnone
    | ok res =>
      obtain ⟨token, lexer'⟩ := res
      obtain ⟨hb, hc, hs, hl, hle⟩ := next_token_facts h
      omega
  | succ k ih =>
    intro lexer hk hnone
    rw [tokens_unfold] at hnone ⊢
    cases h : next_token lexer with
    | error e => rw [h] at hnone; simp at hnone
    | ok res =>
      obtain ⟨token, lexer'⟩ := res
      obtain ⟨hb, hc, hs, hl, hle⟩ := next_token_facts h
      rw [h] at hnone
      simp only at hnone ⊢
      by_cases he : token.kind = .TOKEN_EOF
      · simp only [he, if_true]
        exact he
      · simp only [he, if_false] at hnone ⊢
        have hnone' : none ∉ tokens lexer' := by
          intro hmem; exact hnone (List.mem_cons_of_mem _ hmem)
        have hp := ih lexer' (by rw [hb]; omega) hnone'
        cases ht : tokens lexer' with
        | nil => rw [ht] at hp; exact absurd hp (by simp [properTokens])
        | cons x r => rw [ht] at hp; exact hp

theorem Tree.map_id {τ : Type} (t : Tree τ) : t.map id = t := by
  induction t with
  | null => rfl
  | node left right type token ihl ihr => simp [Tree.map, ihl, ihr]

theorem viewResult_id (r : Except Fault (ASTNode × Lexer)) :
    viewResult id r = tokenResult r := by
  cases r with
  | error e => rfl
  | ok res =>
    obtain ⟨ast, lexer⟩ := res
    simp [viewResult, tokenResult, Tree.map_id]

/-- The result of `parse_expression` on a lexer state, seen over token
sequences, is what the parser over token sequences computes. -/
theorem tokenResult_parse (lexer : Lexer) (p : Precedence) :
    tokenResult (parse lexer p) = climbAll Token.kind (tokens lexer) p := by
  have h := parse_view id Token.kind (fun _ => rfl) lexer p
  rw [viewResult_id] at h
  simpa using h

/-- C7: the precedence-climbing parser is equivalent to the recursive-descent
parser for the stratified grammar `E := T (('+'|'-') T)*`,
`T := U (('*'|'/') U)*`, `U := ('+'|'-') U | P`, `P := NUMBER | '(' E ')'`
with binary chains folded to the left. On the token sequence of any lexer
state, `parse_expression` at `PREC_ASSIGNMENT` succeeds exactly when the
reference parser for `E` does, with the same tree and the same tokens left;
at `PREC_TERM` it agrees in the same way with `T`; and when the input lexes
to its end, so that the token after an operand can be looked at, at
`PREC_FACTOR` and at `PREC_UNARY` it agrees with `U`. Failures agree in kind
as well. -/
theorem parse_expression_refines_grammar (lexer : Lexer) :
    tokenResult (parse lexer .PREC_ASSIGNMENT) = referenceE Token.kind (tokens lexer) ∧
    tokenResult (parse lexer .PREC_TERM) = referenceT Token.kind (tokens lexer) ∧
    (none ∉ tokens lexer →
      tokenResult (parse lexer .PREC_FACTOR) = referenceU Token.kind (tokens lexer) ∧
      tokenResult (parse lexer .PREC_UNARY) = referenceU Token.kind (tokens lexer)) := by
  refine ⟨?_, ?_, ?_⟩
  · rw [tokenResult_parse, climbAll_eq_referenceE]
  · rw [tokenResult_parse, climbAll_eq_referenceT]
  · intro hnone
    have hp := tokens_proper _ lexer (le_refl _) hnone
    constructor
    · rw [tokenResult_parse, climbAll_high_eq Token.kind _ .PREC_FACTOR .PREC_UNARY
        (by decide) (by decide), climbAll_eq_referenceU Token.kind _ hp]
    · rw [tokenResult_parse, climbAll_eq_referenceU Token.kind _ hp]

/-- C7 at the text `-1 * (2 + 3)`: it lexes to its end, and the four calls
agree with the reference parser; at `PREC_ASSIGNMENT` both return the tree
`(* (- 1) (+ 2 3))` and leave the end of input. -/
theorem parse_expression_refines_grammar_witness :
    none ∉ tokens (init_lexer (cstring "-1 * (2 + 3)")) ∧
    (tokenResult (parse (init_lexer (cstring "-1 * (2 + 3)")) .PREC_ASSIGNMENT) =
        referenceE Token.kind (tokens (init_lexer (cstring "-1 * (2 + 3)"))) ∧
     tokenResult (parse (init_lexer (cstring "-1 * (2 + 3)")) .PREC_TERM) =
        referenceT Token.kind (tokens (init_lexer (cstring "-1 * (2 + 3)")))) ∧
    (tokenResult (parse (init_lexer (cstring "-1 * (2 + 3)")) .PREC_FACTOR) =
        referenceU Token.kind (tokens (init_lexer (cstring "-1 * (2 + 3)"))) ∧
     tokenResult (parse (init_lexer (cstring "-1 * (2 + 3)")) .PREC_UNARY) =
        referenceU Token.kind (tokens (init_lexer (cstring "-1 * (2 + 3)")))) ∧
    referenceE Token.kind (tokens (init_lexer (cstring "-1 * (2 + 3)"))) =
      .ok (.node
            (.node (.node .null .null .AST_NUMBER ⟨.TOKEN_NUMBER, 1, 1⟩) .null .AST_UNARY
              ⟨.TOKEN_MINUS, 0, 1⟩)
            (.node (.node .null .null .AST_NUMBER ⟨.TOKEN_NUMBER, 6, 1⟩)
              (.node .null .null .AST_NUMBER ⟨.TOKEN_NUMBER, 10, 1⟩) .AST_BINARY
              ⟨.TOKEN_PLUS, 8, 1⟩)
            .AST_BINARY ⟨.TOKEN_STAR, 3, 1⟩,
           [some ⟨.TOKEN_EOF, 12, 1⟩]) :=
  ⟨by decide,
   ⟨(parse_expression_refines_grammar (init_lexer (cstring "-1 * (2 + 3)"))).1,
    (parse_expression_refines_grammar (init_lexer (cstring "-1 * (2 + 3)"))).2.1⟩,
   (parse_expression_refines_grammar (init_lexer (cstring "-1 * (2 + 3)"))).2.2 (by decide),
   by decide⟩

/-! ## Lexical errors -/

/-- Whitespace between the cursor and the first other byte only moves the
start of what `next_token` finds there. -/
theorem lexSuffix_skip_any (buffer : List Nat) (d i j : Nat) (hd : j = i + d)
    (hws : ∀ k, i ≤ k → k < j → ∃ w, buffer[k]? = some w ∧ isSpace w = true) :
    lexSuffix (buffer.drop i) =
      match lexSuffix (buffer.drop j) with
      | .error f => .error f
      | .ok (kind, skipped, length) => .ok (kind, skipped + d, length) := by
  induction d generalizing i with
  | zero =>
    have hji : j = i := by omega
    subst hji
    cases hs : lexSuffix (buffer.drop j) with
    | error f => rfl
    | ok r => rfl
  | succ d ih =>
    obtain ⟨w, hw, hsp⟩ := hws i (le_refl _) (by omega)
    rw [drop_of_getElem? hw, lexSuffix_cons_space _ hsp,
      ih (i + 1) (by omega) (fun k hk1 hk2 => hws k (by omega) hk2)]
    cases hs : lexSuffix (buffer.drop j) with
    | error f => rfl
    | ok r => rfl

theorem charKind_eq_none_iff (c : Nat) :
    charKind c = none ↔ c ∉ [43, 45, 42, 47, 40, 41, 0] := by
  unfold charKind
  simp only [List.mem_cons, List.mem_singleton, List.not_mem_nil, or_false, not_or]
  constructor
  · intro h
    repeat' split at h
    all_goals first
      | exact ⟨by assumption, by assumption, by assumption, by assumption, by assumption,
          by assumption, by assumption⟩
      | cases h
  · rintro ⟨h1, h2, h3, h4, h5, h6, h7⟩
    simp [h1, h2, h3, h4, h5, h6, h7]

/-- What `next_token` finds at a byte that is not whitespace, as the unread
bytes begin with it. -/
theorem lexSuffix_cons_other (c : Nat) (rest : List Nat) (hns : isSpace c = false) :
    (charKind c = none → isDigit c = false →
      lexSuffix (c :: rest) = .error (.unexpectedCharacter c)) ∧
    (∀ d, lexSuffix (c :: rest) = .error (.unexpectedCharacter d) →
      d = c ∧ charKind c = none ∧ isDigit c = false) := by
  have hdw : (c :: rest).dropWhile isSpace = c :: rest := by
    simp [List.dropWhile, hns]
  constructor
  · intro hk hd
    simp [lexSuffix, hdw, hk, hd]
  · intro d h
    simp only [lexSuffix, hdw] at h
    cases hk : charKind c with
    | some k => rw [hk] at h; cases h
    | none =>
      rw [hk] at h
      simp only at h
      by_cases hd : isDigit c = true
      · simp only [hd, if_true] at h
        split at h <;> cases h
      · simp only [hd, Bool.false_eq_true, if_false] at h
        cases h
        exact ⟨rfl, rfl, by simpa using hd⟩

/-- C11: `next_token` fails with a lexical error exactly when the first byte
at or after the cursor that is not a space, tab, newline or carriage return
is none of `+ - * / ( )`, a decimal digit or the NUL terminator; the error
reports that byte, and no token is returned. -/
theorem next_token_lexical_error (buffer : List Nat) (i j c : Nat) (hij : i ≤ j)
    (hws : ∀ k, i ≤ k → k < j → ∃ w, buffer[k]? = some w ∧ isSpace w = true)
    (hc : buffer[j]? = some c) (hns : isSpace c = false) :
    (next_token { buffer := buffer, current := i } = .error (.unexpectedCharacter c) ↔
      (c ∉ [43, 45, 42, 47, 40, 41, 0] ∧ isDigit c = false)) ∧
    (∀ d, next_token { buffer := buffer, current := i } = .error (.unexpectedCharacter d) →
      d = c) := by
  have hskip := lexSuffix_skip_any buffer (j - i) i j (by omega) hws
  rw [drop_of_getElem? hc] at hskip
  obtain ⟨h1, h2⟩ := lexSuffix_cons_other c (buffer.drop (j + 1)) hns
  have key : ∀ d, next_token { buffer := buffer, current := i } =
      .error (.unexpectedCharacter d) ↔
      lexSuffix (c :: buffer.drop (j + 1)) = .error (.unexpectedCharacter d) := by
    intro d
    rw [next_token_eq]
    simp only [hskip]
    cases lexSuffix (c :: buffer.drop (j + 1)) with
    | error f => simp
    | ok r => simp
  refine ⟨?_, ?_⟩
  · rw [key, ← charKind_eq_none_iff]
    constructor
    · intro h
      exact (h2 c h).2
    · rintro ⟨hk, hd⟩
      exact h1 hk hd
  · intro d hd
    exact (h2 d ((key d).mp hd)).1

/-- C11 at the texts ` a`, `.` and a form feed: each is rejected with the
offending byte. -/
theorem next_token_lexical_error_witness :
    next_token { buffer := [32, 97, 0], current := 0 } = .error (.unexpectedCharacter 97) ∧
    next_token { buffer := [46, 0], current := 0 } = .error (.unexpectedCharacter 46) ∧
    next_token { buffer := [12, 0], current := 0 } = .error (.unexpectedCharacter 12) :=
  ⟨(next_token_lexical_error [32, 97, 0] 0 1 97 (by decide)
      (by
        intro k _ hk
        have : k = 0 := by omega
        subst this
        exact ⟨32, rfl, rfl⟩)
      rfl rfl).1.mpr ⟨by decide, rfl⟩,
   (next_token_lexical_error [46, 0] 0 0 46 (by decide) (by intro k _ hk; omega)
      rfl rfl).1.mpr ⟨by decide, rfl⟩,
   (next_token_lexical_error [12, 0] 0 0 12 (by decide) (by intro k _ hk; omega)
      rfl rfl).1.mpr ⟨by decide, rfl⟩⟩

/-! ## Pushback -/

/-- C12: pushback undoes one token. After `next_token` has returned a token
`t` of any kind, moving the cursor back by `t.length` puts it at `t.start` in
the same buffer, and the next call of `next_token` from there returns the
same token and leaves the same lexer, cursor included, as the first call. -/
theorem pushBack_undoes_one_token (lexer lexer' : Lexer) (t : Token)
    (h : next_token lexer = .ok (t, lexer')) :
    (pushBack lexer' t).current = t.start ∧ (pushBack lexer' t).buffer = lexer.buffer ∧
      next_token (pushBack lexer' t) = .ok (t, lexer') := by
  rw [pushBack_eq h]
  exact ⟨rfl, rfl, next_token_restart h⟩

/-- C12 at the text ` 12+3` from the cursor 0, and at the end of input of
the text `1`. -/
theorem pushBack_undoes_one_token_witness :
    ((pushBack { buffer := cstring " 12+3", current := 3 }
        { kind := .TOKEN_NUMBER, start := 1, length := 2 }).current = 1 ∧
     (pushBack { buffer := cstring " 12+3", current := 3 }
        { kind := .TOKEN_NUMBER, start := 1, length := 2 }).buffer = cstring " 12+3" ∧
     next_token (pushBack { buffer := cstring " 12+3", current := 3 }
        { kind := .TOKEN_NUMBER, start := 1, length := 2 }) =
       .ok ({ kind := .TOKEN_NUMBER, start := 1, length := 2 },
            { buffer := cstring " 12+3", current := 3 })) ∧
    next_token (pushBack { buffer := cstring "1", current := 2 }
        { kind := .TOKEN_EOF, start := 1, length := 1 }) =
      .ok ({ kind := .TOKEN_EOF, start := 1, length := 1 },
           { buffer := cstring "1", current := 2 }) :=
  ⟨pushBack_undoes_one_token (init_lexer (cstring " 12+3"))
      { buffer := cstring " 12+3", current := 3 }
      { kind := .TOKEN_NUMBER, start := 1, length := 2 } rfl,
   (pushBack_undoes_one_token { buffer := cstring "1", current := 1 }
      { buffer := cstring "1", current := 2 }
      { kind := .TOKEN_EOF, start := 1, length := 1 } rfl).2.2⟩

/-! ## The loop of `parse_expression` -/

/-- C16: whenever `parse_expression(p)` returns a tree, the token that
stopped its loop has been pushed back. The cursor is at the first byte of the
first unconsumed token; that token, the one `next_token` returns from the
lexer left behind, is not a binary operator or is one whose precedence is at
most `p`; at `PREC_ASSIGNMENT` it is none of `+ - * /`. -/
theorem stopping_token_pushed_back (n : Nat) (lexer lexer' : Lexer) (p : Precedence)
    (tree : ASTNode) (h : parse_expression n lexer p = .ok (tree, lexer')) :
    ∃ x lexer'', next_token lexer' = .ok (x, lexer'') ∧ x.start = lexer'.current ∧
      lexer' = pushBack lexer'' x ∧
      (binaryPrecedence x.kind = none ∨
        ∃ np, binaryPrecedence x.kind = some np ∧ np.toNat ≤ p.toNat) ∧
      (p = .PREC_ASSIGNMENT →
        x.kind ∉ [TokenKind.TOKEN_PLUS, .TOKEN_MINUS, .TOKEN_STAR, .TOKEN_SLASH]) := by
  obtain ⟨_, _, x, lexer'', hx, hstart, hstop⟩ := (parse_expression_stop n).1 _ _ _ _ h
  refine ⟨x, lexer'', hx, hstart, ?_, ?_, ?_⟩
  · rw [pushBack_eq hx]
    obtain ⟨buffer, current⟩ := lexer'
    simp only at hstart
    rw [hstart]
  · cases hb : binaryPrecedence x.kind with
    | none => exact Or.inl rfl
    | some np => exact Or.inr ⟨np, rfl, hstop np hb⟩
  · intro hp
    subst hp
    intro hmem
    simp only [List.mem_cons, List.mem_singleton, List.not_mem_nil, or_false] at hmem
    rcases hmem with hk | hk | hk | hk <;>
      · have := hstop _ (by rw [hk]; rfl)
        simp [Precedence.toNat] at this

/-- C16 at the text `1 + 2` with the minimum `PREC_TERM`: the call returns
the number `1` and leaves the cursor on the `+`, whose precedence is that
minimum. -/
theorem stopping_token_pushed_back_witness :
    parse_expression 8 (init_lexer (cstring "1 + 2")) .PREC_TERM =
      .ok (.node .null .null .AST_NUMBER ⟨.TOKEN_NUMBER, 0, 1⟩,
           { buffer := cstring "1 + 2", current := 2 }) ∧
    ∃ x lexer'', next_token { buffer := cstring "1 + 2", current := 2 } = .ok (x, lexer'') ∧
      x.start = 2 ∧
      ({ buffer := cstring "1 + 2", current := 2 } : Lexer) = pushBack lexer'' x ∧
      (binaryPrecedence x.kind = none ∨
        ∃ np, binaryPrecedence x.kind = some np ∧
          np.toNat ≤ Precedence.PREC_TERM.toNat) ∧
      (Precedence.PREC_TERM = .PREC_ASSIGNMENT →
        x.kind ∉ [TokenKind.TOKEN_PLUS, .TOKEN_MINUS, .TOKEN_STAR, .TOKEN_SLASH]) :=
  ⟨rfl, stopping_token_pushed_back 8 (init_lexer (cstring "1 + 2"))
      { buffer := cstring "1 + 2", current := 2 } .PREC_TERM _ rfl⟩

/-- C14, refuted as stated: an operator whose precedence is exactly the
minimum is not absorbed. At `PREC_TERM` on `1 + 2` the call returns the
number `1` and leaves the `+`, and at `PREC_FACTOR` on `1 * 2` it returns the
number `1` and leaves the `*`. -/
theorem operator_at_minimum_not_absorbed :
    parse (init_lexer (cstring "1 + 2")) .PREC_TERM =
      .ok (.node .null .null .AST_NUMBER ⟨.TOKEN_NUMBER, 0, 1⟩,
           { buffer := cstring "1 + 2", current := 2 }) ∧
    binaryPrecedence .TOKEN_PLUS = some .PREC_TERM ∧
    parse (init_lexer (cstring "1 * 2")) .PREC_FACTOR =
      .ok (.node .null .null .AST_NUMBER ⟨.TOKEN_NUMBER, 0, 1⟩,
           { buffer := cstring "1 * 2", current := 2 }) ∧
    binaryPrecedence .TOKEN_STAR = some .PREC_FACTOR :=
  ⟨rfl, rfl, rfl, rfl⟩

/-- C14, amended: `parse_expression(p)` returns the maximal expression whose
operators bind strictly tighter than `p`. After the operand, its loop absorbs
a following binary operator together with its right operand, parsed at the
precedence of that operator, whenever that precedence is above `p`; it stops,
pushing the token back, at a token that is not a binary operator or whose
precedence is at most `p`; and it returns only at such a token, so that the
loop run again on what was returned changes nothing. -/
theorem loop_absorbs_above_minimum (n : Nat) (lexer lexer1 : Lexer) (p : Precedence)
    (x : Token) (left : ASTNode) (h : next_token lexer = .ok (x, lexer1))
    (start lexer' : Lexer) (tree : ASTNode)
    (hp : parse_expression n start p = .ok (tree, lexer')) :
    (∀ np, binaryPrecedence x.kind = some np → p.toNat < np.toNat →
      parse_loop (n + 1) lexer p left =
        match parse_expression n lexer1 np with
        | .error f => .error f
        | .ok (right, lexer2) => parse_loop n lexer2 p (.node left right .AST_BINARY x)) ∧
    ((∀ np, binaryPrecedence x.kind = some np → np.toNat ≤ p.toNat) →
      parse_loop (n + 1) lexer p left = .ok (left, pushBack lexer1 x)) ∧
    (∀ m, parse_loop (m + 1) lexer' p tree = .ok (tree, lexer')) := by
  refine ⟨?_, ?_, ?_⟩
  · intro np hb hlt
    rw [parse_loop, h]
    simp only [hb, Nat.not_le.mpr hlt, if_false]
    rfl
  · intro hstop
    rw [parse_loop, h]
    cases hb : binaryPrecedence x.kind with
    | none => simp only [hb]
    | some np => simp only [hb, hstop np hb, if_true]
  · intro m
    obtain ⟨hbuf, _, y, lexer'', hy, hstart, hstop⟩ := (parse_expression_stop n).1 _ _ _ _ hp
    have hpb : pushBack lexer'' y = lexer' := by
      rw [pushBack_eq hy]
      obtain ⟨buffer, current⟩ := lexer'
      simp only at hstart
      rw [hstart]
    rw [parse_loop, hy]
    cases hb : binaryPrecedence y.kind with
    | none => simp only [hb, hpb]
    | some np => simp only [hb, hstop np hb, if_true, hpb]

/-- C14, amended, at the text `1 * 2 + 3` with the minimum `PREC_TERM`: the
loop after `1` absorbs `* 2`, and the call returns `(* 1 2)` with the cursor
on the `+`. -/
theorem loop_absorbs_above_minimum_witness :
    parse_loop (10 + 1) { buffer := cstring "1 * 2 + 3", current := 1 } .PREC_TERM
        (.node .null .null .AST_NUMBER ⟨.TOKEN_NUMBER, 0, 1⟩) =
      (match parse_expression 10 { buffer := cstring "1 * 2 + 3", current := 3 }
          .PREC_FACTOR with
        | .error f => .error f
        | .ok (right, lexer2) =>
          parse_loop 10 lexer2 .PREC_TERM
            (.node (.node .null .null .AST_NUMBER ⟨.TOKEN_NUMBER, 0, 1⟩) right .AST_BINARY
              ⟨.TOKEN_STAR, 2, 1⟩)) ∧
    parse_expression 10 (init_lexer (cstring "1 * 2 + 3")) .PREC_TERM =
      .ok (.node (.node .null .null .AST_NUMBER ⟨.TOKEN_NUMBER, 0, 1⟩)
            (.node .null .null .AST_NUMBER ⟨.TOKEN_NUMBER, 4, 1⟩) .AST_BINARY
            ⟨.TOKEN_STAR, 2, 1⟩,
           { buffer := cstring "1 * 2 + 3", current := 6 }) :=
  ⟨(loop_absorbs_above_minimum 10 { buffer := cstring "1 * 2 + 3", current := 1 }
      { buffer := cstring "1 * 2 + 3", current := 3 } .PREC_TERM ⟨.TOKEN_STAR, 2, 1⟩
      (.node .null .null .AST_NUMBER ⟨.TOKEN_NUMBER, 0, 1⟩) rfl
      (init_lexer (cstring "1 * 2 + 3")) { buffer := cstring "1 * 2 + 3", current := 6 }
      _ rfl).1 .PREC_FACTOR rfl (by decide),
   rfl⟩

/-! ## The trees the parser builds -/

/-- The tree a successful call returns is well-formed; so is the tree its
loop returns when it is entered with a well-formed tree. -/
theorem climb_wellFormed {τ : Type} (kind : τ → TokenKind) (n : Nat) :
    (∀ ts p t rest, climb kind n ts p = .ok (t, rest) → t.wellFormed kind = true) ∧
    (∀ ts p left t rest, climbLoop kind n ts p left = .ok (t, rest) →
      left.wellFormed kind = true → t.wellFormed kind = true) := by
  induction n with
  | zero =>
    constructor
    · intro ts p t rest h; simp [climb] at h
    · intro ts p left t rest h; simp [climbLoop] at h
  | succ n ih =>
    obtain ⟨ihE, ihL⟩ := ih
    constructor
    · intro ts p t rest h
      match ts with
      | [] => simp [climb] at h
      | none :: ts1 => simp [climb] at h
      | some token :: ts1 =>
        rw [climb] at h
        split at h
        · rename_i hk
          exact ihL _ _ _ _ _ h (by simp [create_ast_node, Tree.wellFormed, Tree.isNull, hk])
        · split at h
          · cases h
          · rename_i left rest1 h1
            split at h
            · split at h
              · cases h
              · exact ihL _ _ _ _ _ h (ihE _ _ _ _ h1)
            · cases h
        · rename_i hk
          split at h
          · cases h
          · rename_i operand rest1 h1
            exact ihL _ _ _ _ _ h (by
              simp [create_ast_node, Tree.setLeft, Tree.wellFormed, Tree.isNull, hk,
                isAdditiveKind, ihE _ _ _ _ h1])
        · rename_i hk
          split at h
          · cases h
          · rename_i operand rest1 h1
            exact ihL _ _ _ _ _ h (by
              simp [create_ast_node, Tree.setLeft, Tree.wellFormed, Tree.isNull, hk,
                isAdditiveKind, ihE _ _ _ _ h1])
        · cases h
    · intro ts p left t rest h hleft
      match ts with
      | [] => simp [climbLoop] at h
      | none :: ts1 => simp [climbLoop] at h
      | some next :: ts1 =>
        rw [climbLoop] at h
        split at h
        · cases h; exact hleft
        · rename_i np hb
          split at h
          · cases h; exact hleft
          · split at h
            · cases h
            · rename_i right rest1 h1
              exact ihL _ _ _ _ _ h (by
                simp [create_ast_node, Tree.setLeft, Tree.setRight, Tree.wellFormed,
                  isBinaryKind, hb, hleft, ihE _ _ _ _ h1])

/-- The flattening of the tree a successful call returns is the run of
tokens it consumed, without the parentheses; its loop appends such a run to
the flattening of the tree it was entered with. -/
theorem climb_flatten {τ : Type} (kind : τ → TokenKind) (n : Nat) :
    (∀ ts p t rest, climb kind n ts p = .ok (t, rest) →
      ∃ c, ts = c.map some ++ rest ∧ t.flatten = withoutParens kind c) ∧
    (∀ ts p left t rest, climbLoop kind n ts p left = .ok (t, rest) →
      ∃ c, ts = c.map some ++ rest ∧ t.flatten = left.flatten ++ withoutParens kind c) := by
  induction n with
  | zero =>
    constructor
    · intro ts p t rest h; simp [climb] at h
    · intro ts p left t rest h; simp [climbLoop] at h
  | succ n ih =>
    obtain ⟨ihE, ihL⟩ := ih
    constructor
    · intro ts p t rest h
      match ts with
      | [] => simp [climb] at h
      | none :: ts1 => simp [climb] at h
      | some token :: ts1 =>
        rw [climb] at h
        split at h
        · rename_i hk
          obtain ⟨c, hc, hf⟩ := ihL _ _ _ _ _ h
          refine ⟨token :: c, by simp [hc], ?_⟩
          rw [hf]
          simp [create_ast_node, Tree.flatten, withoutParens, List.filter_cons, isParenKind, hk]
        · rename_i hk
          split at h
          · cases h
          · rename_i left rest1 h1
            obtain ⟨c1, hc1, hf1⟩ := ihE _ _ _ _ h1
            split at h
            · rename_i closing rest2
              split at h
              · cases h
              · rename_i hcl
                simp only [ne_eq, Decidable.not_not] at hcl
                obtain ⟨c2, hc2, hf2⟩ := ihL _ _ _ _ _ h
                refine ⟨token :: (c1 ++ closing :: c2), by simp [hc1, hc2], ?_⟩
                rw [hf2, hf1]
                simp [withoutParens, List.filter_cons, List.filter_append, isParenKind, hk, hcl]
            · cases h
        · rename_i hk
          split at h
          · cases h
          · rename_i operand rest1 h1
            obtain ⟨c1, hc1, hf1⟩ := ihE _ _ _ _ h1
            obtain ⟨c2, hc2, hf2⟩ := ihL _ _ _ _ _ h
            refine ⟨token :: (c1 ++ c2), by simp [hc1, hc2], ?_⟩
            rw [hf2]
            simp [create_ast_node, Tree.setLeft, Tree.flatten, hf1, withoutParens,
              List.filter_cons, List.filter_append, isParenKind, hk]
        · rename_i hk
          split at h
          · cases h
          · rename_i operand rest1 h1
            obtain ⟨c1, hc1, hf1⟩ := ihE _ _ _ _ h1
            obtain ⟨c2, hc2, hf2⟩ := ihL _ _ _ _ _ h
            refine ⟨token :: (c1 ++ c2), by simp [hc1, hc2], ?_⟩
            rw [hf2]
            simp [create_ast_node, Tree.setLeft, Tree.flatten, hf1, withoutParens,
              List.filter_cons, List.filter_append, isParenKind, hk]
        · cases h
    · intro ts p left t rest h
      match ts with
      | [] => simp [climbLoop] at h
      | none :: ts1 => simp [climbLoop] at h
      | some next :: ts1 =>
        rw [climbLoop] at h
        split at h
        · cases h; exact ⟨[], by simp, by simp [withoutParens]⟩
        · rename_i np hb
          split at h
          · cases h; exact ⟨[], by simp, by simp [withoutParens]⟩
          · split at h
            · cases h
            · rename_i right rest1 h1
              obtain ⟨c1, hc1, hf1⟩ := ihE _ _ _ _ h1
              obtain ⟨c2, hc2, hf2⟩ := ihL _ _ _ _ _ h
              refine ⟨next :: (c1 ++ c2), by simp [hc1, hc2], ?_⟩
              rw [hf2]
              have hnp : isParenKind (kind next) = false := by
                cases hk : kind next <;> rw [hk] at hb <;> simp [binaryPrecedence] at hb <;> rfl
              simp [create_ast_node, Tree.setLeft, Tree.setRight, Tree.flatten, hf1,
                withoutParens, List.filter_cons, List.filter_append, hnp]

/-- A well-formed tree has as many nodes as its flattening has tokens. -/
theorem wellFormed_size {τ : Type} (kind : τ → TokenKind) (t : Tree τ)
    (h : t.wellFormed kind = true) : t.size = t.flatten.length := by
  induction t with
  | null => simp [Tree.wellFormed] at h
  | node left right type token ihl ihr =>
    cases type with
    | AST_NUMBER =>
      simp only [Tree.wellFormed, Bool.and_eq_true, decide_eq_true_eq] at h
      obtain ⟨⟨_, hl⟩, hr⟩ := h
      cases left <;> cases right <;> simp [Tree.isNull] at hl hr
      simp [Tree.size, Tree.flatten]
    | AST_UNARY =>
      simp only [Tree.wellFormed, Bool.and_eq_true] at h
      obtain ⟨⟨_, hl⟩, hr⟩ := h
      cases right <;> simp [Tree.isNull] at hr
      simp [Tree.size, Tree.flatten, ihl hl]; omega
    | AST_BINARY =>
      simp only [Tree.wellFormed, Bool.and_eq_true] at h
      obtain ⟨⟨_, hl⟩, hr⟩ := h
      simp [Tree.size, Tree.flatten, ihl hl, ihr hr]; omega

/-- The result of `parse_expression` with any fuel, seen over token
sequences, is what the parser over token sequences computes with that fuel. -/
theorem tokenResult_parse_expression (n : Nat) (lexer : Lexer) (p : Precedence) :
    tokenResult (parse_expression n lexer p) = climb Token.kind n (tokens lexer) p := by
  have h := (parse_expression_climb id Token.kind (fun _ => rfl) n).1 lexer p
  rw [viewResult_id] at h
  simpa using h

theorem tokenResult_ok {r : Except Fault (ASTNode × Lexer)} {tree : ASTNode} {lexer' : Lexer}
    (h : r = .ok (tree, lexer')) : tokenResult r = .ok (tree, tokens lexer') := by
  rw [h]; rfl

/-- Every token of the token sequence is what `next_token` returns from the
first byte of that token. -/
theorem tokens_mem (k : Nat) :
    ∀ (lexer : Lexer) (t : Token), lexer.buffer.length - lexer.current ≤ k →
      some t ∈ tokens lexer →
      ∃ lexer', next_token { buffer := lexer.buffer, current := t.start } = .ok (t, lexer') := by
  induction k with
  | zero =>
    intro lexer t hk hmem
    rw [tokens_unfold] at hmem
    cases h : next_token lexer with
    | error e => rw [h] at hmem; simp at hmem
    | ok res =>
      obtain ⟨token, lexer1⟩ := res
      obtain ⟨hb, hc, hs, hl, hle⟩ := next_token_facts h
      omega
  | succ k ih =>
    intro lexer t hk hmem
    rw [tokens_unfold] at hmem
    cases h : next_token lexer with
    | error e => rw [h] at hmem; simp at hmem
    | ok res =>
      obtain ⟨token, lexer1⟩ := res
      obtain ⟨hb, hc, hs, hl, hle⟩ := next_token_facts h
      rw [h] at hmem
      simp only at hmem
      have hhead : t = token → ∃ lexer', next_token
          { buffer := lexer.buffer, current := t.start } = .ok (t, lexer') := by
        intro e; subst e; exact ⟨lexer1, next_token_restart h⟩
      split at hmem
      · simp only [List.mem_singleton, Option.some.injEq] at hmem
        exact hhead hmem
      · simp only [List.mem_cons, Option.some.injEq] at hmem
        rcases hmem with e | hmem
        · exact hhead e
        · have := ih lexer1 t (by rw [hb]; omega) hmem
          rw [hb] at this
          exact this

/-- C15: every tree returned by a successful `parse_expression` is
well-formed. The root is not `NULL`; every Number node has a Number token and
no children; every Unary node has a `+` or `-` token, a non-null left child
and a null right child; every Binary node has a `+`, `-`, `*` or `/` token
and two non-null children; and the children are well-formed in turn. -/
theorem parsed_tree_wellFormed (n : Nat) (lexer lexer' : Lexer) (p : Precedence)
    (tree : ASTNode) (h : parse_expression n lexer p = .ok (tree, lexer')) :
    tree ≠ .null ∧ tree.wellFormed Token.kind = true := by
  have hc := tokenResult_parse_expression n lexer p
  rw [tokenResult_ok h] at hc
  have hw := (climb_wellFormed Token.kind n).1 _ _ _ _ hc.symm
  refine ⟨?_, hw⟩
  rintro rfl
  simp [Tree.wellFormed] at hw

/-- C15 at the text `-(1 + 2) * 3`. -/
theorem parsed_tree_wellFormed_witness :
    parse_expression 14 (init_lexer (cstring "-(1 + 2) * 3")) .PREC_ASSIGNMENT =
      .ok (.node
            (.node
              (.node (.node .null .null .AST_NUMBER ⟨.TOKEN_NUMBER, 2, 1⟩)
                (.node .null .null .AST_NUMBER ⟨.TOKEN_NUMBER, 6, 1⟩) .AST_BINARY
                ⟨.TOKEN_PLUS, 4, 1⟩)
              .null .AST_UNARY ⟨.TOKEN_MINUS, 0, 1⟩)
            (.node .null .null .AST_NUMBER ⟨.TOKEN_NUMBER, 11, 1⟩) .AST_BINARY
            ⟨.TOKEN_STAR, 9, 1⟩,
           { buffer := cstring "-(1 + 2) * 3", current := 12 }) ∧
    ((.node
        (.node
          (.node (.node .null .null .AST_NUMBER ⟨.TOKEN_NUMBER, 2, 1⟩)
            (.node .null .null .AST_NUMBER ⟨.TOKEN_NUMBER, 6, 1⟩) .AST_BINARY
            ⟨.TOKEN_PLUS, 4, 1⟩)
          .null .AST_UNARY ⟨.TOKEN_MINUS, 0, 1⟩)
        (.node .null .null .AST_NUMBER ⟨.TOKEN_NUMBER, 11, 1⟩) .AST_BINARY
        ⟨.TOKEN_STAR, 9, 1⟩ : ASTNode) ≠ .null ∧
     Tree.wellFormed Token.kind
      (.node
        (.node
          (.node (.node .null .null .AST_NUMBER ⟨.TOKEN_NUMBER, 2, 1⟩)
            (.node .null .null .AST_NUMBER ⟨.TOKEN_NUMBER, 6, 1⟩) .AST_BINARY
            ⟨.TOKEN_PLUS, 4, 1⟩)
          .null .AST_UNARY ⟨.TOKEN_MINUS, 0, 1⟩)
        (.node .null .null .AST_NUMBER ⟨.TOKEN_NUMBER, 11, 1⟩) .AST_BINARY
        ⟨.TOKEN_STAR, 9, 1⟩ : ASTNode) = true) :=
  ⟨rfl, parsed_tree_wellFormed 14 (init_lexer (cstring "-(1 + 2) * 3"))
      { buffer := cstring "-(1 + 2) * 3", current := 12 } .PREC_ASSIGNMENT _ rfl⟩

/-- C19: the parser preserves token order and drops only parentheses. For
every successful `parse_expression` call, the tokens of the input are a run
of consumed tokens followed by the tokens of the lexer left behind; the
in-order flattening of the returned tree is that run with its `(` and `)`
tokens removed; and every consumed token, so every token of a node, is what
`next_token` returns at its `start` in the buffer: it carries the exact
lexeme, start and length. -/
theorem parsed_tree_flattens_to_tokens (n : Nat) (lexer lexer' : Lexer) (p : Precedence)
    (tree : ASTNode) (h : parse_expression n lexer p = .ok (tree, lexer')) :
    ∃ consumed : List Token,
      tokens lexer = consumed.map some ++ tokens lexer' ∧
      tree.flatten = withoutParens Token.kind consumed ∧
      ∀ t ∈ consumed, ∃ after,
        next_token { buffer := lexer.buffer, current := t.start } = .ok (t, after) := by
  have hc := tokenResult_parse_expression n lexer p
  rw [tokenResult_ok h] at hc
  obtain ⟨c, hts, hf⟩ := (climb_flatten Token.kind n).1 _ _ _ _ hc.symm
  refine ⟨c, hts, hf, ?_⟩
  intro t ht
  apply tokens_mem _ lexer t (le_refl _)
  rw [hts]
  exact List.mem_append_left _ (List.mem_map_of_mem some ht)

/-- C19 at the text `(1 + 2) * 3`: seven tokens are consumed, the two
parentheses are dropped, and the tree flattens to `1 + 2 * 3`. -/
theorem parsed_tree_flattens_to_tokens_witness :
    parse_expression 13 (init_lexer (cstring "(1 + 2) * 3")) .PREC_ASSIGNMENT =
      .ok (.node
            (.node (.node .null .null .AST_NUMBER ⟨.TOKEN_NUMBER, 1, 1⟩)
              (.node .null .null .AST_NUMBER ⟨.TOKEN_NUMBER, 5, 1⟩) .AST_BINARY
              ⟨.TOKEN_PLUS, 3, 1⟩)
            (.node .null .null .AST_NUMBER ⟨.TOKEN_NUMBER, 10, 1⟩) .AST_BINARY
            ⟨.TOKEN_STAR, 8, 1⟩,
           { buffer := cstring "(1 + 2) * 3", current := 11 }) ∧
    Tree.flatten
      (.node
        (.node (.node .null .null .AST_NUMBER ⟨.TOKEN_NUMBER, 1, 1⟩)
          (.node .null .null .AST_NUMBER ⟨.TOKEN_NUMBER, 5, 1⟩) .AST_BINARY
          ⟨.TOKEN_PLUS, 3, 1⟩)
        (.node .null .null .AST_NUMBER ⟨.TOKEN_NUMBER, 10, 1⟩) .AST_BINARY
        ⟨.TOKEN_STAR, 8, 1⟩ : ASTNode) =
      [⟨.TOKEN_NUMBER, 1, 1⟩, ⟨.TOKEN_PLUS, 3, 1⟩, ⟨.TOKEN_NUMBER, 5, 1⟩, ⟨.TOKEN_STAR, 8, 1⟩,
        ⟨.TOKEN_NUMBER, 10, 1⟩] ∧
    ∃ consumed : List Token,
      tokens (init_lexer (cstring "(1 + 2) * 3")) =
        consumed.map some ++ tokens { buffer := cstring "(1 + 2) * 3", current := 11 } ∧
      Tree.flatten
        (.node
          (.node (.node .null .null .AST_NUMBER ⟨.TOKEN_NUMBER, 1, 1⟩)
            (.node .null .null .AST_NUMBER ⟨.TOKEN_NUMBER, 5, 1⟩) .AST_BINARY
            ⟨.TOKEN_PLUS, 3, 1⟩)
          (.node .null .null .AST_NUMBER ⟨.TOKEN_NUMBER, 10, 1⟩) .AST_BINARY
          ⟨.TOKEN_STAR, 8, 1⟩ : ASTNode) = withoutParens Token.kind consumed ∧
      ∀ t ∈ consumed, ∃ after,
        next_token { buffer := (init_lexer (cstring "(1 + 2) * 3")).buffer,
                     current := t.start } = .ok (t, after) :=
  ⟨rfl, by decide,
   parsed_tree_flattens_to_tokens 13 (init_lexer (cstring "(1 + 2) * 3"))
     { buffer := cstring "(1 + 2) * 3", current := 11 } .PREC_ASSIGNMENT _ rfl⟩

/-! ## Termination -/

theorem withoutParens_length_le {τ : Type} (kind : τ → TokenKind) (ts : List τ) :
    (withoutParens kind ts).length ≤ ts.length :=
  List.length_filter_le _ _

/-- C17: `parse_expression` terminates on every buffer and every minimum
precedence, returning a tree or failing with an error. With one unit of fuel
per call and per iteration of the loop, the number of unread bytes plus two
is enough, and more fuel changes nothing. What drives it: every call of
`next_token` that returns a token leaves the cursor strictly further, and
each recursive call is made on the lexer such a call has just left; a
successful `parse_expression` leaves the cursor strictly further than it
found it, its loop not before where it was entered; the cursor is moved back
only on return, to the start of the token read last. The tree returned has
at most as many nodes as tokens were consumed, so fewer than the input
has tokens. -/
theorem parse_expression_terminates (lexer : Lexer) (p : Precedence) :
    parse lexer p ≠ .error .outOfFuel ∧
    (∀ n, lexer.buffer.length - lexer.current + 2 ≤ n →
      parse_expression n lexer p = parse lexer p) ∧
    (∀ t lexer1, next_token lexer = .ok (t, lexer1) →
      lexer.current < lexer1.current ∧ lexer1.current ≤ lexer.buffer.length) ∧
    (∀ tree lexer', parse lexer p = .ok (tree, lexer') →
      lexer.current < lexer'.current ∧
      (∃ x after, next_token lexer' = .ok (x, after) ∧ lexer' = pushBack after x) ∧
      tree.size + (tokens lexer').length ≤ (tokens lexer).length ∧
      tree.size < (tokens lexer).length) ∧
    (∀ n left tree lexer', parse_loop n lexer p left = .ok (tree, lexer') →
      lexer.current ≤ lexer'.current ∧
      ∃ x after, next_token lexer' = .ok (x, after) ∧ lexer' = pushBack after x) := by
  have hpush : ∀ (l : Lexer) (x : Token) (after : Lexer), next_token l = .ok (x, after) →
      x.start = l.current → l = pushBack after x := by
    intro l x after hx hstart
    rw [pushBack_eq hx]
    obtain ⟨buffer, current⟩ := l
    simp only at hstart
    rw [hstart]
  refine ⟨parse_fuel lexer p, fun n hn => parse_expression_eq_parse n lexer p hn, ?_, ?_, ?_⟩
  · intro t lexer1 h
    obtain ⟨hb, hc, hs, hl, hle⟩ := next_token_facts h
    exact ⟨by omega, hle⟩
  · intro tree lexer' h
    obtain ⟨_, hlt, x, after, hx, hstart, _⟩ := (parse_expression_stop _).1 _ _ _ _ h
    have hc := tokenResult_parse_expression (lexer.buffer.length - lexer.current + 2) lexer p
    rw [← parse, tokenResult_ok h] at hc
    obtain ⟨c, hts, hf⟩ := (climb_flatten Token.kind _).1 _ _ _ _ hc.symm
    have hw := (climb_wellFormed Token.kind _).1 _ _ _ _ hc.symm
    have hsize := wellFormed_size Token.kind tree hw
    have hle := withoutParens_length_le Token.kind c
    have hne : 1 ≤ (tokens lexer').length := by
      rw [tokens_unfold, hx]
      simp only
      split <;> simp
    have hlen : (tokens lexer).length = c.length + (tokens lexer').length := by
      rw [hts]; simp
    rw [hf] at hsize
    refine ⟨hlt, ⟨x, after, hx, hpush _ _ _ hx hstart⟩, by omega, by omega⟩
  · intro n left tree lexer' h
    obtain ⟨_, hle, x, after, hx, hstart, _⟩ := (parse_expression_stop n).2 _ _ _ _ _ h
    exact ⟨hle, x, after, hx, hpush _ _ _ hx hstart⟩

/-- C17 at the text `((1 + 2) * 3`, which fails, and at `1 + 2 * 3`, whose
tree has five nodes for the six tokens of the input. -/
theorem parse_expression_terminates_witness :
    parse (init_lexer (cstring "((1 + 2) * 3")) .PREC_ASSIGNMENT = .error .expectedRParen ∧
    parse (init_lexer (cstring "((1 + 2) * 3")) .PREC_ASSIGNMENT ≠ .error .outOfFuel ∧
    parse_expression 100 (init_lexer (cstring "1 + 2 * 3")) .PREC_ASSIGNMENT =
      parse (init_lexer (cstring "1 + 2 * 3")) .PREC_ASSIGNMENT ∧
    (tokens (init_lexer (cstring "1 + 2 * 3"))).length = 6 ∧
    ((0 < 9 ∧
      (∃ x after, next_token { buffer := cstring "1 + 2 * 3", current := 9 } = .ok (x, after) ∧
        ({ buffer := cstring "1 + 2 * 3", current := 9 } : Lexer) = pushBack after x) ∧
      Tree.size
        (.node (.node .null .null .AST_NUMBER ⟨.TOKEN_NUMBER, 0, 1⟩)
          (.node (.node .null .null .AST_NUMBER ⟨.TOKEN_NUMBER, 4, 1⟩)
            (.node .null .null .AST_NUMBER ⟨.TOKEN_NUMBER, 8, 1⟩) .AST_BINARY
            ⟨.TOKEN_STAR, 6, 1⟩)
          .AST_BINARY ⟨.TOKEN_PLUS, 2, 1⟩ : ASTNode) +
        (tokens { buffer := cstring "1 + 2 * 3", current := 9 }).length ≤
        (tokens (init_lexer (cstring "1 + 2 * 3"))).length ∧
      Tree.size
        (.node (.node .null .null .AST_NUMBER ⟨.TOKEN_NUMBER, 0, 1⟩)
          (.node (.node .null .null .AST_NUMBER ⟨.TOKEN_NUMBER, 4, 1⟩)
            (.node .null .null .AST_NUMBER ⟨.TOKEN_NUMBER, 8, 1⟩) .AST_BINARY
            ⟨.TOKEN_STAR, 6, 1⟩)
          .AST_BINARY ⟨.TOKEN_PLUS, 2, 1⟩ : ASTNode) <
        (tokens (init_lexer (cstring "1 + 2 * 3"))).length)) :=
  ⟨rfl,
   (parse_expression_terminates (init_lexer (cstring "((1 + 2) * 3")) .PREC_ASSIGNMENT).1,
   (parse_expression_terminates (init_lexer (cstring "1 + 2 * 3")) .PREC_ASSIGNMENT).2.1 100
     (by decide),
   by decide,
   (parse_expression_terminates (init_lexer (cstring "1 + 2 * 3")) .PREC_ASSIGNMENT).2.2.2.1
     _ { buffer := cstring "1 + 2 * 3", current := 9 } rfl⟩

/-! ## Printing -/

theorem take_takeWhile_length (q : Nat → Bool) (l : List Nat) :
    l.take (l.takeWhile q).length = l.takeWhile q := by
  induction l with
  | nil => simp
  | cons c rest ih =>
    by_cases hc : q c = true
    · simp [List.takeWhile_cons_of_pos, hc, ih]
    · simp [List.takeWhile, hc]

/-- The bytes `%.*s` writes for a lexeme that lies in the buffer and holds no
NUL are the lexeme. -/
theorem printLexeme_take (n : Nat) :
    ∀ l : List Nat, n ≤ l.length → (∀ c ∈ l.take n, c ≠ 0) →
      printLexeme l n = .ok (l.take n) := by
  induction n with
  | zero => intro l _ _; cases l <;> rfl
  | succ n ih =>
    intro l hl h0
    cases l with
    | nil => simp at hl
    | cons c rest =>
      have hc : c ≠ 0 := h0 c (by simp)
      have hr := ih rest (by simpa using hl) (fun d hd => h0 d (by simp [hd]))
      simp [printLexeme, hc, hr]

/-- The lexeme of a token that is not the end of input holds no NUL. -/
theorem lexSuffix_text {l : List Nat} {kind : TokenKind} {length : Nat}
    (h : lexSuffix l = .ok (kind, 0, length)) (hk : kind ≠ .TOKEN_EOF) :
    ∀ c ∈ l.take length, c ≠ 0 := by
  cases l with
  | nil => simp [lexSuffix] at h
  | cons c rest =>
    by_cases hs : isSpace c = true
    · rw [lexSuffix_cons_space rest hs] at h
      cases hr : lexSuffix rest with
      | error f => rw [hr] at h; cases h
      | ok r =>
        obtain ⟨k, s, len⟩ := r
        rw [hr] at h
        simp at h
    · have hdw : (c :: rest).dropWhile isSpace = c :: rest := by
        simp [List.dropWhile, hs]
      unfold lexSuffix at h
      rw [hdw] at h
      simp only at h
      cases hck : charKind c with
      | some k =>
        rw [hck] at h
        simp only [Except.ok.injEq, Prod.mk.injEq] at h
        obtain ⟨rfl, _, rfl⟩ := h
        intro d hd
        simp only [List.take_succ_cons, List.take_zero, List.mem_singleton] at hd
        subst hd
        rintro rfl
        simp [charKind] at hck
        exact hk hck.symm
      | none =>
        rw [hck] at h
        simp only at h
        split at h
        · rename_i hdig
          split at h
          · cases h
          · simp only [Except.ok.injEq, Prod.mk.injEq] at h
            obtain ⟨_, _, rfl⟩ := h
            intro d hd
            rw [Nat.add_comm, List.take_succ_cons, take_takeWhile_length] at hd
            have hdd : isDigit d = true := by
              rcases List.mem_cons.mp hd with rfl | hd
              · exact hdig
              · exact (List.mem_takeWhile_imp hd)
            rintro rfl
            simp [isDigit] at hdd
        · cases h

/-- A token that `next_token` returns at its first byte, and that is not the
end of input, has its lexeme in the buffer. -/
theorem hasLexeme_of_next_token {buffer : List Nat} {t : Token} {after : Lexer}
    (h : next_token { buffer := buffer, current := t.start } = .ok (t, after))
    (hk : t.kind ≠ .TOKEN_EOF) : hasLexeme buffer t = true := by
  rw [next_token_eq] at h
  simp only at h
  cases hs : lexSuffix (buffer.drop t.start) with
  | error g => rw [hs] at h; cases h
  | ok r =>
    obtain ⟨kind, skipped, length⟩ := r
    rw [hs] at h
    simp only [Except.ok.injEq, Prod.mk.injEq] at h
    obtain ⟨ht, _⟩ := h
    have hkind : kind = t.kind := by rw [← ht]
    have hstart : t.start + skipped = t.start := by
      conv_rhs => rw [← ht]
    have hlen : length = t.length := by rw [← ht]
    have hsk : skipped = 0 := by omega
    subst hsk
    subst hkind
    subst hlen
    obtain ⟨h1, h2⟩ := lexSuffix_bounds hs
    have h0 := lexSuffix_text hs hk
    simp only [List.length_drop] at h2
    simp only [hasLexeme, Bool.and_eq_true, decide_eq_true_eq, List.all_eq_true]
    refine ⟨by omega, ?_⟩
    intro c hc
    simpa using h0 c hc

theorem wellFormed_all {τ : Type} (kind : τ → TokenKind) (q : τ → Bool) (t : Tree τ)
    (hw : t.wellFormed kind = true)
    (hq : ∀ x ∈ t.flatten, kind x ≠ .TOKEN_EOF → q x = true) : t.all q = true := by
  induction t with
  | null => simp [Tree.wellFormed] at hw
  | node left right type token ihl ihr =>
    cases type with
    | AST_NUMBER =>
      simp only [Tree.wellFormed, Bool.and_eq_true, decide_eq_true_eq] at hw
      obtain ⟨⟨hkd, hl⟩, hr⟩ := hw
      cases left with
      | node _ _ _ _ => simp [Tree.isNull] at hl
      | null =>
        cases right with
        | node _ _ _ _ => simp [Tree.isNull] at hr
        | null =>
          have := hq token (by simp [Tree.flatten]) (by rw [hkd]; decide)
          simp [Tree.all, this]
    | AST_UNARY =>
      simp only [Tree.wellFormed, Bool.and_eq_true] at hw
      obtain ⟨⟨hkd, hl⟩, hr⟩ := hw
      cases right with
      | node _ _ _ _ => simp [Tree.isNull] at hr
      | null =>
        have h1 := hq token (by simp [Tree.flatten]) (by
          intro e; rw [e] at hkd; simp [isAdditiveKind] at hkd)
        have h2 := ihl hl (fun x hx => hq x (by simp [Tree.flatten, hx]))
        simp [Tree.all, h1, h2]
    | AST_BINARY =>
      simp only [Tree.wellFormed, Bool.and_eq_true] at hw
      obtain ⟨⟨hkd, hl⟩, hr⟩ := hw
      have h1 := hq token (by simp [Tree.flatten]) (by
        intro e; rw [e] at hkd; simp [isBinaryKind, binaryPrecedence] at hkd)
      have h2 := ihl hl (fun x hx => hq x (by simp [Tree.flatten, hx]))
      have h3 := ihr hr (fun x hx => hq x (by simp [Tree.flatten, hx]))
      simp [Tree.all, h1, h2, h3]

/-- Every token of a tree that `parse_expression` returns has its lexeme in
the buffer. -/
theorem parsed_tree_hasLexeme {n : Nat} {lexer lexer' : Lexer} {p : Precedence}
    {tree : ASTNode} (h : parse_expression n lexer p = .ok (tree, lexer')) :
    tree.all (hasLexeme lexer.buffer) = true := by
  have hc := tokenResult_parse_expression n lexer p
  rw [tokenResult_ok h] at hc
  have hw := (climb_wellFormed Token.kind n).1 _ _ _ _ hc.symm
  obtain ⟨c, hts, hf⟩ := (climb_flatten Token.kind n).1 _ _ _ _ hc.symm
  apply wellFormed_all Token.kind _ _ hw
  intro x hx hk
  rw [hf] at hx
  have hxc : x ∈ c := (List.mem_filter.mp hx).1
  obtain ⟨after, ha⟩ := tokens_mem _ lexer x (le_refl _) (by
    rw [hts]; exact List.mem_append_left _ (List.mem_map_of_mem some hxc))
  exact hasLexeme_of_next_token ha hk

theorem print_ast_render (buffer : List Nat) (ast : ASTNode)
    (h : ast.all (hasLexeme buffer) = true) :
    print_ast buffer ast = .ok (render (shapeOf buffer ast)) := by
  induction ast with
  | null => rfl
  | node left right type token ihl ihr =>
    simp only [Tree.all, Bool.and_eq_true] at h
    obtain ⟨⟨ht, hl⟩, hr⟩ := h
    simp only [hasLexeme, Bool.and_eq_true, decide_eq_true_eq, List.all_eq_true] at ht
    have hp : printLexeme (buffer.drop token.start) token.length =
        .ok ((buffer.drop token.start).take token.length) :=
      printLexeme_take _ _ (by simp only [List.length_drop]; omega)
        (fun c hc => by simpa using ht.2 c hc)
    have hl' := ihl hl
    have hr' := ihr hr
    simp only [shapeOf] at hl' hr'
    cases type <;>
      simp [print_ast, render, shapeOf, Tree.map, lexemeOf, hp, hl', hr']

/-- C13: what `print_ast` writes. For every tree whose tokens have their
lexemes in the buffer, and so for every tree `parse_expression` returns on
that buffer, `print_ast` writes exactly the rendering of the tree: for a
Number node its lexeme text; for a Unary node `(`, the operator lexeme, a
space, the printed operand, `)`; for a Binary node `(`, the operator lexeme,
a space, the printed left child, a space, the printed right child, `)`. The
tree is an argument that is only read. -/
theorem print_ast_emits (buffer : List Nat) :
    (∀ ast : ASTNode, ast.all (hasLexeme buffer) = true →
      print_ast buffer ast = .ok (render (shapeOf buffer ast))) ∧
    (∀ (n : Nat) (p : Precedence) (current : Nat) (tree : ASTNode) (lexer' : Lexer),
      parse_expression n { buffer := buffer, current := current } p = .ok (tree, lexer') →
      print_ast buffer tree = .ok (render (shapeOf buffer tree))) ∧
    (∀ (a op : Token) (left right : ASTNode),
      hasLexeme buffer a = true → hasLexeme buffer op = true →
      left.all (hasLexeme buffer) = true → right.all (hasLexeme buffer) = true →
      print_ast buffer (.node .null .null .AST_NUMBER a) = .ok (lexemeOf buffer a).text ∧
      print_ast buffer (.node left .null .AST_UNARY op) =
        .ok ([40] ++ (lexemeOf buffer op).text ++ [32] ++ render (shapeOf buffer left) ++ [41]) ∧
      print_ast buffer (.node left right .AST_BINARY op) =
        .ok ([40] ++ (lexemeOf buffer op).text ++ [32] ++ render (shapeOf buffer left) ++ [32] ++
          render (shapeOf buffer right) ++ [41])) := by
  refine ⟨print_ast_render buffer, ?_, ?_⟩
  · intro n p current tree lexer' h
    exact print_ast_render buffer tree (parsed_tree_hasLexeme h)
  · intro a op left right ha hop hl hr
    refine ⟨?_, ?_, ?_⟩
    · rw [print_ast_render buffer _ (by simp [Tree.all, ha])]; rfl
    · rw [print_ast_render buffer _ (by simp [Tree.all, hop, hl])]; rfl
    · rw [print_ast_render buffer _ (by simp [Tree.all, hop, hl, hr])]; rfl

/-- C13 at the text `1 + 2 * 3`: the tree parsed from it prints as
`(+ 1 (* 2 3))`. -/
theorem print_ast_emits_witness :
    parse_expression 11 (init_lexer (cstring "1 + 2 * 3")) .PREC_ASSIGNMENT =
      .ok (.node (.node .null .null .AST_NUMBER ⟨.TOKEN_NUMBER, 0, 1⟩)
            (.node (.node .null .null .AST_NUMBER ⟨.TOKEN_NUMBER, 4, 1⟩)
              (.node .null .null .AST_NUMBER ⟨.TOKEN_NUMBER, 8, 1⟩) .AST_BINARY
              ⟨.TOKEN_STAR, 6, 1⟩) .AST_BINARY ⟨.TOKEN_PLUS, 2, 1⟩,
           { buffer := cstring "1 + 2 * 3", current := 9 }) ∧
    print_ast (cstring "1 + 2 * 3")
      (.node (.node .null .null .AST_NUMBER ⟨.TOKEN_NUMBER, 0, 1⟩)
        (.node (.node .null .null .AST_NUMBER ⟨.TOKEN_NUMBER, 4, 1⟩)
          (.node .null .null .AST_NUMBER ⟨.TOKEN_NUMBER, 8, 1⟩) .AST_BINARY
          ⟨.TOKEN_STAR, 6, 1⟩) .AST_BINARY ⟨.TOKEN_PLUS, 2, 1⟩) =
      .ok (bytes "(+ 1 (* 2 3))") :=
  ⟨rfl, ((print_ast_emits (cstring "1 + 2 * 3")).2.1 11 .PREC_ASSIGNMENT 0 _
      { buffer := cstring "1 + 2 * 3", current := 9 } rfl).trans rfl⟩

/-! ## The program -/

/-- When the parse of the file succeeds, whatever is left unread, `main`
prints the tree and returns 0. -/
theorem main_prints_parsed_tree (file : List Nat) (tree : ASTNode) (lexer' : Lexer)
    (h : parse (init_lexer (file ++ [0])) .PREC_ASSIGNMENT = .ok (tree, lexer')) :
    main file =
      (bytes "Input: \n" ++ (file ++ [0]).takeWhile (fun c => c ≠ 0) ++ [10] ++
        bytes "Parsed expression:\n" ++ render (shapeOf (file ++ [0]) tree) ++ [10], 0) := by
  have hp : parse_expression ((file ++ [0]).length + 2) (init_lexer (file ++ [0]))
      .PREC_ASSIGNMENT = .ok (tree, lexer') := by
    rw [parse_expression_eq_parse _ _ _ (by simp [init_lexer])]; exact h
  have hpr := print_ast_render (file ++ [0]) tree (parsed_tree_hasLexeme hp)
  simp only [main, hp, hpr]

/-- C20: the top-level parse does not require the whole input to be consumed.
On the texts `1 2` and `1 )`, `parse_expression` at `PREC_ASSIGNMENT` returns
the Number node of `1` alone and leaves the cursor at the second token, which
with the end of input is still unread; `main` prints `1` as the parsed
expression and returns 0. -/
theorem top_level_parse_leaves_tokens_unread :
    (parse (init_lexer (cstring "1 2")) .PREC_ASSIGNMENT =
        .ok (.node .null .null .AST_NUMBER ⟨.TOKEN_NUMBER, 0, 1⟩,
             { buffer := cstring "1 2", current := 2 }) ∧
      tokens { buffer := cstring "1 2", current := 2 } =
        [some ⟨.TOKEN_NUMBER, 2, 1⟩, some ⟨.TOKEN_EOF, 3, 1⟩] ∧
      main (bytes "1 2") = (bytes "Input: \n1 2\nParsed expression:\n1\n", 0)) ∧
    (parse (init_lexer (cstring "1 )")) .PREC_ASSIGNMENT =
        .ok (.node .null .null .AST_NUMBER ⟨.TOKEN_NUMBER, 0, 1⟩,
             { buffer := cstring "1 )", current := 2 }) ∧
      tokens { buffer := cstring "1 )", current := 2 } =
        [some ⟨.TOKEN_RPAREN, 2, 1⟩, some ⟨.TOKEN_EOF, 3, 1⟩] ∧
      main (bytes "1 )") = (bytes "Input: \n1 )\nParsed expression:\n1\n", 0)) :=
  ⟨⟨rfl, by decide, by decide⟩, ⟨rfl, by decide, by decide⟩⟩

/-! ## Reads stay within the terminator -/

theorem takeWhile_append_stop (q : Nat → Bool) (a : List Nat) (x : Nat) (r : List Nat)
    (hx : q x = false) : (a ++ x :: r).takeWhile q = a.takeWhile q := by
  induction a with
  | nil => simp [List.takeWhile, hx]
  | cons c a ih =>
    by_cases hc : q c = true
    · simp [List.takeWhile_cons_of_pos, hc, ih]
    · simp [List.takeWhile, hc]

theorem dropWhile_append_stop (q : Nat → Bool) (a : List Nat) (x : Nat) (r : List Nat)
    (hx : q x = false) : (a ++ x :: r).dropWhile q ≠ [] := by
  intro h
  rw [List.dropWhile_eq_nil_iff] at h
  have := h x (by simp)
  rw [hx] at this
  cases this

theorem lexSuffix_digit (c : Nat) (rest : List Nat) (hd : isDigit c = true)
    (hne : rest.dropWhile isDigit ≠ []) :
    lexSuffix (c :: rest) = .ok (.TOKEN_NUMBER, 0, 1 + (rest.takeWhile isDigit).length) := by
  have hs : isSpace c = false := by
    simp only [isDigit, Bool.and_eq_true, decide_eq_true_eq] at hd
    simp only [isSpace, Bool.or_eq_false_iff, decide_eq_false_iff_not]
    omega
  have hk : charKind c = none := by
    simp only [isDigit, Bool.and_eq_true, decide_eq_true_eq] at hd
    rw [charKind_eq_none_iff]
    simp only [List.mem_cons, List.mem_singleton, List.not_mem_nil, or_false, not_or]
    omega
  cases hr : rest.dropWhile isDigit with
  | nil => exact absurd hr hne
  | cons x xs => simp [lexSuffix, List.dropWhile, List.takeWhile, hs, hk, hd, hr]

/-- What `next_token` finds on bytes `a` without a NUL followed by a NUL: the
same whatever follows the NUL, never a read outside the buffer, a token that
starts at or before the NUL and, unless it is the end of input, ends before
it. -/
theorem lexSuffix_terminated (a r1 r2 : List Nat) (ha : ∀ c ∈ a, c ≠ 0) :
    lexSuffix (a ++ 0 :: r1) = lexSuffix (a ++ 0 :: r2) ∧
    lexSuffix (a ++ 0 :: r1) ≠ .error .outOfBounds ∧
    ∀ k s len, lexSuffix (a ++ 0 :: r1) = .ok (k, s, len) →
      s ≤ a.length ∧ (k ≠ .TOKEN_EOF → s + len ≤ a.length) := by
  induction a with
  | nil =>
    have h0 : charKind 0 = some .TOKEN_EOF := rfl
    simp only [List.nil_append, lexSuffix_symbol _ h0]
    refine ⟨trivial, by simp, ?_⟩
    intro k s len h
    simp only [Except.ok.injEq, Prod.mk.injEq] at h
    obtain ⟨rfl, rfl, rfl⟩ := h
    simp
  | cons c a ih =>
    have hc : c ≠ 0 := ha c (by simp)
    obtain ⟨ih1, ih2, ih3⟩ := ih (fun d hd => ha d (by simp [hd]))
    simp only [List.cons_append, List.length_cons]
    by_cases hs : isSpace c = true
    · rw [lexSuffix_cons_space _ hs, lexSuffix_cons_space _ hs, ← ih1]
      cases hr : lexSuffix (a ++ 0 :: r1) with
      | error f =>
        refine ⟨rfl, ?_, ?_⟩
        · intro h; simp only [Except.error.injEq] at h; exact ih2 (by rw [hr, h])
        · intro k s len h; simp at h
      | ok res =>
        obtain ⟨k0, s0, len0⟩ := res
        refine ⟨rfl, by simp, ?_⟩
        intro k s len h
        simp only [Except.ok.injEq, Prod.mk.injEq] at h
        obtain ⟨rfl, rfl, rfl⟩ := h
        obtain ⟨h1, h2⟩ := ih3 _ _ _ hr
        exact ⟨by omega, fun hk => by have := h2 hk; omega⟩
    · have hs' : isSpace c = false := by simpa using hs
      cases hck : charKind c with
      | some k0 =>
        rw [lexSuffix_symbol _ hck, lexSuffix_symbol _ hck]
        refine ⟨rfl, by simp, ?_⟩
        intro k s len h
        simp only [Except.ok.injEq, Prod.mk.injEq] at h
        obtain ⟨rfl, rfl, rfl⟩ := h
        exact ⟨by omega, fun _ => by omega⟩
      | none =>
        by_cases hd : isDigit c = true
        · have hz : isDigit 0 = false := rfl
          rw [lexSuffix_digit c _ hd (dropWhile_append_stop isDigit a 0 r1 hz),
            lexSuffix_digit c _ hd (dropWhile_append_stop isDigit a 0 r2 hz),
            takeWhile_append_stop isDigit a 0 r1 hz, takeWhile_append_stop isDigit a 0 r2 hz]
          refine ⟨rfl, by simp, ?_⟩
          intro k s len h
          simp only [Except.ok.injEq, Prod.mk.injEq] at h
          obtain ⟨rfl, rfl, rfl⟩ := h
          have := takeWhile_length_add_dropWhile isDigit a
          exact ⟨by omega, fun _ => by omega⟩
        · have hd' : isDigit c = false := by simpa using hd
          rw [(lexSuffix_cons_other c _ hs').1 hck hd', (lexSuffix_cons_other c _ hs').1 hck hd']
          refine ⟨rfl, by simp, ?_⟩
          intro k s len h; simp at h

theorem split_at_zero (w : List Nat) (h : 0 ∈ w) :
    ∃ a r, w = a ++ 0 :: r ∧ ∀ c ∈ a, c ≠ 0 := by
  induction w with
  | nil => simp at h
  | cons c w ih =>
    by_cases hc : c = 0
    · subst hc; exact ⟨[], w, rfl, by simp⟩
    · have hw : 0 ∈ w := by
        rcases List.mem_cons.mp h with e | e
        · exact absurd e.symm hc
        · exact e
      obtain ⟨a, r, rfl, ha⟩ := ih hw
      refine ⟨c :: a, r, rfl, ?_⟩
      intro d hd
      rcases List.mem_cons.mp hd with rfl | hd
      · exact hc
      · exact ha d hd

theorem drop_split (b : List Nat) (i m : Nat) (h : i ≤ (b.take m).length) :
    b.drop i = (b.take m).drop i ++ b.drop m := by
  conv_lhs => rw [← List.take_append_drop m b]
  rw [List.drop_append_of_le_length h]

/-- The unread bytes at a cursor at or before a NUL at `z`: bytes without a
NUL, a NUL at or before `z`, and a rest that alone depends on the bytes
after `z`. -/
theorem unread_terminated (buffer : List Nat) (z i : Nat) (hz : buffer[z]? = some 0)
    (hi : i ≤ z) :
    ∃ a r, buffer.drop i = a ++ 0 :: r ∧ (∀ c ∈ a, c ≠ 0) ∧ i + a.length ≤ z ∧
      ∀ other : List Nat, other.take (z + 1) = buffer.take (z + 1) →
        ∃ r', other.drop i = a ++ 0 :: r' := by
  have hlt : z < buffer.length := by
    by_contra hcon
    rw [List.getElem?_eq_none (by omega)] at hz
    cases hz
  have hlen : (buffer.take (z + 1)).length = z + 1 := by
    rw [List.length_take]; omega
  have hmem : 0 ∈ (buffer.take (z + 1)).drop i := by
    rw [List.mem_iff_getElem?]
    refine ⟨z - i, ?_⟩
    rw [List.getElem?_drop, List.getElem?_take]
    have : i + (z - i) = z := by omega
    rw [this]
    simp [hz]
  obtain ⟨a, r, hw, ha⟩ := split_at_zero _ hmem
  have hwl : ((buffer.take (z + 1)).drop i).length = z + 1 - i := by
    rw [List.length_drop, hlen]
  rw [hw] at hwl
  simp only [List.length_append, List.length_cons] at hwl
  refine ⟨a, r ++ buffer.drop (z + 1), ?_, ha, by omega, ?_⟩
  · rw [drop_split buffer i (z + 1) (by omega), hw]; simp
  · intro other ho
    refine ⟨r ++ other.drop (z + 1), ?_⟩
    rw [drop_split other i (z + 1) (by rw [ho]; omega), ho, hw]; simp

/-- The call `next_token` at a cursor at or before a NUL at `z`, on two
buffers that agree up to `z`: the same fault, never a read outside the
buffer, or the same token, which starts at or before `z` and, unless it is
the end of input, ends at or before `z`. -/
theorem next_token_terminated (b1 b2 : List Nat) (z i : Nat) (hz : b1[z]? = some 0)
    (hag : b2.take (z + 1) = b1.take (z + 1)) (hi : i ≤ z) :
    (∃ f, f ≠ .outOfBounds ∧
      next_token { buffer := b1, current := i } = .error f ∧
      next_token { buffer := b2, current := i } = .error f) ∨
    (∃ t : Token,
      next_token { buffer := b1, current := i } =
        .ok (t, { buffer := b1, current := t.start + t.length }) ∧
      next_token { buffer := b2, current := i } =
        .ok (t, { buffer := b2, current := t.start + t.length }) ∧
      t.start ≤ z ∧ (t.kind ≠ .TOKEN_EOF → t.start + t.length ≤ z)) := by
  obtain ⟨a, r, h1, ha, hle, hother⟩ := unread_terminated b1 z i hz hi
  obtain ⟨r', h2⟩ := hother b2 hag
  obtain ⟨e1, e2, e3⟩ := lexSuffix_terminated a r r' ha
  rw [next_token_eq, next_token_eq]
  simp only
  rw [h1, h2, ← e1]
  cases hs : lexSuffix (a ++ 0 :: r) with
  | error f =>
    left
    exact ⟨f, fun hf => e2 (by rw [hs, hf]), rfl, rfl⟩
  | ok res =>
    obtain ⟨k, s, len⟩ := res
    obtain ⟨h3, h4⟩ := e3 k s len hs
    right
    refine ⟨⟨k, i + s, len⟩, rfl, rfl, by simp only; omega, ?_⟩
    intro hk
    have := h4 hk
    simp only; omega

/-- The calls `parse_expression` and its loop at a cursor at or before a NUL
at `z`, on two buffers that agree up to `z`: the same fault, never a read
outside the buffer, or the same tree with the same cursor, at or before
`z`. -/
theorem parse_expression_terminated (b1 b2 : List Nat) (z : Nat) (hz : b1[z]? = some 0)
    (hag : b2.take (z + 1) = b1.take (z + 1)) (n : Nat) :
    (∀ i p, i ≤ z →
      (∃ f, f ≠ .outOfBounds ∧
        parse_expression n { buffer := b1, current := i } p = .error f ∧
        parse_expression n { buffer := b2, current := i } p = .error f) ∨
      (∃ t c, c ≤ z ∧
        parse_expression n { buffer := b1, current := i } p =
          .ok (t, { buffer := b1, current := c }) ∧
        parse_expression n { buffer := b2, current := i } p =
          .ok (t, { buffer := b2, current := c }))) ∧
    (∀ i p left, i ≤ z →
      (∃ f, f ≠ .outOfBounds ∧
        parse_loop n { buffer := b1, current := i } p left = .error f ∧
        parse_loop n { buffer := b2, current := i } p left = .error f) ∨
      (∃ t c, c ≤ z ∧
        parse_loop n { buffer := b1, current := i } p left =
          .ok (t, { buffer := b1, current := c }) ∧
        parse_loop n { buffer := b2, current := i } p left =
          .ok (t, { buffer := b2, current := c }))) := by
  induction n with
  | zero =>
    constructor
    · intro i p _
      exact Or.inl ⟨.outOfFuel, by simp, by rw [parse_expression], by rw [parse_expression]⟩
    · intro i p left _
      exact Or.inl ⟨.outOfFuel, by simp, by rw [parse_loop], by rw [parse_loop]⟩
  | succ n ih =>
    obtain ⟨ihE, ihL⟩ := ih
    constructor
    · intro i p hi
      rcases next_token_terminated b1 b2 z i hz hag hi with
        ⟨f, hf, h1, h2⟩ | ⟨t, h1, h2, hs, he⟩
      · exact Or.inl ⟨f, hf, by simp only [parse_expression, h1],
          by simp only [parse_expression, h2]⟩
      · simp only [parse_expression, h1, h2]
        cases hk : t.kind with
        | TOKEN_NUMBER =>
          simp only
          exact ihL _ p _ (he (by rw [hk]; decide))
        | TOKEN_LPAREN =>
          simp only
          rcases ihE _ .PREC_ASSIGNMENT (he (by rw [hk]; decide)) with
            ⟨f, hf, g1, g2⟩ | ⟨left, c, hc, g1, g2⟩
          · exact Or.inl ⟨f, hf, by simp only [g1], by simp only [g2]⟩
          · simp only [g1, g2]
            rcases next_token_terminated b1 b2 z c hz hag hc with
              ⟨f, hf, k1, k2⟩ | ⟨closing, k1, k2, ks, ke⟩
            · exact Or.inl ⟨f, hf, by simp only [k1], by simp only [k2]⟩
            · simp only [k1, k2]
              by_cases hcl : closing.kind = .TOKEN_RPAREN
              · simp only [hcl, ne_eq, not_true_eq_false, if_false]
                exact ihL _ p _ (ke (by rw [hcl]; decide))
              · simp only [ne_eq, hcl, not_false_eq_true, if_true]
                exact Or.inl ⟨.expectedRParen, by simp, rfl, rfl⟩
        | TOKEN_PLUS =>
          simp only
          rcases ihE _ .PREC_UNARY (he (by rw [hk]; decide)) with
            ⟨f, hf, g1, g2⟩ | ⟨operand, c, hc, g1, g2⟩
          · exact Or.inl ⟨f, hf, by simp only [g1], by simp only [g2]⟩
          · simp only [g1, g2]
            exact ihL c p _ hc
        | TOKEN_MINUS =>
          simp only
          rcases ihE _ .PREC_UNARY (he (by rw [hk]; decide)) with
            ⟨f, hf, g1, g2⟩ | ⟨operand, c, hc, g1, g2⟩
          · exact Or.inl ⟨f, hf, by simp only [g1], by simp only [g2]⟩
          · simp only [g1, g2]
            exact ihL c p _ hc
        | TOKEN_STAR => exact Or.inl ⟨.unexpectedToken t, by simp, rfl, rfl⟩
        | TOKEN_SLASH => exact Or.inl ⟨.unexpectedToken t, by simp, rfl, rfl⟩
        | TOKEN_RPAREN => exact Or.inl ⟨.unexpectedToken t, by simp, rfl, rfl⟩
        | TOKEN_EOF => exact Or.inl ⟨.unexpectedToken t, by simp, rfl, rfl⟩
    · intro i p left hi
      rcases next_token_terminated b1 b2 z i hz hag hi with
        ⟨f, hf, h1, h2⟩ | ⟨t, h1, h2, hs, he⟩
      · exact Or.inl ⟨f, hf, by simp only [parse_loop, h1], by simp only [parse_loop, h2]⟩
      · simp only [parse_loop, h1, h2]
        have hpb : ∀ b : List Nat,
            pushBack { buffer := b, current := t.start + t.length } t =
              { buffer := b, current := t.start } := by
          intro b; simp [pushBack]
        cases hb : binaryPrecedence t.kind with
        | none =>
          simp only [hpb]
          exact Or.inr ⟨left, t.start, hs, rfl, rfl⟩
        | some np =>
          simp only
          by_cases hle : np.toNat ≤ p.toNat
          · simp only [hle, if_true, hpb]
            exact Or.inr ⟨left, t.start, hs, rfl, rfl⟩
          · simp only [hle, if_false]
            have hk : t.kind ≠ .TOKEN_EOF := by
              intro e; rw [e] at hb; simp [binaryPrecedence] at hb
            rcases ihE _ np (he hk) with ⟨f, hf, g1, g2⟩ | ⟨right, c, hc, g1, g2⟩
            · exact Or.inl ⟨f, hf, by simp only [g1], by simp only [g2]⟩
            · simp only [g1, g2]
              exact ihL c p _ hc

/-- C18: `parse_expression` never reads beyond the terminator. Let the buffer
hold a NUL at `z` and the cursor start at or before `z`. `next_token` at the
NUL returns the end-of-input token of length 1 and leaves the cursor at
`z + 1`, one past the NUL. Even so, on the buffer cut off right after the NUL,
where any read past `z` would be a read outside the buffer, `parse_expression`
never makes such a read; what it returns (tree and cursor, or fault) is the
same on every buffer with the same bytes up to `z`, so no byte after `z` is
ever looked at; and on every successful return the cursor is at or before
`z`. -/
theorem parse_expression_reads_within_terminator (buffer : List Nat) (z i n : Nat)
    (p : Precedence) (hz : buffer[z]? = some 0) (hi : i ≤ z) :
    next_token { buffer := buffer, current := z } =
      .ok ({ kind := .TOKEN_EOF, start := z, length := 1 },
           { buffer := buffer, current := z + 1 }) ∧
    parse_expression n { buffer := buffer.take (z + 1), current := i } p ≠
      .error .outOfBounds ∧
    parse_expression n { buffer := buffer, current := i } p ≠ .error .outOfBounds ∧
    (∀ other : List Nat, other.take (z + 1) = buffer.take (z + 1) →
      cursorResult (parse_expression n { buffer := other, current := i } p) =
        cursorResult (parse_expression n { buffer := buffer, current := i } p)) ∧
    (∀ tree lexer', parse_expression n { buffer := buffer, current := i } p =
        .ok (tree, lexer') → lexer'.current ≤ z) := by
  have key : ∀ other : List Nat, other.take (z + 1) = buffer.take (z + 1) →
      _ := fun other ho => (parse_expression_terminated buffer other z hz ho n).1 i p hi
  refine ⟨?_, ?_, ?_, ?_, ?_⟩
  · rw [next_token_eq]
    simp only
    rw [drop_of_getElem? hz, lexSuffix_symbol _ (rfl : charKind 0 = some .TOKEN_EOF)]
    simp only [Nat.add_zero]
  · rcases key (buffer.take (z + 1)) (by rw [List.take_take, Nat.min_self]) with
      ⟨f, hf, _, g2⟩ | ⟨t, c, _, _, g2⟩
    · rw [g2]; intro e; cases e; exact hf rfl
    · rw [g2]; intro e; cases e
  · rcases key buffer rfl with ⟨f, hf, g1, _⟩ | ⟨t, c, _, g1, _⟩
    · rw [g1]; intro e; cases e; exact hf rfl
    · rw [g1]; intro e; cases e
  · intro other ho
    rcases key other ho with ⟨f, hf, g1, g2⟩ | ⟨t, c, _, g1, g2⟩
    · rw [g1, g2]
    · rw [g1, g2]; rfl
  · intro tree lexer' h
    rcases key buffer rfl with ⟨f, hf, g1, _⟩ | ⟨t, c, hc, g1, _⟩
    · rw [g1] at h; cases h
    · rw [g1] at h; cases h; exact hc

/-- C18 at the text `1 + 2` followed by its NUL at offset 5 and two more
bytes: the parse is that of the buffer cut off after the NUL, and leaves the
cursor at offset 5. -/
theorem parse_expression_reads_within_terminator_witness :
    ([49, 32, 43, 32, 50, 0, 57, 57] : List Nat)[5]? = some 0 ∧
    parse_expression 10 { buffer := [49, 32, 43, 32, 50, 0, 57, 57], current := 0 }
        .PREC_ASSIGNMENT =
      .ok (.node (.node .null .null .AST_NUMBER ⟨.TOKEN_NUMBER, 0, 1⟩)
            (.node .null .null .AST_NUMBER ⟨.TOKEN_NUMBER, 4, 1⟩) .AST_BINARY
            ⟨.TOKEN_PLUS, 2, 1⟩,
           { buffer := [49, 32, 43, 32, 50, 0, 57, 57], current := 5 }) ∧
    parse_expression 10 { buffer := [49, 32, 43, 32, 50, 0], current := 0 } .PREC_ASSIGNMENT ≠
      .error .outOfBounds ∧
    cursorResult (parse_expression 10 { buffer := [49, 32, 43, 32, 50, 0], current := 0 }
        .PREC_ASSIGNMENT) =
      cursorResult (parse_expression 10
        { buffer := [49, 32, 43, 32, 50, 0, 57, 57], current := 0 } .PREC_ASSIGNMENT) :=
  ⟨rfl, rfl,
   (parse_expression_reads_within_terminator [49, 32, 43, 32, 50, 0, 57, 57] 5 0 10
      .PREC_ASSIGNMENT rfl (by decide)).2.1,
   (parse_expression_reads_within_terminator [49, 32, 43, 32, 50, 0, 57, 57] 5 0 10
      .PREC_ASSIGNMENT rfl (by decide)).2.2.2.1 [49, 32, 43, 32, 50, 0] rfl⟩

end Pratt
